import Mathlib

/-!
# epl::Vector (Vector.h): a double-ended growable buffer with generation-tracked iterators

Shallow embedding of `src/Vector.h`.

* A `T*` is a natural number: an address counted in units of `sizeof(T)`, with
  `0` for `nullptr`.  Element storage is one flat map from addresses to cells; a
  cell holds `some x` when an object `x` is constructed there and `none` when it
  is raw (or destroyed) storage.
* A `CtrlBlk*` is a natural number too (`0` for `nullptr`), a key of the map of
  control blocks; `none` there means that no control block lives at the address
  (never allocated, or deleted).
* `operator new` is not part of the file: every function that allocates takes
  the address the allocator hands out as an argument (`newBuf` for an element
  block, `newCb` for a control block).
* Copy and move construction of `T` transport the value, `T::~T` turns the
  cell back into raw storage.
* `uint64_t` fields of the control block wrap modulo `2^64`.  Sizes and
  addresses do not: a block never holds more cells than the address space.
* A method returns its outcome together with the state it leaves behind, so
  that the state after a thrown exception can be inspected.  Reading through a
  null or dangling `CtrlBlk*` is undefined behaviour in C++; the embedding
  reports it as the outcome `Exn.fault`.
* A state of a whole program (`World`) is the heap together with the
  containers and the cursors that are alive; `Reach` lists the calls of the
  header that lead from one state to the next, and `Tidy` those among them
  that keep every window inside its block, the allocator handing out blocks
  clear of the live ones.
* The cursors declare a copy constructor and a destructor but no copy
  assignment; `const_iterator.assign` is the member-wise copy the compiler
  provides in its place.
-/

namespace epl

/-! ## Exceptions -/

/-- The enum `invalid_iterator::Severity_level`. -/
inductive Severity_level
  | SEVERE
  | MODERATE
  | MILD
  | WARNING
deriving DecidableEq, Repr

/-- What a call can end with other than a normal return: the two exception
classes the header throws (`epl::invalid_iterator` with its `level`,
`std::out_of_range`), and `fault` for a read through a null or deleted
control-block pointer. -/
inductive Exn
  | invalid_iterator (level : Severity_level)
  | out_of_range
  | fault
deriving DecidableEq, Repr

/-- Outcome of a call (normal return of an `α`, or an `Exn`) paired with the
state `σ` the call leaves behind. -/
abbrev Outcome (α σ : Type) : Type := Except Exn α × σ

/-! ## Control block -/

/-- The enum `CtrlBlk::invalidate_reason`. -/
inductive invalidate_reason
  | PUSH_BACK
  | POP_BACK
  | PUSH_FRONT
  | POP_FRONT
  | EMPLACE_BACK
  | COPY_ASSIGN
  | MOVE_ASSIGN
  | DESTROY
  | NONE
deriving DecidableEq, Repr

/-- Number of values of a `uint64_t`, `2^64`. -/
def U64 : Nat := 18446744073709551616

/-- The macro `INT_MIN` of `<climits>` (`-2^31`) as the `uint64_t` it becomes
when it is stored in, or compared with, `_version`: `2^64 - 2^31`. -/
def INT_MIN : Nat := 18446744071562067968

/-- The struct `Vector<T>::CtrlBlk`. -/
structure CtrlBlk where
  _version : Nat
  _refs : Nat
  _reason : invalidate_reason
  _location : Nat
  _begin : Nat
  _end : Nat
deriving DecidableEq, Repr

namespace CtrlBlk

/-- The constructor `explicit CtrlBlk(int64_t version)`; the `int64_t` argument
is stored back into a `uint64_t`. -/
def new (version : Nat) : CtrlBlk :=
  { _version := version % U64, _refs := 0, _reason := .NONE,
    _location := 0, _begin := 0, _end := 0 }

/-- The method `incRef`: `_refs++` on a `uint64_t`. -/
def incRef (cb : CtrlBlk) : CtrlBlk :=
  { cb with _refs := (cb._refs + 1) % U64 }

/-- The method `decRef`: `_refs--` on a `uint64_t`. -/
def decRef (cb : CtrlBlk) : CtrlBlk :=
  { cb with _refs := (cb._refs + U64 - 1) % U64 }

/-- The method `invalidate`. -/
def invalidate (cb : CtrlBlk) (reason : invalidate_reason)
    (location begin_ end_ : Nat) : CtrlBlk :=
  { cb with _version := INT_MIN, _reason := reason,
            _location := location, _begin := begin_, _end := end_ }

end CtrlBlk

/-! ## Memory -/

/-- Pointwise update of a map from addresses. -/
def store {α : Type} (m : Nat → α) (a : Nat) (x : α) : Nat → α :=
  fun b => if b = a then x else m b

/-- The two heaps the header works on: `mem`, the element cells, and `blks`,
the control blocks. -/
structure Heap (T : Type) where
  mem : Nat → Option T
  blks : Nat → Option CtrlBlk

/-- The relocation loop shared by the growing paths,
`for (k = 0; k < n; k++) { new (dst + k) T{ std::move(src[k]) }; src[k].T::~T(); }`,
run for its first `n` iterations. -/
def relocate {T : Type} (m : Nat → Option T) (dst src : Nat) : Nat → (Nat → Option T)
  | 0 => m
  | n + 1 =>
    let m1 := relocate m dst src n
    store (store m1 (dst + n) (m1 (src + n))) (src + n) none

/-- The loop `for (k = 0; k < n; k++) new (dst + k) T{ src[k] };` of `copy`,
run for its first `n` iterations. -/
def copy_cells {T : Type} (m : Nat → Option T) (dst src : Nat) : Nat → (Nat → Option T)
  | 0 => m
  | n + 1 =>
    let m1 := copy_cells m dst src n
    store m1 (dst + n) (m1 (src + n))

/-- The loop `for (k = 0; k < n; k++) p[k].T::~T();` of `destroy`. -/
def destroy_cells {T : Type} (m : Nat → Option T) (p : Nat) : Nat → (Nat → Option T)
  | 0 => m
  | n + 1 => store (destroy_cells m p n) (p + n) none

/-- The loop `for (k = 0; k < n; k++) new (p + k) T{};` of `init`. -/
def fill_cells {T : Type} (m : Nat → Option T) (p : Nat) (dflt : T) : Nat → (Nat → Option T)
  | 0 => m
  | n + 1 => store (fill_cells m p dflt n) (p + n) (some dflt)

/-! ## The container -/

/-- The data members of `Vector<T>`. -/
structure Vector where
  _buffer : Nat
  _buffer_end : Nat
  _front : Nat
  _back : Nat
  _length : Nat
  _ctrlBlk : Nat
deriving DecidableEq, Repr

/-- The constant `initial_size`. -/
def initial_size : Nat := 8

namespace Vector

variable {T : Type}

/-- The private method `alloc`; `newBuf` is what `operator new` returns. -/
def alloc (v : Vector) (n newBuf : Nat) : Vector :=
  { v with _buffer := newBuf, _buffer_end := newBuf + n,
           _front := newBuf, _back := newBuf }

/-- The private method `init`; `newCb` is where `new CtrlBlk(1)` is placed and
`dflt` is the value `T{}`. -/
def init (h : Heap T) (v : Vector) (n : Nat) (dflt : T) (newBuf newCb : Nat) :
    Heap T × Vector :=
  let size := n
  let r : (Nat → Option T) × Vector :=
    if size = 0 then
      let v1 := v.alloc initial_size newBuf
      (h.mem, { v1 with _front := v1._buffer + 0, _back := v1._buffer + 0,
                        _buffer_end := v1._buffer + initial_size, _length := 0 })
    else
      let v1 := v.alloc size newBuf
      (fill_cells h.mem v1._buffer dflt size,
       { v1 with _buffer_end := v1._buffer + size, _front := v1._buffer + 0,
                 _back := v1._buffer + size, _length := size })
  ({ mem := r.1, blks := store h.blks newCb (some (CtrlBlk.new 1)) },
   { r.2 with _ctrlBlk := newCb })

/-- The object before its constructor has run: every member is indeterminate
in C++, and every constructor below overwrites all six. -/
def raw : Vector :=
  { _buffer := 0, _buffer_end := 0, _front := 0, _back := 0, _length := 0, _ctrlBlk := 0 }

/-- The constructor `Vector(void)`. -/
def ctor (h : Heap T) (dflt : T) (newBuf newCb : Nat) : Heap T × Vector :=
  init h raw 0 dflt newBuf newCb

/-- The constructor `explicit Vector(uint64_t n)`. -/
def ctor_n (h : Heap T) (n : Nat) (dflt : T) (newBuf newCb : Nat) : Heap T × Vector :=
  init h raw n dflt newBuf newCb

/-- The private method `update_ctrlBlk`; `newCb` is where `new CtrlBlk(version + 1)`
is placed when the method allocates. -/
def update_ctrlBlk (h : Heap T) (v : Vector) (reason : invalidate_reason)
    (location begin_ end_ : Nat) (newCb : Nat) : Outcome Unit (Heap T × Vector) :=
  match h.blks v._ctrlBlk with
  | none => (.error .fault, (h, v))
  | some cb =>
    let version := cb._version
    if cb._refs = 0 then
      let cb1 : CtrlBlk :=
        { cb with _version := (version + 1) % U64, _reason := .NONE,
                  _location := 0, _begin := 0, _end := 0 }
      (.ok (), ({ h with blks := store h.blks v._ctrlBlk (some cb1) }, v))
    else
      let blks1 := store h.blks v._ctrlBlk (some (cb.invalidate reason location begin_ end_))
      let blks2 := store blks1 newCb (some (CtrlBlk.new ((version + 1) % U64)))
      (.ok (), ({ h with blks := blks2 }, { v with _ctrlBlk := newCb }))

/-- The private method `copy`, run on the object `v` with argument `other`. -/
def copy (h : Heap T) (v other : Vector) (newBuf newCb : Nat) : Heap T × Vector :=
  let v1 := { v with _length := other._length }
  let v2 := { v1 with _buffer := newBuf }
  let v3 := { v2 with _buffer_end := (other._buffer_end - other._buffer) + v2._buffer }
  let v4 := { v3 with _front := (other._front - other._buffer) + v3._buffer }
  let v5 := { v4 with _back := (other._back - other._buffer) + v4._buffer }
  let v6 := { v5 with _ctrlBlk := newCb }
  ({ mem := copy_cells h.mem v6._front other._front v6._length,
     blks := store h.blks newCb (some (CtrlBlk.new 1)) }, v6)

/-- The copy constructor `Vector(const Vector& other)`. -/
def ctor_copy (h : Heap T) (other : Vector) (newBuf newCb : Nat) : Heap T × Vector :=
  copy h raw other newBuf newCb

/-- The private method `destroy`. -/
def destroy (h : Heap T) (v : Vector) (reason : invalidate_reason) :
    Outcome Unit (Heap T × Vector) :=
  let r : (Nat → Option T) × Vector :=
    if v._buffer ≠ 0 then
      (if v._length > 0 then destroy_cells h.mem v._front v._length else h.mem,
       { v with _buffer := 0 })
    else (h.mem, v)
  let h1 : Heap T := { h with mem := r.1 }
  let v1 := r.2
  if v1._ctrlBlk ≠ 0 then
    match h1.blks v1._ctrlBlk with
    | none => (.error .fault, (h1, v1))
    | some cb =>
      let cb1 := cb.invalidate reason 0 0 0
      if cb1._refs = 0 then
        (.ok (), ({ h1 with blks := store h1.blks v1._ctrlBlk none }, { v1 with _ctrlBlk := 0 }))
      else
        (.ok (), ({ h1 with blks := store h1.blks v1._ctrlBlk (some cb1) }, v1))
  else (.ok (), (h1, v1))

/-- The destructor `~Vector`. -/
def dtor (h : Heap T) (v : Vector) : Outcome Unit (Heap T × Vector) :=
  destroy h v .DESTROY

/-- The copy assignment `operator=(const Vector& other)`; `same` tells whether
`this == &other`. -/
def assign (h : Heap T) (v other : Vector) (same : Bool) (newBuf newCb : Nat) :
    Outcome Unit (Heap T × Vector) :=
  if !same then
    match destroy h v .COPY_ASSIGN with
    | (.ok (), (h1, v1)) => (.ok (), copy h1 v1 other newBuf newCb)
    | r => r
  else (.ok (), (h, v))

/-- The move constructor `Vector(Vector&& other)`: the new object, and `other`
as the constructor leaves it. -/
def ctor_move (other : Vector) : Vector × Vector :=
  ({ _buffer := other._buffer, _buffer_end := other._buffer_end, _front := other._front,
     _back := other._back, _length := other._length, _ctrlBlk := other._ctrlBlk },
   { _buffer := 0, _buffer_end := 0, _front := 0, _back := 0, _length := 0, _ctrlBlk := 0 })

/-- The move assignment `operator=(Vector&& other)`: the six members are
swapped, then `update_ctrlBlk` is called on `other`.  The source writes that
call as `other.update_ctrlBlk(CtrlBlk::MOVE_ASSIGN)`, with the reason alone,
although `update_ctrlBlk` has four parameters and no default argument; the
three pointers the call lacks are the arguments `location`, `begin_` and `end_`
here.  The state returned is the heap, `*this` and `other`. -/
def assign_move (h : Heap T) (v other : Vector) (location begin_ end_ newCb : Nat) :
    Outcome Unit (Heap T × Vector × Vector) :=
  let v1 : Vector :=
    { _buffer := other._buffer, _front := other._front, _back := other._back,
      _buffer_end := other._buffer_end, _length := other._length,
      _ctrlBlk := other._ctrlBlk }
  let other1 : Vector :=
    { _buffer := v._buffer, _front := v._front, _back := v._back,
      _buffer_end := v._buffer_end, _length := v._length, _ctrlBlk := v._ctrlBlk }
  let r := update_ctrlBlk h other1 .MOVE_ASSIGN location begin_ end_ newCb
  (r.1, (r.2.1, v1, r.2.2))

/-- The method `size`. -/
def size (v : Vector) : Nat := v._length

/-- The subscript `operator[]` (both overloads): throws or returns the
reference `_front[k]`, that is the address of the cell. -/
def index (v : Vector) (k : Nat) : Except Exn Nat :=
  if k < 0 ∨ k ≥ v._length then .error .out_of_range
  else .ok (v._front + k)

/-- The method `push_back(const T& val)`. -/
def push_back (h : Heap T) (v : Vector) (val : T) (newBuf newCb : Nat) :
    Outcome Unit (Heap T × Vector) :=
  let old_front := v._front
  let old_length := v._length
  let current_buffer_size := v._buffer_end - v._buffer
  let grow : Bool := decide (v._back = v._buffer_end)
  let new_ptr := if grow then newBuf else v._buffer
  let v1 :=
    if grow then
      { v with _front := newBuf + (v._front - v._buffer),
               _back := newBuf + (v._back - v._buffer),
               _buffer_end := newBuf + current_buffer_size * 2 }
    else v
  let v2 := { v1 with _length := v1._length + 1 }
  let m1 := store h.mem v2._back (some val)
  let v3 := { v2 with _back := v2._back + 1 }
  let r : (Nat → Option T) × Vector :=
    if new_ptr ≠ v3._buffer then
      (relocate m1 v3._front old_front old_length, { v3 with _buffer := new_ptr })
    else (m1, v3)
  update_ctrlBlk { h with mem := r.1 } r.2 .PUSH_BACK (r.2._back - 1) r.2._front r.2._back newCb

/-- The method `push_back(T&& val)`. -/
def push_back_rv (h : Heap T) (v : Vector) (val : T) (newBuf newCb : Nat) :
    Outcome Unit (Heap T × Vector) :=
  let old_front := v._front
  let old_length := v._length
  let current_buffer_size := v._buffer_end - v._buffer
  let grow : Bool := decide (v._back = v._buffer_end)
  let new_ptr := if grow then newBuf else v._buffer
  let v1 :=
    if grow then
      { v with _front := newBuf + (v._front - v._buffer),
               _back := newBuf + (v._back - v._buffer),
               _buffer_end := newBuf + current_buffer_size * 2 }
    else v
  let v2 := { v1 with _length := v1._length + 1 }
  let m1 := store h.mem v2._back (some val)
  let v3 := { v2 with _back := v2._back + 1 }
  let r : (Nat → Option T) × Vector :=
    if new_ptr ≠ v3._buffer then
      (relocate m1 v3._front old_front old_length, { v3 with _buffer := new_ptr })
    else (m1, v3)
  update_ctrlBlk { h with mem := r.1 } r.2 .PUSH_BACK (r.2._back - 1) r.2._front r.2._back newCb

/-- The method `emplace_back(Args&&... args)`; `val` is the object
`T{ std::forward<Args>(args)... }`. -/
def emplace_back (h : Heap T) (v : Vector) (val : T) (newBuf newCb : Nat) :
    Outcome Unit (Heap T × Vector) :=
  let old_front := v._front
  let old_length := v._length
  let current_buffer_size := v._buffer_end - v._buffer
  let grow : Bool := decide (v._back = v._buffer_end)
  let new_ptr := if grow then newBuf else v._buffer
  let v1 :=
    if grow then
      { v with _front := newBuf + (v._front - v._buffer),
               _back := newBuf + (v._back - v._buffer),
               _buffer_end := newBuf + current_buffer_size * 2 }
    else v
  let v2 := { v1 with _length := v1._length + 1 }
  let m1 := store h.mem v2._back (some val)
  let v3 := { v2 with _back := v2._back + 1 }
  let r : (Nat → Option T) × Vector :=
    if new_ptr ≠ v3._buffer then
      (relocate m1 v3._front old_front old_length, { v3 with _buffer := new_ptr })
    else (m1, v3)
  update_ctrlBlk { h with mem := r.1 } r.2 .EMPLACE_BACK (r.2._back - 1) r.2._front r.2._back newCb

/-- The method `push_front(const T& val)`. -/
def push_front (h : Heap T) (v : Vector) (val : T) (newBuf newCb : Nat) :
    Outcome Unit (Heap T × Vector) :=
  let old_front := v._front
  let old_length := v._length
  let old_buffer_size := v._buffer_end - v._buffer
  let grow : Bool := decide (v._front = v._buffer)
  let current_buffer_size := if grow then old_buffer_size * 2 else old_buffer_size
  let new_ptr := if grow then newBuf else v._buffer
  let offset := if grow then current_buffer_size - old_buffer_size else 0
  let v1 :=
    if grow then
      { v with _front := newBuf + (v._front - v._buffer) + offset,
               _back := newBuf + (v._back - v._buffer) + offset,
               _buffer_end := newBuf + current_buffer_size }
    else v
  let v2 := { v1 with _front := v1._front - 1, _length := v1._length + 1 }
  let m1 := store h.mem v2._front (some val)
  let r : (Nat → Option T) × Vector :=
    if new_ptr ≠ v2._buffer then
      (relocate m1 (v2._front + 1) old_front old_length, { v2 with _buffer := new_ptr })
    else (m1, v2)
  update_ctrlBlk { h with mem := r.1 } r.2 .PUSH_FRONT r.2._front r.2._front r.2._back newCb

/-- The method `push_front(T&& val)`. -/
def push_front_rv (h : Heap T) (v : Vector) (val : T) (newBuf newCb : Nat) :
    Outcome Unit (Heap T × Vector) :=
  let old_front := v._front
  let old_length := v._length
  let old_buffer_size := v._buffer_end - v._buffer
  let grow : Bool := decide (v._front = v._buffer)
  let current_buffer_size := if grow then old_buffer_size * 2 else old_buffer_size
  let new_ptr := if grow then newBuf else v._buffer
  let offset := if grow then current_buffer_size - old_buffer_size else 0
  let v1 :=
    if grow then
      { v with _front := newBuf + (v._front - v._buffer) + offset,
               _back := newBuf + (v._back - v._buffer) + offset,
               _buffer_end := newBuf + current_buffer_size }
    else v
  let v2 := { v1 with _front := v1._front - 1, _length := v1._length + 1 }
  let m1 := store h.mem v2._front (some val)
  let r : (Nat → Option T) × Vector :=
    if new_ptr ≠ v2._buffer then
      (relocate m1 (v2._front + 1) old_front old_length, { v2 with _buffer := new_ptr })
    else (m1, v2)
  update_ctrlBlk { h with mem := r.1 } r.2 .PUSH_FRONT r.2._front r.2._front r.2._back newCb

/-- The method `pop_back`. -/
def pop_back (h : Heap T) (v : Vector) (newCb : Nat) : Outcome Unit (Heap T × Vector) :=
  if v._length ≠ 0 then
    let v1 := { v with _back := v._back - 1 }
    let m1 := store h.mem v1._back none
    let v2 := { v1 with _length := v1._length - 1 }
    update_ctrlBlk { h with mem := m1 } v2 .POP_BACK v2._back v2._front v2._back newCb
  else (.error .out_of_range, (h, v))

/-- The method `pop_front`. -/
def pop_front (h : Heap T) (v : Vector) (newCb : Nat) : Outcome Unit (Heap T × Vector) :=
  if v._length ≠ 0 then
    let m1 := store h.mem v._front none
    let v1 := { v with _front := v._front + 1 }
    let v2 := { v1 with _length := v1._length - 1 }
    update_ctrlBlk { h with mem := m1 } v2 .POP_FRONT (v2._front - 1) v2._front v2._back newCb
  else (.error .out_of_range, (h, v))

end Vector

/-! ## Cursors -/

/-- The data members of `const_iterator` (and of `iterator`, which adds none). -/
structure const_iterator where
  _ptr : Nat
  _begin : Nat
  _end : Nat
  _ctrlBlk : Nat
deriving DecidableEq, Repr

namespace const_iterator

variable {T : Type}

/-- The method `validate_base`. -/
def validate_base (h : Heap T) (c : const_iterator) : Except Exn Unit :=
  match h.blks c._ctrlBlk with
  | none => .error .fault
  | some cb =>
    if cb._version = INT_MIN then
      if cb._reason = .DESTROY then
        .error (.invalid_iterator .SEVERE)
      else if cb._reason = .COPY_ASSIGN ∨ cb._reason = .MOVE_ASSIGN then
        .error (.invalid_iterator .MODERATE)
      else if (cb._reason = .POP_BACK ∨ cb._reason = .POP_FRONT) ∧ c._ptr = cb._location then
        .error (.invalid_iterator .SEVERE)
      else if (cb._reason = .PUSH_BACK ∨ cb._reason = .POP_BACK ∨ cb._reason = .EMPLACE_BACK ∨
                cb._reason = .PUSH_FRONT ∨ cb._reason = .POP_FRONT) ∧
              (c._ptr < cb._begin ∨ c._ptr > cb._end) then
        .error (.invalid_iterator .MODERATE)
      else if cb._reason = .POP_FRONT ∨ cb._reason = .PUSH_FRONT then
        .error (.invalid_iterator .WARNING)
      else
        .error (.invalid_iterator .MILD)
    else .ok ()

/-- The method `validate_deref`. -/
def validate_deref (h : Heap T) (c : const_iterator) : Except Exn Unit :=
  let isOutOfRange : Bool := decide (c._ptr = 0 ∨ c._ptr < c._begin ∨ c._ptr ≥ c._end)
  let caught : Except Exn Unit :=
    match validate_base h c with
    | .error (.invalid_iterator level) =>
      if !isOutOfRange || level = .SEVERE then .error (.invalid_iterator level) else .ok ()
    | r => r
  match caught with
  | .error e => .error e
  | .ok () => if isOutOfRange then .error .out_of_range else .ok ()

/-- The copy constructor `const_iterator(const const_iterator& other)`. -/
def ctor_copy (h : Heap T) (other : const_iterator) : Outcome const_iterator (Heap T) :=
  let c : const_iterator :=
    { _ctrlBlk := other._ctrlBlk, _ptr := other._ptr, _begin := other._begin, _end := other._end }
  match h.blks c._ctrlBlk with
  | none => (.error .fault, h)
  | some cb => (.ok c, { h with blks := store h.blks c._ctrlBlk (some cb.incRef) })

/-- The constructor `const_iterator(T* ptr, T* begin, T* end, CtrlBlk* ctrlBlk)`. -/
def ctor (h : Heap T) (ptr begin_ end_ ctrlBlk : Nat) : Outcome const_iterator (Heap T) :=
  let c : const_iterator := { _ptr := ptr, _begin := begin_, _end := end_, _ctrlBlk := ctrlBlk }
  match h.blks c._ctrlBlk with
  | none => (.error .fault, h)
  | some cb => (.ok c, { h with blks := store h.blks c._ctrlBlk (some cb.incRef) })

/-- The dereference `operator*`: throws or returns the reference `*_ptr`, that
is the address of the cell. -/
def deref (h : Heap T) (c : const_iterator) : Except Exn Nat :=
  match validate_deref h c with
  | .error e => .error e
  | .ok () => .ok c._ptr

/-- The comparison `operator==`. -/
def eq (h : Heap T) (c rhs : const_iterator) : Except Exn Bool :=
  match validate_base h c with
  | .error e => .error e
  | .ok () => .ok (decide (c._ptr = rhs._ptr))

/-- The comparison `operator!=`. -/
def ne (h : Heap T) (c rhs : const_iterator) : Except Exn Bool :=
  match validate_base h c with
  | .error e => .error e
  | .ok () =>
    match eq h c rhs with
    | .error e => .error e
    | .ok b => .ok (!b)

/-- The difference `operator-`. -/
def sub (h : Heap T) (c rhs : const_iterator) : Except Exn Int :=
  match validate_base h c with
  | .error e => .error e
  | .ok () => .ok ((c._ptr : Int) - (rhs._ptr : Int))

/-- The offset `operator+(int64_t offset)`. -/
def add (h : Heap T) (c : const_iterator) (offset : Int) : Outcome const_iterator (Heap T) :=
  match validate_base h c with
  | .error e => (.error e, h)
  | .ok () =>
    match ctor_copy h c with
    | (.ok t, h1) => (.ok { t with _ptr := ((t._ptr : Int) + offset).toNat }, h1)
    | r => r

/-- The pre-increment `operator++`. -/
def inc (h : Heap T) (c : const_iterator) : Outcome Unit const_iterator :=
  match validate_base h c with
  | .error e => (.error e, c)
  | .ok () => (.ok (), { c with _ptr := c._ptr + 1 })

/-- The pre-decrement `operator--`. -/
def dec (h : Heap T) (c : const_iterator) : Outcome Unit const_iterator :=
  match validate_base h c with
  | .error e => (.error e, c)
  | .ok () => (.ok (), { c with _ptr := c._ptr - 1 })

/-- The destructor `~const_iterator`. -/
def dtor (h : Heap T) (c : const_iterator) : Outcome Unit (Heap T) :=
  match h.blks c._ctrlBlk with
  | none => (.error .fault, h)
  | some cb =>
    let cb1 := cb.decRef
    if cb1._version = INT_MIN ∧ cb1._refs = 0 then
      (.ok (), { h with blks := store h.blks c._ctrlBlk none })
    else
      (.ok (), { h with blks := store h.blks c._ctrlBlk (some cb1) })

end const_iterator

/-- The struct `iterator : public const_iterator`: the same members. -/
abbrev iterator : Type := const_iterator

namespace iterator

variable {T : Type}

/-- The constructor `iterator(T* ptr, T* begin, T* end, CtrlBlk* ctrlBlk)`. -/
def ctor (h : Heap T) (ptr begin_ end_ ctrlBlk : Nat) : Outcome iterator (Heap T) :=
  const_iterator.ctor h ptr begin_ end_ ctrlBlk

/-- The copy constructor `iterator(const iterator& other)`. -/
def ctor_copy (h : Heap T) (other : iterator) : Outcome iterator (Heap T) :=
  const_iterator.ctor_copy h other

/-- The dereference `T& operator*`. -/
def deref (h : Heap T) (c : iterator) : Except Exn Nat :=
  match const_iterator.validate_deref h c with
  | .error e => .error e
  | .ok () => .ok c._ptr

/-- The pre-increment `iterator& operator++`. -/
def inc (h : Heap T) (c : iterator) : Outcome Unit iterator :=
  match const_iterator.validate_base h c with
  | .error e => (.error e, c)
  | .ok () => (.ok (), { c with _ptr := c._ptr + 1 })

/-- The pre-decrement `iterator& operator--`. -/
def dec (h : Heap T) (c : iterator) : Outcome Unit iterator :=
  match const_iterator.validate_base h c with
  | .error e => (.error e, c)
  | .ok () => (.ok (), { c with _ptr := c._ptr - 1 })

/-- The conversion `operator const_iterator()`. -/
def to_const (h : Heap T) (c : iterator) : Outcome const_iterator (Heap T) :=
  const_iterator.ctor_copy h c

end iterator

namespace Vector

variable {T : Type}

/-- The method `iterator begin()`. -/
def begin (h : Heap T) (v : Vector) : Outcome iterator (Heap T) :=
  iterator.ctor h v._front v._front v._back v._ctrlBlk

/-- The method `const_iterator begin() const`. -/
def cbegin (h : Heap T) (v : Vector) : Outcome const_iterator (Heap T) :=
  const_iterator.ctor h v._front v._front v._back v._ctrlBlk

/-- The method `iterator end()`. -/
def end_ (h : Heap T) (v : Vector) : Outcome iterator (Heap T) :=
  iterator.ctor h v._back v._front v._back v._ctrlBlk

/-- The method `const_iterator end() const`. -/
def cend (h : Heap T) (v : Vector) : Outcome const_iterator (Heap T) :=
  const_iterator.ctor h v._back v._front v._back v._ctrlBlk

end Vector

/-! ## Predicates used by the statements -/

namespace Vector

variable {T : Type}

/-- The layout invariant of a container: the occupied window lies inside the
block, the block has at least one cell, and `_length` is the width of the
window. -/
def WF (v : Vector) : Prop :=
  v._buffer ≤ v._front ∧ v._front ≤ v._back ∧ v._back ≤ v._buffer_end ∧
  v._buffer < v._buffer_end ∧ v._length = v._back - v._front

instance (v : Vector) : Decidable v.WF := by
  unfold WF; infer_instance

/-- The container holds a control block: `_ctrlBlk` points at a live `CtrlBlk`. -/
def HasCtrlBlk (h : Heap T) (v : Vector) : Prop :=
  (h.blks v._ctrlBlk).isSome = true

instance (h : Heap T) (v : Vector) : Decidable (v.HasCtrlBlk h) := by
  unfold HasCtrlBlk; infer_instance

/-- Capacity of the block, `_buffer_end - _buffer`. -/
def capacity (v : Vector) : Nat := v._buffer_end - v._buffer

/-- The block of `n` cells at `p` does not overlap the block of `v`: what
`operator new` guarantees for a block it returns while `v` owns its own. -/
def FreshBlock (v : Vector) (p n : Nat) : Prop :=
  p + n ≤ v._buffer ∨ v._buffer_end ≤ p

instance (v : Vector) (p n : Nat) : Decidable (v.FreshBlock p n) := by
  unfold FreshBlock; infer_instance

/-- The object found through the reference `v[k]`: the exception of `operator[]`,
or the content of the cell it designates. -/
def read (h : Heap T) (v : Vector) (k : Nat) : Except Exn (Option T) :=
  match v.index k with
  | .error e => .error e
  | .ok a => .ok (h.mem a)

/-- The logical contents of `v` are the list `xs`: `size()` is its length and
`v[k]` designates `xs[k]` for every `k` below it. -/
def Contents (h : Heap T) (v : Vector) (xs : List T) : Prop :=
  v.size = xs.length ∧ ∀ k (hk : k < xs.length), v.read h k = .ok (some xs[k])

end Vector

instance Except.decEq {ε α : Type} [DecidableEq ε] [DecidableEq α] : DecidableEq (Except ε α)
  | .ok a, .ok b =>
    if hab : a = b then isTrue (congrArg Except.ok hab)
    else isFalse (fun e => hab (Except.ok.inj e))
  | .error a, .error b =>
    if hab : a = b then isTrue (congrArg Except.error hab)
    else isFalse (fun e => hab (Except.error.inj e))
  | .ok _, .error _ => isFalse (fun e => Except.noConfusion e)
  | .error _, .ok _ => isFalse (fun e => Except.noConfusion e)

instance Contents.decidable {T : Type} [DecidableEq T] (h : Heap T) (v : Vector) (xs : List T) :
    Decidable (Vector.Contents h v xs) := by
  unfold Vector.Contents; infer_instance

/-! ## Sequences of end mutations -/

/-- One call of a mutator at either end, with its arguments: the value, and
the addresses the allocator hands out if the call allocates. -/
inductive Op (T : Type)
  | push_back (val : T) (newBuf newCb : Nat)
  | push_back_rv (val : T) (newBuf newCb : Nat)
  | emplace_back (val : T) (newBuf newCb : Nat)
  | push_front (val : T) (newBuf newCb : Nat)
  | push_front_rv (val : T) (newBuf newCb : Nat)
  | pop_back (newCb : Nat)
  | pop_front (newCb : Nat)

namespace Op

variable {T : Type}

/-- The call `op` made on the container `s.2` in the heap `s.1`. -/
def apply (op : Op T) (s : Heap T × Vector) : Outcome Unit (Heap T × Vector) :=
  match op with
  | .push_back val newBuf newCb => Vector.push_back s.1 s.2 val newBuf newCb
  | .push_back_rv val newBuf newCb => Vector.push_back_rv s.1 s.2 val newBuf newCb
  | .emplace_back val newBuf newCb => Vector.emplace_back s.1 s.2 val newBuf newCb
  | .push_front val newBuf newCb => Vector.push_front s.1 s.2 val newBuf newCb
  | .push_front_rv val newBuf newCb => Vector.push_front_rv s.1 s.2 val newBuf newCb
  | .pop_back newCb => Vector.pop_back s.1 s.2 newCb
  | .pop_front newCb => Vector.pop_front s.1 s.2 newCb

/-- Whether the call inserts (append, prepend) rather than removes. -/
def isInsert : Op T → Bool
  | .pop_back _ => false
  | .pop_front _ => false
  | _ => true

/-- The element block the allocator would hand out to the call, if the call
can allocate one. -/
def newBuf? : Op T → Option Nat
  | .push_back _ newBuf _ => some newBuf
  | .push_back_rv _ newBuf _ => some newBuf
  | .emplace_back _ newBuf _ => some newBuf
  | .push_front _ newBuf _ => some newBuf
  | .push_front_rv _ newBuf _ => some newBuf
  | .pop_back _ => none
  | .pop_front _ => none

/-- The control block address the allocator would hand out to the call. -/
def newCb : Op T → Nat
  | .push_back _ _ newCb => newCb
  | .push_back_rv _ _ newCb => newCb
  | .emplace_back _ _ newCb => newCb
  | .push_front _ _ newCb => newCb
  | .push_front_rv _ _ newCb => newCb
  | .pop_back newCb => newCb
  | .pop_front newCb => newCb

end Op

/-- A state together with the count of the insertions and of the removals
that returned normally on the way to it. -/
structure Tally (T : Type) where
  state : Heap T × Vector
  inserted : Nat
  removed : Nat

namespace Tally

variable {T : Type}

/-- Make one call and count it if it returns normally. -/
def step (t : Tally T) (op : Op T) : Tally T :=
  match (op.apply t.state).1 with
  | .ok () =>
    if op.isInsert then
      { state := (op.apply t.state).2, inserted := t.inserted + 1, removed := t.removed }
    else
      { state := (op.apply t.state).2, inserted := t.inserted, removed := t.removed + 1 }
  | .error _ => { t with state := (op.apply t.state).2 }

/-- Make the calls of `ops` one after the other. -/
def run (t : Tally T) (ops : List (Op T)) : Tally T := ops.foldl step t

/-- The tally at the start of a run from the state `s`. -/
def start (s : Heap T × Vector) : Tally T := { state := s, inserted := 0, removed := 0 }

end Tally

/-- The call `op` finds no room at its end of the block of `v` and asks the
allocator for a new block. -/
def Op.grows {T : Type} (op : Op T) (v : Vector) : Bool :=
  match op with
  | .push_back _ _ _ | .push_back_rv _ _ _ | .emplace_back _ _ _ =>
    decide (v._back = v._buffer_end)
  | .push_front _ _ _ | .push_front_rv _ _ _ => decide (v._front = v._buffer)
  | .pop_back _ | .pop_front _ => false

/-- Along the calls `ops` made from the state `s`, every element block the
allocator hands out is clear of the block of the container `a`. -/
def freshAlong {T : Type} (a : Vector) : Heap T × Vector → List (Op T) → Bool
  | _, [] => true
  | s, op :: ops =>
    (!op.grows s.2 ||
      (match op.newBuf? with
       | some p => decide (a.FreshBlock p (2 * s.2.capacity))
       | none => true)) &&
    freshAlong a (op.apply s).2 ops

/-- The container of the state `s` satisfies the layout invariant, its block
is clear of the block of `a`, and it holds a control block without reference. -/
def Apart {T : Type} (a : Vector) (s : Heap T × Vector) : Prop :=
  s.2.WF ∧ a.FreshBlock s.2._buffer s.2.capacity ∧
  ∃ cb, s.1.blks s.2._ctrlBlk = some cb ∧ cb._refs = 0

/-- The final state of the calls `ops` made from the state `s`. -/
def runFrom {T : Type} (s : Heap T × Vector) (ops : List (Op T)) : Heap T × Vector :=
  ((Tally.start s).run ops).state

/-- The tally after the calls `ops` on a freshly constructed empty container. -/
def Tally.fresh {T : Type} (h : Heap T) (dflt : T) (newBuf newCb : Nat) (ops : List (Op T)) :
    Tally T :=
  (Tally.start (Vector.ctor h dflt newBuf newCb)).run ops

/-- The state a mutator has reached when it calls `update_ctrlBlk`: the element
cells and the members of the container.  For a removal on an empty container,
which throws before that call, it is the state before the call. -/
def Op.pre {T : Type} (op : Op T) (s : Heap T × Vector) : (Nat → Option T) × Vector :=
  let h := s.1
  let v := s.2
  match op with
  | .push_back val newBuf _ | .push_back_rv val newBuf _ | .emplace_back val newBuf _ =>
    let old_front := v._front
    let old_length := v._length
    let current_buffer_size := v._buffer_end - v._buffer
    let grow : Bool := decide (v._back = v._buffer_end)
    let new_ptr := if grow then newBuf else v._buffer
    let v1 :=
      if grow then
        { v with _front := newBuf + (v._front - v._buffer),
                 _back := newBuf + (v._back - v._buffer),
                 _buffer_end := newBuf + current_buffer_size * 2 }
      else v
    let v2 := { v1 with _length := v1._length + 1 }
    let m1 := store h.mem v2._back (some val)
    let v3 := { v2 with _back := v2._back + 1 }
    if new_ptr ≠ v3._buffer then
      (relocate m1 v3._front old_front old_length, { v3 with _buffer := new_ptr })
    else (m1, v3)
  | .push_front val newBuf _ | .push_front_rv val newBuf _ =>
    let old_front := v._front
    let old_length := v._length
    let old_buffer_size := v._buffer_end - v._buffer
    let grow : Bool := decide (v._front = v._buffer)
    let current_buffer_size := if grow then old_buffer_size * 2 else old_buffer_size
    let new_ptr := if grow then newBuf else v._buffer
    let offset := if grow then current_buffer_size - old_buffer_size else 0
    let v1 :=
      if grow then
        { v with _front := newBuf + (v._front - v._buffer) + offset,
                 _back := newBuf + (v._back - v._buffer) + offset,
                 _buffer_end := newBuf + current_buffer_size }
      else v
    let v2 := { v1 with _front := v1._front - 1, _length := v1._length + 1 }
    let m1 := store h.mem v2._front (some val)
    if new_ptr ≠ v2._buffer then
      (relocate m1 (v2._front + 1) old_front old_length, { v2 with _buffer := new_ptr })
    else (m1, v2)
  | .pop_back _ =>
    if v._length ≠ 0 then
      (store h.mem (v._back - 1) none,
       { v with _back := v._back - 1, _length := v._length - 1 })
    else (h.mem, v)
  | .pop_front _ =>
    if v._length ≠ 0 then
      (store h.mem v._front none,
       { v with _front := v._front + 1, _length := v._length - 1 })
    else (h.mem, v)

/-- The reason a mutator passes to `update_ctrlBlk`. -/
def Op.reason {T : Type} : Op T → invalidate_reason
  | .push_back _ _ _ => .PUSH_BACK
  | .push_back_rv _ _ _ => .PUSH_BACK
  | .emplace_back _ _ _ => .EMPLACE_BACK
  | .push_front _ _ _ => .PUSH_FRONT
  | .push_front_rv _ _ _ => .PUSH_FRONT
  | .pop_back _ => .POP_BACK
  | .pop_front _ => .POP_FRONT

/-- The location a mutator passes to `update_ctrlBlk`, from the members `v` it
has when it makes the call. -/
def Op.location {T : Type} (op : Op T) (v : Vector) : Nat :=
  match op with
  | .push_back _ _ _ => v._back - 1
  | .push_back_rv _ _ _ => v._back - 1
  | .emplace_back _ _ _ => v._back - 1
  | .push_front _ _ _ => v._front
  | .push_front_rv _ _ _ => v._front
  | .pop_back _ => v._back
  | .pop_front _ => v._front - 1

/-- The removal `op` finds the container empty and throws. -/
def Op.throws {T : Type} (op : Op T) (v : Vector) : Bool :=
  !op.isInsert && decide (v._length = 0)

/-! ## Events that retire a control block, and what may follow -/

/-- An event on a container that a live cursor of it witnesses: a call of a
mutator at either end, a copy assignment from another container, or the
destruction of the container. -/
inductive Retire (T : Type)
  | mutate (op : Op T)
  | assign (other : Vector) (newBuf newCb : Nat)
  | dtor

/-- The event `e` on the container `s.2` in the heap `s.1`. -/
def Retire.apply {T : Type} (e : Retire T) (s : Heap T × Vector) :
    Outcome Unit (Heap T × Vector) :=
  match e with
  | .mutate op => op.apply s
  | .assign other newBuf newCb => Vector.assign s.1 s.2 other false newBuf newCb
  | .dtor => Vector.dtor s.1 s.2

/-- The control block address the allocator would hand out during the event. -/
def Retire.newCb? {T : Type} : Retire T → Option Nat
  | .mutate op => some op.newCb
  | .assign _ _ newCb => some newCb
  | .dtor => none

/-- A call of the header that can change the heap: a method of a container `v`
or a constructor or destructor of a cursor. -/
inductive Call (T : Type)
  | mutate (v : Vector) (op : Op T)
  | assign (v other : Vector) (same : Bool) (newBuf newCb : Nat)
  | vdtor (v : Vector)
  | vctor (dflt : T) (newBuf newCb : Nat)
  | vctor_n (n : Nat) (dflt : T) (newBuf newCb : Nat)
  | vctor_copy (other : Vector) (newBuf newCb : Nat)
  | ictor (ptr begin_ end_ ctrlBlk : Nat)
  | icopy (d : const_iterator)
  | idtor (d : const_iterator)

namespace Call

variable {T : Type}

/-- The heap the call leaves behind. -/
def apply (c : Call T) (h : Heap T) : Heap T :=
  match c with
  | .mutate v op => (op.apply (h, v)).2.1
  | .assign v other same newBuf newCb => (Vector.assign h v other same newBuf newCb).2.1
  | .vdtor v => (Vector.dtor h v).2.1
  | .vctor dflt newBuf newCb => (Vector.ctor h dflt newBuf newCb).1
  | .vctor_n n dflt newBuf newCb => (Vector.ctor_n h n dflt newBuf newCb).1
  | .vctor_copy other newBuf newCb => (Vector.ctor_copy h other newBuf newCb).1
  | .ictor ptr begin_ end_ ctrlBlk => (const_iterator.ctor h ptr begin_ end_ ctrlBlk).2
  | .icopy d => (const_iterator.ctor_copy h d).2
  | .idtor d => (const_iterator.dtor h d).2

/-- Bookkeeping for a control block `p` that no container holds any more and
that one watched cursor and `n` other live cursors are attached to: whether the
call can be made, and the number of other live cursors after it.  A container
the call is made on holds another control block; the allocator does not hand
out the address `p`; a cursor attached to `p` that is destroyed is one of the
`n` others; and the number of live cursors fits a `uint64_t`. -/
def others (p n : Nat) : Call T → Option Nat
  | .mutate v op => if v._ctrlBlk ≠ p ∧ op.newCb ≠ p then some n else none
  | .assign v _ _ _ newCb => if v._ctrlBlk ≠ p ∧ newCb ≠ p then some n else none
  | .vdtor v => if v._ctrlBlk ≠ p then some n else none
  | .vctor _ _ newCb => if newCb ≠ p then some n else none
  | .vctor_n _ _ _ newCb => if newCb ≠ p then some n else none
  | .vctor_copy _ _ newCb => if newCb ≠ p then some n else none
  | .ictor _ _ _ ctrlBlk =>
    if ctrlBlk = p then (if n + 2 < U64 then some (n + 1) else none) else some n
  | .icopy d =>
    if d._ctrlBlk = p then (if n + 2 < U64 then some (n + 1) else none) else some n
  | .idtor d =>
    if d._ctrlBlk = p then (if 0 < n then some (n - 1) else none) else some n

end Call

/-- The heap after the calls `cs` made one after the other from `h`. -/
def runCalls {T : Type} (h : Heap T) : List (Call T) → Heap T
  | [] => h
  | c :: cs => runCalls (c.apply h) cs

/-- The calls `cs` can be made one after the other while the watched cursor of
the retired control block `p` stays alive, `n` other cursors being attached to
`p` at the start. -/
def admissible {T : Type} (p : Nat) : Nat → List (Call T) → Bool
  | _, [] => true
  | n, c :: cs =>
    match c.others p n with
    | some n1 => admissible p n1 cs
    | none => false

/-- Every navigation of the cursor `c` in the heap `h` (pre-increment and
pre-decrement of `const_iterator` and of `iterator`, `==`, `!=` and `-` with `c`
on the left, `+`) throws `invalid_iterator` with the severity `level`. -/
def NavThrows {T : Type} (h : Heap T) (c : const_iterator) (level : Severity_level) : Prop :=
  (c.inc h).1 = .error (.invalid_iterator level) ∧
  (c.dec h).1 = .error (.invalid_iterator level) ∧
  (iterator.inc h c).1 = .error (.invalid_iterator level) ∧
  (iterator.dec h c).1 = .error (.invalid_iterator level) ∧
  (∀ rhs, c.eq h rhs = .error (.invalid_iterator level)) ∧
  (∀ rhs, c.ne h rhs = .error (.invalid_iterator level)) ∧
  (∀ rhs, c.sub h rhs = .error (.invalid_iterator level)) ∧
  (∀ offset, (c.add h offset).1 = .error (.invalid_iterator level))

/-- Every dereference of the cursor `c` in the heap `h` (`operator*` of
`const_iterator` and of `iterator`) throws `invalid_iterator` with the severity
`level`. -/
def DerefThrows {T : Type} (h : Heap T) (c : const_iterator) (level : Severity_level) : Prop :=
  c.deref h = .error (.invalid_iterator level) ∧
  iterator.deref h c = .error (.invalid_iterator level)

/-- The address of the cursor is null or outside the bounds `[_begin, _end)`
the cursor captured: the condition `validate_deref` computes first. -/
def const_iterator.OutOfRange (c : const_iterator) : Prop :=
  c._ptr = 0 ∨ c._ptr < c._begin ∨ c._ptr ≥ c._end

instance (c : const_iterator) : Decidable c.OutOfRange := by
  unfold const_iterator.OutOfRange; infer_instance

/-- The control block the cursor is attached to is marked invalid: its
generation has been retired. -/
def const_iterator.Retired {T : Type} (h : Heap T) (c : const_iterator) : Prop :=
  ∃ cb, h.blks c._ctrlBlk = some cb ∧ cb._version = INT_MIN

/-- The control block the cursor is attached to is alive and not marked
invalid: its generation has never been retired. -/
def const_iterator.Current {T : Type} (h : Heap T) (c : const_iterator) : Prop :=
  ∃ cb, h.blks c._ctrlBlk = some cb ∧ cb._version ≠ INT_MIN

/-- The reason is one of the five a mutator at either end passes. -/
def invalidate_reason.isEndMutation : invalidate_reason → Bool
  | .PUSH_BACK | .POP_BACK | .EMPLACE_BACK | .PUSH_FRONT | .POP_FRONT => true
  | _ => false

/-- The reason is that of a removal. -/
def invalidate_reason.isRemoval : invalidate_reason → Bool
  | .POP_BACK | .POP_FRONT => true
  | _ => false

/-- The reason is that of a mutator at the front. -/
def invalidate_reason.isFront : invalidate_reason → Bool
  | .PUSH_FRONT | .POP_FRONT => true
  | _ => false

/-- The constructor `Vector(std::initializer_list<T> init_list)`, run on the
object `v0`: `args` lists the elements, each with the addresses the allocator
hands out during its `emplace_back`.  The constructor assigns no value to
`_length`, which keeps what `v0` has. -/
def Vector.ctor_list {T : Type} (h : Heap T) (v0 : Vector) (args : List (T × Nat × Nat))
    (newBuf newCb : Nat) : Outcome Unit (Heap T × Vector) :=
  let v1 := v0.alloc args.length newBuf
  let h1 : Heap T := { h with blks := store h.blks newCb (some (CtrlBlk.new 1)) }
  let v2 := { v1 with _ctrlBlk := newCb }
  args.foldl
    (fun s a =>
      match s.1 with
      | .ok () => Vector.emplace_back s.2.1 s.2.2 a.1 a.2.1 a.2.2
      | .error _ => s)
    (.ok (), (h1, v2))

/-- The number of calls, among the calls `ops` made from the state `s`, that ask
the allocator for a new element block: the reallocations. -/
def countGrows {T : Type} : Heap T × Vector → List (Op T) → Nat
  | _, [] => 0
  | s, op :: ops => (if op.grows s.2 then 1 else 0) + countGrows (op.apply s).2 ops

/-- The containers reachable from `Vector(void)`, `Vector(n)` or the copy
constructor by calls of the mutators at either end, successful or not, each
made in whatever heap the program is in. -/
inductive Reachable (T : Type) : Vector → Prop
  | ctor (h : Heap T) (dflt : T) (newBuf newCb : Nat) :
    Reachable T (Vector.ctor h dflt newBuf newCb).2
  | ctor_n (h : Heap T) (n : Nat) (dflt : T) (newBuf newCb : Nat) :
    Reachable T (Vector.ctor_n h n dflt newBuf newCb).2
  | ctor_copy (h : Heap T) (other : Vector) (newBuf newCb : Nat) :
    Reachable T other → Reachable T (Vector.ctor_copy h other newBuf newCb).2
  | call (h : Heap T) (v : Vector) (op : Op T) :
    Reachable T v → Reachable T (op.apply (h, v)).2.2

/-- The reference to the element a call inserts or removes: the last or the
first element of the container after an insertion (`after`), the last or the
first element of the container before a removal (`before`). -/
def Op.affected {T : Type} (op : Op T) (before after : Vector) : Except Exn Nat :=
  match op with
  | .push_back _ _ _ | .push_back_rv _ _ _ | .emplace_back _ _ _ => after.index (after.size - 1)
  | .push_front _ _ _ | .push_front_rv _ _ _ => after.index 0
  | .pop_back _ => before.index (before.size - 1)
  | .pop_front _ => before.index 0

/-! ## Reachable states of a program -/

/-- The state of a program that uses the header: the heap, the containers that
are alive and the cursors that are alive, each listed in no particular
order. -/
structure World (T : Type) where
  heap : Heap T
  vecs : List Vector
  its : List const_iterator

/-- The number of cursors in `cs` attached to the control block at `p`. -/
def attachedTo (cs : List const_iterator) (p : Nat) : Nat :=
  cs.countP (fun c => decide (c._ctrlBlk = p))

/-- The number of containers in `vs` that hold the control block at `p`. -/
def holders (vs : List Vector) (p : Nat) : Nat :=
  vs.countP (fun v => decide (v._ctrlBlk = p))

/-- The allocator can place a new `CtrlBlk` at `p`: the address is not null and
no control block lives there. -/
def FreshCtrlBlk {T : Type} (h : Heap T) (p : Nat) : Prop :=
  p ≠ 0 ∧ h.blks p = none

/-- The bookkeeping of control blocks in a state of `n` calls: `blks` are the
control blocks, `vs` the live containers and `cs` the live cursors. -/
structure Inv (n : Nat) (blks : Nat → Option CtrlBlk) (vs : List Vector)
    (cs : List const_iterator) : Prop where
  null : blks 0 = none
  count : ∀ p cb, blks p = some cb → cb._refs = attachedTo cs p
  attached : ∀ c ∈ cs, ∃ cb, blks c._ctrlBlk = some cb
  few : cs.length ≤ n
  held : ∀ v ∈ vs, v._ctrlBlk ≠ 0 →
    ∃ cb, blks v._ctrlBlk = some cb ∧ cb._version ≠ INT_MIN ∧ cb._version ≤ n
  distinct : ∀ p, p ≠ 0 → holders vs p ≤ 1
  owner : ∀ p cb, blks p = some cb → cb._version ≠ INT_MIN → ∃ v ∈ vs, v._ctrlBlk = p
  kept : ∀ p cb, blks p = some cb → cb._version = INT_MIN → cb._refs ≠ 0
  window : ∀ c ∈ cs, ∀ cb, blks c._ctrlBlk = some cb → cb._version ≠ INT_MIN →
    ∃ v ∈ vs, v._ctrlBlk = c._ctrlBlk ∧ c._begin = v._front ∧ c._end = v._back

/-- The states a program reaches in `n` calls from a start without any control
block.  The calls are the constructors of a container (`Vector(void)`,
`Vector(n)`, the initializer-list, copy and move constructors), the seven
mutators at either end, the copy assignment from another container, the
destructor of a container, `begin` and `end`, the copy constructor of a cursor,
`operator+`, `++` and `--` on a cursor, and the destructor of a cursor.  A
call is made on a container or cursor that is alive, listed first; `reorder`
lists the same objects in another order.  The allocator places a new control
block at an address that is not null and holds none; a call that reads through
a null control block pointer (a mutator, `begin` or `end` on a moved-from
container) has no defined behaviour and is not a step.  The initializer-list
constructor counts one call for itself and one for each `emplace_back` it
makes. -/
inductive Reach (T : Type) : Nat → World T → Prop
  | start (h : Heap T) (hnone : ∀ p, h.blks p = none) : Reach T 0 ⟨h, [], []⟩
  | reorder {n : Nat} {h : Heap T} {vs vs1 : List Vector} {cs cs1 : List const_iterator} :
    Reach T n ⟨h, vs, cs⟩ → vs.Perm vs1 → cs.Perm cs1 → Reach T n ⟨h, vs1, cs1⟩
  | vctor {n : Nat} {h : Heap T} {vs : List Vector} {cs : List const_iterator}
    (dflt : T) (newBuf newCb : Nat) :
    Reach T n ⟨h, vs, cs⟩ → FreshCtrlBlk h newCb →
    Reach T (n + 1) ⟨(Vector.ctor h dflt newBuf newCb).1,
      (Vector.ctor h dflt newBuf newCb).2 :: vs, cs⟩
  | vctor_n {n : Nat} {h : Heap T} {vs : List Vector} {cs : List const_iterator}
    (k : Nat) (dflt : T) (newBuf newCb : Nat) :
    Reach T n ⟨h, vs, cs⟩ → FreshCtrlBlk h newCb →
    Reach T (n + 1) ⟨(Vector.ctor_n h k dflt newBuf newCb).1,
      (Vector.ctor_n h k dflt newBuf newCb).2 :: vs, cs⟩
  | vctor_list {n : Nat} {h : Heap T} {vs : List Vector} {cs : List const_iterator}
    (v0 : Vector) (args : List (T × Nat × Nat)) (newBuf newCb : Nat) :
    Reach T n ⟨h, vs, cs⟩ → FreshCtrlBlk h newCb →
    Reach T (n + args.length + 1) ⟨(Vector.ctor_list h v0 args newBuf newCb).2.1,
      (Vector.ctor_list h v0 args newBuf newCb).2.2 :: vs, cs⟩
  | vctor_copy {n : Nat} {h : Heap T} {vs : List Vector} {cs : List const_iterator}
    (other : Vector) (newBuf newCb : Nat) :
    Reach T n ⟨h, vs, cs⟩ → other ∈ vs → FreshCtrlBlk h newCb →
    Reach T (n + 1) ⟨(Vector.ctor_copy h other newBuf newCb).1,
      (Vector.ctor_copy h other newBuf newCb).2 :: vs, cs⟩
  | vctor_move {n : Nat} {h : Heap T} {v : Vector} {vs : List Vector}
    {cs : List const_iterator} :
    Reach T n ⟨h, v :: vs, cs⟩ →
    Reach T (n + 1) ⟨h, (Vector.ctor_move v).1 :: (Vector.ctor_move v).2 :: vs, cs⟩
  | mutate {n : Nat} {h : Heap T} {v : Vector} {vs : List Vector} {cs : List const_iterator}
    (op : Op T) :
    Reach T n ⟨h, v :: vs, cs⟩ → FreshCtrlBlk h op.newCb →
    (op.apply (h, v)).1 ≠ .error .fault →
    Reach T (n + 1) ⟨(op.apply (h, v)).2.1, (op.apply (h, v)).2.2 :: vs, cs⟩
  | assign {n : Nat} {h : Heap T} {v : Vector} {vs : List Vector} {cs : List const_iterator}
    (other : Vector) (newBuf newCb : Nat) :
    Reach T n ⟨h, v :: vs, cs⟩ → other ∈ vs →
    FreshCtrlBlk (Vector.destroy h v .COPY_ASSIGN).2.1 newCb →
    Reach T (n + 1) ⟨(Vector.assign h v other false newBuf newCb).2.1,
      (Vector.assign h v other false newBuf newCb).2.2 :: vs, cs⟩
  | vdtor {n : Nat} {h : Heap T} {v : Vector} {vs : List Vector} {cs : List const_iterator} :
    Reach T n ⟨h, v :: vs, cs⟩ → Reach T (n + 1) ⟨(Vector.dtor h v).2.1, vs, cs⟩
  | begin {n : Nat} {h : Heap T} {vs : List Vector} {cs : List const_iterator}
    {c : const_iterator} (v : Vector) :
    Reach T n ⟨h, vs, cs⟩ → v ∈ vs → (Vector.begin h v).1 = .ok c →
    Reach T (n + 1) ⟨(Vector.begin h v).2, vs, c :: cs⟩
  | end_ {n : Nat} {h : Heap T} {vs : List Vector} {cs : List const_iterator}
    {c : const_iterator} (v : Vector) :
    Reach T n ⟨h, vs, cs⟩ → v ∈ vs → (Vector.end_ h v).1 = .ok c →
    Reach T (n + 1) ⟨(Vector.end_ h v).2, vs, c :: cs⟩
  | icopy {n : Nat} {h : Heap T} {vs : List Vector} {cs : List const_iterator}
    {c : const_iterator} (d : const_iterator) :
    Reach T n ⟨h, vs, cs⟩ → d ∈ cs → (const_iterator.ctor_copy h d).1 = .ok c →
    Reach T (n + 1) ⟨(const_iterator.ctor_copy h d).2, vs, c :: cs⟩
  | add {n : Nat} {h : Heap T} {vs : List Vector} {cs : List const_iterator}
    {c : const_iterator} (d : const_iterator) (offset : Int) :
    Reach T n ⟨h, vs, cs⟩ → d ∈ cs → (d.add h offset).1 = .ok c →
    Reach T (n + 1) ⟨(d.add h offset).2, vs, c :: cs⟩
  | inc {n : Nat} {h : Heap T} {vs : List Vector} {c : const_iterator}
    {cs : List const_iterator} :
    Reach T n ⟨h, vs, c :: cs⟩ → Reach T (n + 1) ⟨h, vs, (c.inc h).2 :: cs⟩
  | dec {n : Nat} {h : Heap T} {vs : List Vector} {c : const_iterator}
    {cs : List const_iterator} :
    Reach T n ⟨h, vs, c :: cs⟩ → Reach T (n + 1) ⟨h, vs, (c.dec h).2 :: cs⟩
  | idtor {n : Nat} {h : Heap T} {vs : List Vector} {c : const_iterator}
    {cs : List const_iterator} :
    Reach T n ⟨h, vs, c :: cs⟩ → Reach T (n + 1) ⟨(c.dtor h).2, vs, cs⟩

/-- The copy assignment of a cursor.  The header declares no `operator=` for
`const_iterator` or for `iterator` (the one written for `iterator` is commented
out), so an assignment is the member-wise copy the compiler provides: the four
members of `rhs` are stored in `*this`, and no reference count changes. -/
def const_iterator.assign (_c rhs : const_iterator) : const_iterator :=
  { _ptr := rhs._ptr, _begin := rhs._begin, _end := rhs._end, _ctrlBlk := rhs._ctrlBlk }

namespace Vector

/-- The layout every container keeps whatever its capacity: the window lies
inside the block and `_length` is the width of the window. -/
def Laid (v : Vector) : Prop :=
  v._buffer ≤ v._front ∧ v._front ≤ v._back ∧ v._back ≤ v._buffer_end ∧
  v._length = v._back - v._front

instance (v : Vector) : Decidable v.Laid := by
  unfold Laid; infer_instance

/-- The blocks of the containers `u` and `v` do not overlap. -/
def Clear (u v : Vector) : Prop :=
  u._buffer_end ≤ v._buffer ∨ v._buffer_end ≤ u._buffer

instance (u v : Vector) : Decidable (u.Clear v) := by
  unfold Clear; infer_instance

end Vector

/-- The bookkeeping of element cells: every live container keeps its window
inside its block, every cell of the window holds an object, and the blocks of
two live containers do not overlap. -/
structure Mem {T : Type} (h : Heap T) (vs : List Vector) : Prop where
  laid : ∀ v ∈ vs, v.Laid
  full : ∀ v ∈ vs, ∃ xs, v.Contents h xs
  apart : vs.Pairwise Vector.Clear

/-- The states of `Reach` a program reaches when `operator new` hands out, for
the elements, blocks that are clear of the blocks of the live containers.  Two
calls of `Reach` are left out because they leave the layout `Laid`: the
initializer-list constructor, which never assigns `_length`, and an append or
a prepend on a block of no cell (the block a copy of a moved-from container
has), which writes past the block.  The source of a copy is a live container;
a copy assignment needs no block clear of the block of its target, which
`destroy` has released by then. -/
inductive Tidy (T : Type) : Nat → World T → Prop
  | start (h : Heap T) (hnone : ∀ p, h.blks p = none) : Tidy T 0 ⟨h, [], []⟩
  | reorder {n : Nat} {h : Heap T} {vs vs1 : List Vector} {cs cs1 : List const_iterator} :
    Tidy T n ⟨h, vs, cs⟩ → vs.Perm vs1 → cs.Perm cs1 → Tidy T n ⟨h, vs1, cs1⟩
  | vctor {n : Nat} {h : Heap T} {vs : List Vector} {cs : List const_iterator}
    (dflt : T) (newBuf newCb : Nat) :
    Tidy T n ⟨h, vs, cs⟩ → FreshCtrlBlk h newCb →
    (∀ u ∈ vs, u.FreshBlock newBuf initial_size) →
    Tidy T (n + 1) ⟨(Vector.ctor h dflt newBuf newCb).1,
      (Vector.ctor h dflt newBuf newCb).2 :: vs, cs⟩
  | vctor_n {n : Nat} {h : Heap T} {vs : List Vector} {cs : List const_iterator}
    (k : Nat) (dflt : T) (newBuf newCb : Nat) :
    Tidy T n ⟨h, vs, cs⟩ → FreshCtrlBlk h newCb →
    (∀ u ∈ vs, u.FreshBlock newBuf (if k = 0 then initial_size else k)) →
    Tidy T (n + 1) ⟨(Vector.ctor_n h k dflt newBuf newCb).1,
      (Vector.ctor_n h k dflt newBuf newCb).2 :: vs, cs⟩
  | vctor_copy {n : Nat} {h : Heap T} {vs : List Vector} {cs : List const_iterator}
    (other : Vector) (newBuf newCb : Nat) :
    Tidy T n ⟨h, vs, cs⟩ → other ∈ vs → FreshCtrlBlk h newCb →
    (∀ u ∈ vs, u.FreshBlock newBuf other.capacity) →
    Tidy T (n + 1) ⟨(Vector.ctor_copy h other newBuf newCb).1,
      (Vector.ctor_copy h other newBuf newCb).2 :: vs, cs⟩
  | vctor_move {n : Nat} {h : Heap T} {v : Vector} {vs : List Vector}
    {cs : List const_iterator} :
    Tidy T n ⟨h, v :: vs, cs⟩ →
    Tidy T (n + 1) ⟨h, (Vector.ctor_move v).1 :: (Vector.ctor_move v).2 :: vs, cs⟩
  | mutate {n : Nat} {h : Heap T} {v : Vector} {vs : List Vector} {cs : List const_iterator}
    (op : Op T) :
    Tidy T n ⟨h, v :: vs, cs⟩ → FreshCtrlBlk h op.newCb →
    (op.apply (h, v)).1 ≠ .error .fault →
    (∀ p, op.newBuf? = some p → ∀ u ∈ v :: vs, u.FreshBlock p (2 * v.capacity)) →
    (op.isInsert = true → v._buffer < v._buffer_end) →
    Tidy T (n + 1) ⟨(op.apply (h, v)).2.1, (op.apply (h, v)).2.2 :: vs, cs⟩
  | assign {n : Nat} {h : Heap T} {v : Vector} {vs : List Vector} {cs : List const_iterator}
    (other : Vector) (newBuf newCb : Nat) :
    Tidy T n ⟨h, v :: vs, cs⟩ → other ∈ vs →
    FreshCtrlBlk (Vector.destroy h v .COPY_ASSIGN).2.1 newCb →
    (∀ u ∈ vs, u.FreshBlock newBuf other.capacity) →
    Tidy T (n + 1) ⟨(Vector.assign h v other false newBuf newCb).2.1,
      (Vector.assign h v other false newBuf newCb).2.2 :: vs, cs⟩
  | vdtor {n : Nat} {h : Heap T} {v : Vector} {vs : List Vector} {cs : List const_iterator} :
    Tidy T n ⟨h, v :: vs, cs⟩ → Tidy T (n + 1) ⟨(Vector.dtor h v).2.1, vs, cs⟩
  | begin {n : Nat} {h : Heap T} {vs : List Vector} {cs : List const_iterator}
    {c : const_iterator} (v : Vector) :
    Tidy T n ⟨h, vs, cs⟩ → v ∈ vs → (Vector.begin h v).1 = .ok c →
    Tidy T (n + 1) ⟨(Vector.begin h v).2, vs, c :: cs⟩
  | end_ {n : Nat} {h : Heap T} {vs : List Vector} {cs : List const_iterator}
    {c : const_iterator} (v : Vector) :
    Tidy T n ⟨h, vs, cs⟩ → v ∈ vs → (Vector.end_ h v).1 = .ok c →
    Tidy T (n + 1) ⟨(Vector.end_ h v).2, vs, c :: cs⟩
  | icopy {n : Nat} {h : Heap T} {vs : List Vector} {cs : List const_iterator}
    {c : const_iterator} (d : const_iterator) :
    Tidy T n ⟨h, vs, cs⟩ → d ∈ cs → (const_iterator.ctor_copy h d).1 = .ok c →
    Tidy T (n + 1) ⟨(const_iterator.ctor_copy h d).2, vs, c :: cs⟩
  | add {n : Nat} {h : Heap T} {vs : List Vector} {cs : List const_iterator}
    {c : const_iterator} (d : const_iterator) (offset : Int) :
    Tidy T n ⟨h, vs, cs⟩ → d ∈ cs → (d.add h offset).1 = .ok c →
    Tidy T (n + 1) ⟨(d.add h offset).2, vs, c :: cs⟩
  | inc {n : Nat} {h : Heap T} {vs : List Vector} {c : const_iterator}
    {cs : List const_iterator} :
    Tidy T n ⟨h, vs, c :: cs⟩ → Tidy T (n + 1) ⟨h, vs, (c.inc h).2 :: cs⟩
  | dec {n : Nat} {h : Heap T} {vs : List Vector} {c : const_iterator}
    {cs : List const_iterator} :
    Tidy T n ⟨h, vs, c :: cs⟩ → Tidy T (n + 1) ⟨h, vs, (c.dec h).2 :: cs⟩
  | idtor {n : Nat} {h : Heap T} {vs : List Vector} {c : const_iterator}
    {cs : List const_iterator} :
    Tidy T n ⟨h, vs, c :: cs⟩ → Tidy T (n + 1) ⟨(c.dtor h).2, vs, cs⟩

/-! ## Sample states -/

/-- A heap with the objects `1, 2, 3` in the cells `10, 11, 12`, and one
control block, at `1`, of version `1` with no reference. -/
def sampleHeap : Heap Nat :=
  { mem := fun a => if 10 ≤ a ∧ a < 13 then some (a - 9) else none,
    blks := fun p => if p = 1 then some (CtrlBlk.new 1) else none }

/-- A container on `sampleHeap` whose block `[10, 13)` is full: contents `[1, 2, 3]`. -/
def sampleFull : Vector :=
  { _buffer := 10, _buffer_end := 13, _front := 10, _back := 13, _length := 3, _ctrlBlk := 1 }

/-- A container on `sampleHeap` with the same contents `[1, 2, 3]` in the
middle of the block `[8, 16)`: spare capacity at both ends. -/
def sampleRoomy : Vector :=
  { _buffer := 8, _buffer_end := 16, _front := 10, _back := 13, _length := 3, _ctrlBlk := 1 }

/-- The empty container `Vector(void)` builds on `sampleHeap`: block `[30, 38)`,
control block at `5`. -/
def sampleEmpty : Heap Nat × Vector := Vector.ctor sampleHeap 0 30 5

/-- A sequence of calls for the sample runs: three appends, a prepend, two
removals at the back, one at the front. -/
def sampleOps : List (Op Nat) :=
  [.push_back 1 40 6, .push_back_rv 2 40 6, .emplace_back 3 40 6, .push_front 0 50 7,
   .pop_back 8, .pop_back 8, .pop_front 8]

/-- Calls on a copy of `sampleRoomy` placed at `20`: the block `[20, 28)` is
outgrown at the back by the sixth append and a block at `40` takes over. -/
def sampleCopyOps : List (Op Nat) :=
  [.push_back 4 40 6, .push_back 5 40 6, .push_front 0 40 6, .pop_front 6,
   .push_back 6 40 6, .push_back 7 40 6, .push_back 8 40 6, .push_back 9 40 6]

/-- The heap `sampleHeap` after `sampleRoomy.begin()`: the control block at `1`
has one reference. -/
def sampleHeld : Heap Nat := (Vector.begin sampleHeap sampleRoomy).2

/-- The control block of `sampleRoomy` in `sampleHeld`. -/
def sampleHeldBlk : CtrlBlk := (CtrlBlk.new 1).incRef

/-- The cursor `sampleRoomy.begin()`: at the first element. -/
def sampleFirst : const_iterator := { _ptr := 10, _begin := 10, _end := 13, _ctrlBlk := 1 }

/-- A cursor of `sampleRoomy` at its last element. -/
def sampleLast : const_iterator := { _ptr := 12, _begin := 10, _end := 13, _ctrlBlk := 1 }

/-- Calls that follow the retirement of the control block at `1`: a removal on
the container, which now holds the control block at `6`, a copy of a cursor of
the retired block, the destruction of that copy, and the construction of
another container. -/
def sampleLater : List (Call Nat) :=
  [.mutate { sampleRoomy with _back := 14, _length := 4, _ctrlBlk := 6 } (.pop_back 7),
   .icopy sampleFirst, .idtor sampleFirst, .vctor 0 60 9]

/-- The cursor `sampleRoomy.end()`: one past the last element. -/
def sampleEnd : const_iterator := { _ptr := 13, _begin := 10, _end := 13, _ctrlBlk := 1 }

/-- The heap after `pop_front` on `sampleRoomy` while one cursor of it is
alive: the control block at `1` is retired with the reason `POP_FRONT`, the
location `10` and the bounds `[11, 13)`. -/
def samplePoppedFront : Heap Nat := (Vector.pop_front sampleHeld sampleRoomy 6).2.1

/-- A cursor of `sampleRoomy` at its second element. -/
def sampleSecond : const_iterator := { _ptr := 11, _begin := 10, _end := 13, _ctrlBlk := 1 }

/-- The heap after `pop_back` on `sampleRoomy` while one cursor of it is alive:
the control block at `1` is retired with the reason `POP_BACK`, the location
`12` and the bounds `[10, 12)`. -/
def samplePoppedBack : Heap Nat := (Vector.pop_back sampleHeld sampleRoomy 6).2.1

/-- The heap after `push_back(4)` on `sampleRoomy`, which has room, while one
cursor of it is alive: the control block at `1` is retired with the reason
`PUSH_BACK`, the location `13` and the bounds `[10, 14)`. -/
def samplePushedBack : Heap Nat := (Vector.push_back sampleHeld sampleRoomy 4 40 6).2.1

/-- The container `Vector<T>(std::initializer_list<T>{})` builds on
`sampleHeap`, from an object whose `_length` happens to be `0`: a block of no
cell at `30`, control block at `5`. -/
def sampleNoCell : Heap Nat × Vector := (Vector.ctor_list sampleHeap Vector.raw [] 30 5).2

/-- Nine appends: one more than `Vector(void)` has room for. -/
def sampleNine : List (Op Nat) :=
  [.push_back 1 40 6, .push_back 2 40 6, .emplace_back 3 40 6, .push_back_rv 4 40 6,
   .push_back 5 40 6, .push_back 6 40 6, .push_back 7 40 6, .push_back 8 40 6,
   .push_back 9 40 6]

/-- The state `Vector(3)` builds on `sampleHeap`. -/
def sampleThree : Heap Nat × Vector := Vector.ctor_n sampleHeap 3 (0 : Nat) 30 5

/-- The copy of `sampleThree` into a block at `20`. -/
def sampleThreeCopy : Heap Nat × Vector := Vector.ctor_copy sampleThree.1 sampleThree.2 20 7

/-- The copy after an append, which outgrows its three cells. -/
def sampleThreeMore : Heap Nat × Vector := ((Op.push_back 4 40 6).apply sampleThreeCopy).2

/-- The copy after the append and a removal at the front. -/
def sampleTrail : Heap Nat × Vector := ((Op.pop_front 6).apply sampleThreeMore).2

/-- The container `sampleEmpty` after one append: its control block, at `5`, has
the version `2`. -/
def sampleBumped : Heap Nat × Vector := ((Op.push_back 1 40 6 : Op Nat).apply sampleEmpty).2

/-- The container `sampleRoomy` after the `pop_back` that gives
`samplePoppedBack`: it holds the control block at `6`. -/
def sampleShorter : Vector := (Vector.pop_back sampleHeld sampleRoomy 6).2.2

/-- The heap `samplePoppedBack` after `begin()` on `sampleShorter`. -/
def sampleBoth : Heap Nat := (Vector.begin samplePoppedBack sampleShorter).2

/-- The cursor `sampleShorter.begin()`. -/
def sampleFresh : const_iterator := { _ptr := 10, _begin := 10, _end := 12, _ctrlBlk := 6 }

/-- The heap at the start of a program: no cell, no control block. -/
def sampleStart : Heap Nat := { mem := fun _ => none, blks := fun _ => none }

/-- The container `Vector<T>(3)` builds on `sampleStart`: block `[10, 13)`,
control block at `1`. -/
def sampleOne : Heap Nat × Vector := Vector.ctor_n sampleStart 3 0 10 1

/-- The call `begin()` on the container `sampleOne`. -/
def sampleOneIt : Outcome iterator (Heap Nat) := Vector.begin sampleOne.1 sampleOne.2

/-- The call `pop_back()` on the container `sampleOne` while the cursor
`sampleOneIt` is alive; the new control block is placed at `6`. -/
def sampleTwo : Outcome Unit (Heap Nat × Vector) :=
  (Op.pop_back 6 : Op Nat).apply (sampleOneIt.2, sampleOne.2)

/-- The call `begin()` on the container after the `pop_back`. -/
def sampleTwoIt : Outcome iterator (Heap Nat) := Vector.begin sampleTwo.2.1 sampleTwo.2.2

/-- The state after the four calls: one container, the cursor taken after the
`pop_back` and the cursor taken before it. -/
def sampleWorld : World Nat :=
  { heap := sampleTwoIt.2, vecs := [sampleTwo.2.2], its := [sampleFresh, sampleFirst] }

/-- The call `push_back(4)` on the container `sampleOne`, which is full, while
the cursor `sampleFirst` is alive: the elements move to the block `[40, 46)` and
the new control block is placed at `6`. -/
def sampleGrown : Outcome Unit (Heap Nat × Vector) :=
  (Op.push_back 4 40 6 : Op Nat).apply (sampleOneIt.2, sampleOne.2)

/-- The call `begin()` on the container after the `push_back`: a temporary. -/
def sampleGrownIt : Outcome iterator (Heap Nat) := Vector.begin sampleGrown.2.1 sampleGrown.2.2

/-- The cursor `begin()` returns on the container after the `push_back`. -/
def sampleTemp : const_iterator := { _ptr := 40, _begin := 40, _end := 44, _ctrlBlk := 6 }

/-- The cursor `sampleFirst` after the assignment `it = v.begin()`. -/
def sampleReseated : const_iterator := sampleFirst.assign sampleTemp

/-- The state once the temporary of `it = v.begin()` is destroyed: the heap and
the container.  The cursor `sampleReseated` is alive and attached to the control
block at `6`, whose reference count is `0`. -/
def sampleLoose : Heap Nat × Vector := ((sampleTemp.dtor sampleGrownIt.2).2, sampleGrown.2.2)

/-- A second container, `Vector<T>(2)`, built next to `sampleLoose`: block
`[60, 62)`, control block at `8`. -/
def sampleOther : Heap Nat × Vector := Vector.ctor_n sampleLoose.1 2 0 60 8

/-! ## Lemmas on the memory maps -/

theorem store_same {α : Type} (m : Nat → α) (a : Nat) (x : α) : store m a x a = x := by
  simp [store]

theorem store_ne {α : Type} (m : Nat → α) (a b : Nat) (x : α) (hne : b ≠ a) :
    store m a x b = m b := by
  simp [store, hne]

/-- The relocation loop leaves every cell outside both ranges alone. -/
theorem relocate_outside {T : Type} (m : Nat → Option T) (dst src n a : Nat)
    (hd : a < dst ∨ dst + n ≤ a) (hs : a < src ∨ src + n ≤ a) :
    relocate m dst src n a = m a := by
  induction n with
  | zero => rfl
  | succ n ih =>
    have h1 : a ≠ src + n := by omega
    have h2 : a ≠ dst + n := by omega
    simp only [relocate]
    rw [store_ne _ _ _ _ h1, store_ne _ _ _ _ h2]
    exact ih (by omega) (by omega)

/-- With disjoint ranges, the relocation loop puts source cell `k` into
destination cell `k`. -/
theorem relocate_dst {T : Type} (m : Nat → Option T) (dst src n k : Nat)
    (hdis : dst + n ≤ src ∨ src + n ≤ dst) (hk : k < n) :
    relocate m dst src n (dst + k) = m (src + k) := by
  induction n with
  | zero => omega
  | succ n ih =>
    have h1 : dst + k ≠ src + n := by omega
    simp only [relocate]
    rw [store_ne _ _ _ _ h1]
    by_cases hkn : k = n
    · subst hkn
      rw [store_same]
      exact relocate_outside m dst src k (src + k) (by omega) (by omega)
    · have h2 : dst + k ≠ dst + n := by omega
      rw [store_ne _ _ _ _ h2]
      exact ih (by omega) (by omega)

/-- With disjoint ranges, the relocation loop leaves the source cells raw. -/
theorem relocate_src {T : Type} (m : Nat → Option T) (dst src n k : Nat)
    (hdis : dst + n ≤ src ∨ src + n ≤ dst) (hk : k < n) :
    relocate m dst src n (src + k) = none := by
  induction n with
  | zero => omega
  | succ n ih =>
    simp only [relocate]
    by_cases hkn : k = n
    · subst hkn
      rw [store_same]
    · have h1 : src + k ≠ src + n := by omega
      have h2 : src + k ≠ dst + n := by omega
      rw [store_ne _ _ _ _ h1, store_ne _ _ _ _ h2]
      exact ih (by omega) (by omega)

namespace Vector

variable {T : Type}

/-- On a container that holds a control block, `update_ctrlBlk` returns
normally, leaves the element cells alone and changes no member of the
container other than `_ctrlBlk`. -/
theorem update_ctrlBlk_frame (h : Heap T) (v : Vector) (reason : invalidate_reason)
    (l b e newCb : Nat) (hcb : v.HasCtrlBlk h) :
    (update_ctrlBlk h v reason l b e newCb).1 = .ok () ∧
    (update_ctrlBlk h v reason l b e newCb).2.1.mem = h.mem ∧
    (update_ctrlBlk h v reason l b e newCb).2.2._buffer = v._buffer ∧
    (update_ctrlBlk h v reason l b e newCb).2.2._buffer_end = v._buffer_end ∧
    (update_ctrlBlk h v reason l b e newCb).2.2._front = v._front ∧
    (update_ctrlBlk h v reason l b e newCb).2.2._back = v._back ∧
    (update_ctrlBlk h v reason l b e newCb).2.2._length = v._length := by
  unfold HasCtrlBlk at hcb
  unfold update_ctrlBlk
  cases hb : h.blks v._ctrlBlk with
  | none => simp [hb] at hcb
  | some cb =>
    by_cases hr : cb._refs = 0 <;> simp [hr]

theorem read_eq (h : Heap T) (v : Vector) (k : Nat) (hk : k < v._length) :
    v.read h k = .ok (h.mem (v._front + k)) := by
  have : ¬ (v._length ≤ k) := by omega
  simp [read, index, this]

theorem Contents.cell {h : Heap T} {v : Vector} {xs : List T} (hc : v.Contents h xs)
    (k : Nat) (hk : k < xs.length) : h.mem (v._front + k) = some xs[k] := by
  have h1 := hc.2 k hk
  have h2 : k < v._length := by have := hc.1; unfold size at this; omega
  rw [read_eq h v k h2] at h1
  exact Except.ok.inj h1

theorem relocate_at (m : Nat → Option T) (dst src n k a : Nat)
    (hdis : dst + n ≤ src ∨ src + n ≤ dst) (hk : k < n) (ha : a = dst + k) :
    relocate m dst src n a = m (src + k) := by
  subst ha
  exact relocate_dst m dst src n k hdis hk

theorem Contents.intro {h : Heap T} {v : Vector} {xs : List T} (hl : v._length = xs.length)
    (hc : ∀ k (hk : k < xs.length), h.mem (v._front + k) = some xs[k]) : v.Contents h xs := by
  refine ⟨hl, fun k hk => ?_⟩
  rw [read_eq h v k (by omega), hc k hk]

/-- The call of `update_ctrlBlk` that ends every mutator returns normally and
keeps the logical contents. -/
theorem update_ctrlBlk_contents (h : Heap T) (v : Vector) (reason : invalidate_reason)
    (l b e newCb : Nat) (xs : List T) (hcb : v.HasCtrlBlk h) (hc : v.Contents h xs) :
    (update_ctrlBlk h v reason l b e newCb).1 = .ok () ∧
    (update_ctrlBlk h v reason l b e newCb).2.2.Contents
      (update_ctrlBlk h v reason l b e newCb).2.1 xs := by
  obtain ⟨h1, h2, -, -, h5, -, h7⟩ := update_ctrlBlk_frame h v reason l b e newCb hcb
  refine ⟨h1, Contents.intro (by rw [h7]; exact hc.1) (fun k hk => ?_)⟩
  rw [h2, h5]
  exact hc.cell k hk

/-- Cells of the states the growing and the non-growing appending path reach
before `update_ctrlBlk`. -/
theorem append_cells (h : Heap T) (v : Vector) (xs : List T) (val : T) (newBuf : Nat)
    (hwf : v.WF) (hnew : v.FreshBlock newBuf (2 * v.capacity)) (hxs : v.Contents h xs) :
    (v._back = v._buffer_end →
      ∀ k (hk : k < (xs ++ [val]).length),
        relocate (store h.mem (newBuf + (v._buffer_end - v._buffer)) (some val))
          (newBuf + (v._front - v._buffer)) v._front v._length
          (newBuf + (v._front - v._buffer) + k) = some (xs ++ [val])[k]) ∧
    (∀ k (hk : k < (xs ++ [val]).length),
        store h.mem v._back (some val) (v._front + k) = some (xs ++ [val])[k]) := by
  obtain ⟨w1, w2, w3, w4, w5⟩ := hwf
  have hlen : v._length = xs.length := hxs.1
  unfold FreshBlock capacity at hnew
  constructor
  · intro hg k hk
    simp only [List.length_append, List.length_singleton] at hk
    by_cases hkn : k < xs.length
    · rw [relocate_dst _ _ _ _ _ (by omega) (by omega),
        store_ne _ _ _ _ (by omega), List.getElem_append_left hkn]
      exact hxs.cell k hkn
    · have hk2 : k = xs.length := by omega
      subst hk2
      rw [relocate_outside _ _ _ _ _ (by omega) (by omega)]
      have e1 : newBuf + (v._front - v._buffer) + xs.length
          = newBuf + (v._buffer_end - v._buffer) := by omega
      rw [e1, store_same]
      simp
  · intro k hk
    simp only [List.length_append, List.length_singleton] at hk
    by_cases hkn : k < xs.length
    · rw [store_ne _ _ _ _ (by omega), List.getElem_append_left hkn]
      exact hxs.cell k hkn
    · have hk2 : k = xs.length := by omega
      subst hk2
      have e1 : v._front + xs.length = v._back := by omega
      rw [e1, store_same]
      simp

theorem push_back_contents (h : Heap T) (v : Vector) (xs : List T) (val : T)
    (newBuf newCb : Nat) (hwf : v.WF) (hcb : v.HasCtrlBlk h)
    (hnew : v.FreshBlock newBuf (2 * v.capacity)) (hxs : v.Contents h xs) :
    (push_back h v val newBuf newCb).1 = .ok () ∧
    (push_back h v val newBuf newCb).2.2.Contents (push_back h v val newBuf newCb).2.1
      (xs ++ [val]) := by
  have hcells := append_cells h v xs val newBuf hwf hnew hxs
  obtain ⟨w1, w2, w3, w4, w5⟩ := hwf
  have hlen : v._length = xs.length := hxs.1
  unfold FreshBlock capacity at hnew
  unfold push_back
  by_cases hg : v._back = v._buffer_end
  · have hne : newBuf ≠ v._buffer := by omega
    simp only [hg, decide_True, if_true, ne_eq, hne, not_false_eq_true]
    exact update_ctrlBlk_contents _ _ _ _ _ _ _ _ hcb
      (Contents.intro (by simp [hlen]) (hcells.1 hg))
  · simp only [hg, decide_False, ne_eq, not_true_eq_false, if_false, Bool.false_eq_true]
    exact update_ctrlBlk_contents _ _ _ _ _ _ _ _ hcb
      (Contents.intro (by simp [hlen]) hcells.2)

theorem emplace_back_contents (h : Heap T) (v : Vector) (xs : List T) (val : T)
    (newBuf newCb : Nat) (hwf : v.WF) (hcb : v.HasCtrlBlk h)
    (hnew : v.FreshBlock newBuf (2 * v.capacity)) (hxs : v.Contents h xs) :
    (emplace_back h v val newBuf newCb).1 = .ok () ∧
    (emplace_back h v val newBuf newCb).2.2.Contents (emplace_back h v val newBuf newCb).2.1
      (xs ++ [val]) := by
  have hcells := append_cells h v xs val newBuf hwf hnew hxs
  obtain ⟨w1, w2, w3, w4, w5⟩ := hwf
  have hlen : v._length = xs.length := hxs.1
  unfold FreshBlock capacity at hnew
  unfold emplace_back
  by_cases hg : v._back = v._buffer_end
  · have hne : newBuf ≠ v._buffer := by omega
    simp only [hg, decide_True, if_true, ne_eq, hne, not_false_eq_true]
    exact update_ctrlBlk_contents _ _ _ _ _ _ _ _ hcb
      (Contents.intro (by simp [hlen]) (hcells.1 hg))
  · simp only [hg, decide_False, ne_eq, not_true_eq_false, if_false, Bool.false_eq_true]
    exact update_ctrlBlk_contents _ _ _ _ _ _ _ _ hcb
      (Contents.intro (by simp [hlen]) hcells.2)

theorem push_front_contents (h : Heap T) (v : Vector) (xs : List T) (val : T)
    (newBuf newCb : Nat) (hwf : v.WF) (hcb : v.HasCtrlBlk h)
    (hnew : v.FreshBlock newBuf (2 * v.capacity)) (hxs : v.Contents h xs) :
    (push_front h v val newBuf newCb).1 = .ok () ∧
    (push_front h v val newBuf newCb).2.2.Contents (push_front h v val newBuf newCb).2.1
      (val :: xs) := by
  obtain ⟨w1, w2, w3, w4, w5⟩ := hwf
  have hlen : v._length = xs.length := hxs.1
  unfold FreshBlock capacity at hnew
  unfold push_front
  by_cases hg : v._front = v._buffer
  · have hne : newBuf ≠ v._buffer := by omega
    simp only [hg, decide_True, if_true, ne_eq, hne, not_false_eq_true]
    refine update_ctrlBlk_contents _ _ _ _ _ _ _ _ hcb
      (Contents.intro (by simp [hlen]) (fun k hk => ?_))
    simp only [List.length_cons] at hk
    dsimp only
    cases k with
    | zero =>
      rw [relocate_outside _ _ _ _ _ (by omega) (by omega)]
      simp [store]
    | succ j =>
      rw [relocate_at _ _ _ _ j _ (by omega) (by omega) (by omega),
        store_ne _ _ _ _ (by omega), List.getElem_cons_succ, ← hg]
      exact hxs.cell j (by omega)
  · simp only [hg, decide_False, ne_eq, not_true_eq_false, if_false, Bool.false_eq_true]
    refine update_ctrlBlk_contents _ _ _ _ _ _ _ _ hcb
      (Contents.intro (by simp [hlen]) (fun k hk => ?_))
    simp only [List.length_cons] at hk
    dsimp only
    cases k with
    | zero => simp [store]
    | succ j =>
      have e1 : v._front - 1 + (j + 1) = v._front + j := by omega
      rw [e1, store_ne _ _ _ _ (by omega), List.getElem_cons_succ]
      exact hxs.cell j (by omega)

/-- C3. For every container and every index `k`, `operator[]` throws
`out_of_range` if and only if `k >= length`; when `k < length` it returns the
reference to the cell at offset `k` from `_front`, so that reading through it
gives the content of that cell. -/
theorem index_spec (h : Heap T) (v : Vector) (k : Nat) :
    (v.index k = .error .out_of_range ↔ k ≥ v.size) ∧
    (k < v.size → v.index k = .ok (v._front + k) ∧ v.read h k = .ok (h.mem (v._front + k))) := by
  unfold size
  constructor
  · by_cases hk : v._length ≤ k <;> simp [index, hk]
  · intro hk
    have hk2 : ¬ (v._length ≤ k) := by omega
    exact ⟨by simp [index, hk2], read_eq h v k hk⟩

/-- Witness of C3: index `1` of the container holding `[1, 2, 3]`. -/
theorem index_spec_witness :
    (1 : Nat) < sampleFull.size ∧
    ((sampleFull.index 1 = .error .out_of_range ↔ 1 ≥ sampleFull.size) ∧
     (1 < sampleFull.size → sampleFull.index 1 = .ok (sampleFull._front + 1) ∧
        sampleFull.read sampleHeap 1 = .ok (sampleHeap.mem (sampleFull._front + 1)))) :=
  ⟨by decide, index_spec sampleHeap sampleFull 1⟩

/-! ## C4, C5: removal at either end -/

/-- C4. On a container of length `0`, `pop_back` and `pop_front` throw and
leave everything as it was: the returned state is the state before the call,
element cells, control blocks and all members of the container included, so
that the control block is neither bumped nor retired and every cursor
validates exactly as before. -/
theorem pop_empty_unchanged (h : Heap T) (v : Vector) (newCb : Nat) (hlen : v.size = 0) :
    pop_back h v newCb = (.error .out_of_range, (h, v)) ∧
    pop_front h v newCb = (.error .out_of_range, (h, v)) ∧
    (∀ c : const_iterator,
      c.validate_base (pop_back h v newCb).2.1 = c.validate_base h ∧
      c.validate_deref (pop_back h v newCb).2.1 = c.validate_deref h ∧
      c.validate_base (pop_front h v newCb).2.1 = c.validate_base h ∧
      c.validate_deref (pop_front h v newCb).2.1 = c.validate_deref h) := by
  unfold size at hlen
  have e1 : pop_back h v newCb = (.error .out_of_range, (h, v)) := by
    simp [pop_back, hlen]
  have e2 : pop_front h v newCb = (.error .out_of_range, (h, v)) := by
    simp [pop_front, hlen]
  refine ⟨e1, e2, fun c => ?_⟩
  rw [e1, e2]
  exact ⟨rfl, rfl, rfl, rfl⟩

/-- Witness of C4: the freshly constructed empty container. -/
theorem pop_empty_unchanged_witness :
    sampleEmpty.2.size = 0 ∧
    (pop_back sampleEmpty.1 sampleEmpty.2 6 = (.error .out_of_range, (sampleEmpty.1, sampleEmpty.2)) ∧
     pop_front sampleEmpty.1 sampleEmpty.2 6 = (.error .out_of_range, (sampleEmpty.1, sampleEmpty.2)) ∧
     (∀ c : const_iterator,
      c.validate_base (pop_back sampleEmpty.1 sampleEmpty.2 6).2.1 = c.validate_base sampleEmpty.1 ∧
      c.validate_deref (pop_back sampleEmpty.1 sampleEmpty.2 6).2.1
        = c.validate_deref sampleEmpty.1 ∧
      c.validate_base (pop_front sampleEmpty.1 sampleEmpty.2 6).2.1
        = c.validate_base sampleEmpty.1 ∧
      c.validate_deref (pop_front sampleEmpty.1 sampleEmpty.2 6).2.1
        = c.validate_deref sampleEmpty.1)) :=
  ⟨by decide, pop_empty_unchanged sampleEmpty.1 sampleEmpty.2 6 (by decide)⟩

theorem pop_back_contents (h : Heap T) (v : Vector) (xs : List T) (newCb : Nat)
    (hwf : v.WF) (hcb : v.HasCtrlBlk h) (hxs : v.Contents h xs) (hne : xs ≠ []) :
    (pop_back h v newCb).1 = .ok () ∧
    (pop_back h v newCb).2.2.Contents (pop_back h v newCb).2.1 xs.dropLast ∧
    (pop_back h v newCb).2.2._buffer = v._buffer ∧
    (pop_back h v newCb).2.2._buffer_end = v._buffer_end ∧
    (pop_back h v newCb).2.2._front = v._front ∧
    (pop_back h v newCb).2.2._back + 1 = v._back ∧
    (pop_back h v newCb).2.1.mem (pop_back h v newCb).2.2._back = none := by
  obtain ⟨w1, w2, w3, w4, w5⟩ := hwf
  have hlen : v._length = xs.length := hxs.1
  have hpos : 0 < xs.length := List.length_pos.mpr hne
  have hl0 : v._length ≠ 0 := by omega
  unfold pop_back
  simp only [ne_eq, hl0, not_false_eq_true, if_true]
  have hc : Contents (T := T) { h with mem := store h.mem (v._back - 1) none }
      { v with _back := v._back - 1, _length := v._length - 1 } xs.dropLast := by
    refine Contents.intro (by simp [hlen]) (fun k hk => ?_)
    simp only [List.length_dropLast] at hk
    dsimp only
    rw [store_ne _ _ _ _ (by omega), List.getElem_dropLast]
    exact hxs.cell k (by omega)
  obtain ⟨f1, f2, f3, f4, f5, f6, -⟩ :=
    update_ctrlBlk_frame (T := T) { h with mem := store h.mem (v._back - 1) none }
      { v with _back := v._back - 1, _length := v._length - 1 } .POP_BACK
      (v._back - 1) v._front (v._back - 1) newCb hcb
  have := update_ctrlBlk_contents (T := T) { h with mem := store h.mem (v._back - 1) none }
      { v with _back := v._back - 1, _length := v._length - 1 } .POP_BACK
      (v._back - 1) v._front (v._back - 1) newCb _ hcb hc
  refine ⟨this.1, this.2, f3, f4, f5, ?_, ?_⟩
  · rw [f6]; dsimp only; omega
  · rw [f2, f6]; dsimp only; rw [store_same]

theorem pop_front_contents (h : Heap T) (v : Vector) (xs : List T) (newCb : Nat)
    (hwf : v.WF) (hcb : v.HasCtrlBlk h) (hxs : v.Contents h xs) (hne : xs ≠ []) :
    (pop_front h v newCb).1 = .ok () ∧
    (pop_front h v newCb).2.2.Contents (pop_front h v newCb).2.1 xs.tail ∧
    (pop_front h v newCb).2.2._buffer = v._buffer ∧
    (pop_front h v newCb).2.2._buffer_end = v._buffer_end ∧
    (pop_front h v newCb).2.2._front = v._front + 1 ∧
    (pop_front h v newCb).2.2._back = v._back ∧
    (pop_front h v newCb).2.1.mem v._front = none := by
  obtain ⟨w1, w2, w3, w4, w5⟩ := hwf
  have hlen : v._length = xs.length := hxs.1
  have hpos : 0 < xs.length := List.length_pos.mpr hne
  have hl0 : v._length ≠ 0 := by omega
  unfold pop_front
  simp only [ne_eq, hl0, not_false_eq_true, if_true]
  have hc : Contents (T := T) { h with mem := store h.mem v._front none }
      { v with _front := v._front + 1, _length := v._length - 1 } xs.tail := by
    refine Contents.intro (by simp [hlen]) (fun k hk => ?_)
    simp only [List.length_tail] at hk
    dsimp only
    rw [store_ne _ _ _ _ (by omega), List.getElem_tail]
    have e1 : v._front + 1 + k = v._front + (k + 1) := by omega
    rw [e1]
    exact hxs.cell (k + 1) (by omega)
  obtain ⟨f1, f2, f3, f4, f5, f6, -⟩ :=
    update_ctrlBlk_frame (T := T) { h with mem := store h.mem v._front none }
      { v with _front := v._front + 1, _length := v._length - 1 } .POP_FRONT
      (v._front + 1 - 1) (v._front + 1) v._back newCb hcb
  have := update_ctrlBlk_contents (T := T) { h with mem := store h.mem v._front none }
      { v with _front := v._front + 1, _length := v._length - 1 } .POP_FRONT
      (v._front + 1 - 1) (v._front + 1) v._back newCb _ hcb hc
  refine ⟨this.1, this.2, f3, f4, f5, f6, ?_⟩
  rw [f2]; dsimp only; rw [store_same]

/-- C5. For a container with non-empty logical contents `xs` of length `n`:
`pop_back` returns normally with length `n - 1` and index `k` designating
`xs[k]` for all `k < n - 1` (written `k + 1 < n`); `pop_front` returns normally
with length `n - 1` and index `k` designating `xs[k + 1]` for the same `k`.  Neither moves the block (`_buffer` and
`_buffer_end`, hence the capacity, are unchanged), the far end of the window
stays where it was, and the freed cell is raw storage just outside the window
at the end it was removed from. -/
theorem pop_spec (h : Heap T) (v : Vector) (xs : List T) (newCb : Nat)
    (hwf : v.WF) (hcb : v.HasCtrlBlk h) (hxs : v.Contents h xs) (hne : xs ≠ []) :
    ((pop_back h v newCb).1 = .ok () ∧
     (pop_back h v newCb).2.2.size = xs.length - 1 ∧
     (∀ k (hk : k + 1 < xs.length),
        (pop_back h v newCb).2.2.read (pop_back h v newCb).2.1 k = .ok (some xs[k])) ∧
     (pop_back h v newCb).2.2.capacity = v.capacity ∧
     (pop_back h v newCb).2.2._buffer = v._buffer ∧
     (pop_back h v newCb).2.2._front = v._front ∧
     (pop_back h v newCb).2.2._back + 1 = v._back ∧
     (pop_back h v newCb).2.1.mem (pop_back h v newCb).2.2._back = none) ∧
    ((pop_front h v newCb).1 = .ok () ∧
     (pop_front h v newCb).2.2.size = xs.length - 1 ∧
     (∀ k (hk : k + 1 < xs.length),
        (pop_front h v newCb).2.2.read (pop_front h v newCb).2.1 k = .ok (some xs[k + 1])) ∧
     (pop_front h v newCb).2.2.capacity = v.capacity ∧
     (pop_front h v newCb).2.2._buffer = v._buffer ∧
     (pop_front h v newCb).2.2._front = v._front + 1 ∧
     (pop_front h v newCb).2.2._back = v._back ∧
     (pop_front h v newCb).2.1.mem v._front = none) := by
  obtain ⟨b1, b2, b3, b4, b5, b6, b7⟩ := pop_back_contents h v xs newCb hwf hcb hxs hne
  obtain ⟨f1, f2, f3, f4, f5, f6, f7⟩ := pop_front_contents h v xs newCb hwf hcb hxs hne
  refine ⟨⟨b1, by simpa using b2.1, fun k hk => ?_, by unfold capacity; rw [b3, b4],
      b3, b5, b6, b7⟩,
    ⟨f1, by simpa using f2.1, fun k hk => ?_, by unfold capacity; rw [f3, f4], f3, f5, f6, f7⟩⟩
  · have := b2.2 k (by simp; omega)
    rw [this, List.getElem_dropLast]
  · have := f2.2 k (by simp; omega)
    rw [this, List.getElem_tail]

/-- Witness of C5: removing at either end of the container holding `[1, 2, 3]`. -/
theorem pop_spec_witness :
    sampleFull.WF ∧ sampleFull.HasCtrlBlk sampleHeap ∧
    sampleFull.Contents sampleHeap [1, 2, 3] ∧
    (pop_back sampleHeap sampleFull 2).2.2.size = 2 ∧
    (pop_front sampleHeap sampleFull 2).2.2.read (pop_front sampleHeap sampleFull 2).2.1 0
      = .ok (some 2) :=
  have w := pop_spec sampleHeap sampleFull [1, 2, 3] 2
    (by decide) (by decide) (by decide) (by decide)
  ⟨by decide, by decide, by decide, w.1.2.1, w.2.2.2.1 0 (by decide)⟩

end Vector

/-! ## Every mutator is a change of the buffer followed by `update_ctrlBlk` -/

namespace Op

variable {T : Type}

/-- A mutator either throws on an empty container, leaving the state alone, or
reaches the state `op.pre s` and ends with `update_ctrlBlk`. -/
theorem apply_eq (op : Op T) (s : Heap T × Vector) :
    op.apply s =
      if op.throws s.2 then (.error .out_of_range, s)
      else Vector.update_ctrlBlk { s.1 with mem := (op.pre s).1 } (op.pre s).2 op.reason
            (op.location (op.pre s).2) (op.pre s).2._front (op.pre s).2._back op.newCb := by
  obtain ⟨h, v⟩ := s
  cases op with
  | pop_back newCb =>
    by_cases hl : v._length = 0 <;>
      simp [apply, throws, isInsert, pre, reason, location, Op.newCb, Vector.pop_back, hl]
  | pop_front newCb =>
    by_cases hl : v._length = 0 <;>
      simp [apply, throws, isInsert, pre, reason, location, Op.newCb, Vector.pop_front, hl]
  | _ => rfl

/-- The buffer part of a mutator keeps the layout invariant and the control
block pointer, and changes the length by one in the direction of the call. -/
theorem pre_layout (op : Op T) (s : Heap T × Vector) (hwf : s.2.WF) :
    (op.pre s).2.WF ∧ (op.pre s).2._ctrlBlk = s.2._ctrlBlk ∧
    (op.isInsert = true → (op.pre s).2._length = s.2._length + 1) ∧
    (op.isInsert = false → op.throws s.2 = false → (op.pre s).2._length + 1 = s.2._length) := by
  obtain ⟨h, v⟩ := s
  obtain ⟨w1, w2, w3, w4, w5⟩ := hwf
  dsimp only at w1 w2 w3 w4 w5
  cases op with
  | push_back val newBuf newCb =>
    by_cases hg : v._back = v._buffer_end <;> by_cases hne : newBuf = v._buffer <;>
      simp [pre, isInsert, Vector.WF, hg, hne] <;> omega
  | push_back_rv val newBuf newCb =>
    by_cases hg : v._back = v._buffer_end <;> by_cases hne : newBuf = v._buffer <;>
      simp [pre, isInsert, Vector.WF, hg, hne] <;> omega
  | emplace_back val newBuf newCb =>
    by_cases hg : v._back = v._buffer_end <;> by_cases hne : newBuf = v._buffer <;>
      simp [pre, isInsert, Vector.WF, hg, hne] <;> omega
  | push_front val newBuf newCb =>
    by_cases hg : v._front = v._buffer <;> by_cases hne : newBuf = v._buffer <;>
      simp [pre, isInsert, Vector.WF, hg, hne] <;> omega
  | push_front_rv val newBuf newCb =>
    by_cases hg : v._front = v._buffer <;> by_cases hne : newBuf = v._buffer <;>
      simp [pre, isInsert, Vector.WF, hg, hne] <;> omega
  | pop_back newCb =>
    by_cases hl : v._length = 0 <;>
      simp [pre, isInsert, throws, Vector.WF, hl] <;> omega
  | pop_front newCb =>
    by_cases hl : v._length = 0 <;>
      simp [pre, isInsert, throws, Vector.WF, hl] <;> omega

end Op

namespace Vector

variable {T : Type}

/-- The cheap path of `update_ctrlBlk`: with no reference, the version of the
same control block is bumped. -/
theorem update_ctrlBlk_unreferenced (h : Heap T) (v : Vector) (reason : invalidate_reason)
    (l b e newCb : Nat) (cb : CtrlBlk) (hcb : h.blks v._ctrlBlk = some cb) (hr : cb._refs = 0) :
    update_ctrlBlk h v reason l b e newCb =
      (.ok (), ({ h with blks := (store h.blks v._ctrlBlk
          (some { cb with _version := (cb._version + 1) % U64, _reason := .NONE,
                          _location := 0, _begin := 0, _end := 0 })) }, v)) := by
  simp [update_ctrlBlk, hcb, hr]

/-- The retiring path of `update_ctrlBlk`: with a reference, the control block
is invalidated and the container moves to a new one. -/
theorem update_ctrlBlk_referenced (h : Heap T) (v : Vector) (reason : invalidate_reason)
    (l b e newCb : Nat) (cb : CtrlBlk) (hcb : h.blks v._ctrlBlk = some cb) (hr : cb._refs ≠ 0) :
    update_ctrlBlk h v reason l b e newCb =
      (.ok (), ({ h with blks := (store (store h.blks v._ctrlBlk
            (some (cb.invalidate reason l b e))) newCb
            (some (CtrlBlk.new ((cb._version + 1) % U64)))) },
          { v with _ctrlBlk := newCb })) := by
  simp [update_ctrlBlk, hcb, hr]

end Vector

namespace Tally

variable {T : Type}

/-- One call on a container nobody holds a cursor of: the layout invariant,
the absence of references and the balance of the counts are kept, and the
version grows by at most one. -/
theorem step_unreferenced (t : Tally T) (op : Op T) (m : Nat) (cb : CtrlBlk)
    (hwf : t.state.2.WF) (hcb : t.state.1.blks t.state.2._ctrlBlk = some cb)
    (hr : cb._refs = 0) (hv : cb._version ≤ m)
    (hcount : t.state.2._length + t.removed = t.inserted) :
    (t.step op).state.2.WF ∧
    (∃ cb1, (t.step op).state.1.blks (t.step op).state.2._ctrlBlk = some cb1 ∧
      cb1._refs = 0 ∧ cb1._version ≤ m + 1) ∧
    (t.step op).state.2._length + (t.step op).removed = (t.step op).inserted := by
  obtain ⟨p1, p2, p3, p4⟩ := op.pre_layout t.state hwf
  have heq := op.apply_eq t.state
  by_cases hth : op.throws t.state.2 = true
  · rw [if_pos hth] at heq
    have e1 : t.step op = t := by
      unfold step; rw [heq]
    rw [e1]
    exact ⟨hwf, ⟨cb, hcb, hr, by omega⟩, hcount⟩
  · rw [if_neg hth] at heq
    have hcb1 : (Heap.mk (op.pre t.state).1 t.state.1.blks).blks (op.pre t.state).2._ctrlBlk
        = some cb := by rw [p2]; exact hcb
    rw [Vector.update_ctrlBlk_unreferenced _ _ _ _ _ _ _ cb hcb1 hr] at heq
    have hmod : (cb._version + 1) % U64 ≤ m + 1 :=
      Nat.le_trans (Nat.mod_le _ _) (by omega)
    have hth2 : op.throws t.state.2 = false := by simpa using hth
    by_cases hi : op.isInsert = true
    · have e1 : t.step op =
          ⟨(op.apply t.state).2, t.inserted + 1, t.removed⟩ := by
        unfold step; rw [heq]; simp [hi]
      rw [e1, heq]
      refine ⟨p1, ⟨⟨(cb._version + 1) % U64, cb._refs, .NONE, 0, 0, 0⟩,
        by dsimp only; rw [store_same], hr, hmod⟩, ?_⟩
      dsimp only
      rw [p3 hi]; omega
    · have hi2 : op.isInsert = false := by simpa using hi
      have e1 : t.step op =
          ⟨(op.apply t.state).2, t.inserted, t.removed + 1⟩ := by
        unfold step; rw [heq]; simp [hi2]
      rw [e1, heq]
      refine ⟨p1, ⟨⟨(cb._version + 1) % U64, cb._refs, .NONE, 0, 0, 0⟩,
        by dsimp only; rw [store_same], hr, hmod⟩, ?_⟩
      dsimp only
      have := p4 hi2 hth2
      omega

/-- A run on a container nobody holds a cursor of. -/
theorem run_unreferenced (ops : List (Op T)) (t : Tally T) (m : Nat) (cb : CtrlBlk)
    (hwf : t.state.2.WF) (hcb : t.state.1.blks t.state.2._ctrlBlk = some cb)
    (hr : cb._refs = 0) (hv : cb._version ≤ m)
    (hcount : t.state.2._length + t.removed = t.inserted) :
    (t.run ops).state.2.WF ∧
    (∃ cb1, (t.run ops).state.1.blks (t.run ops).state.2._ctrlBlk = some cb1 ∧
      cb1._refs = 0 ∧ cb1._version ≤ m + ops.length) ∧
    (t.run ops).state.2._length + (t.run ops).removed = (t.run ops).inserted := by
  induction ops generalizing t m cb with
  | nil => exact ⟨hwf, ⟨cb, hcb, hr, by simpa using hv⟩, hcount⟩
  | cons op ops ih =>
    obtain ⟨s1, ⟨cb1, s2, s3, s4⟩, s5⟩ := step_unreferenced t op m cb hwf hcb hr hv hcount
    have := ih (t.step op) (m + 1) cb1 s1 s2 s3 s4 s5
    simp only [List.length_cons]
    have e : m + (ops.length + 1) = m + 1 + ops.length := by omega
    rw [e]
    exact this

end Tally

/-! ## C6: the length counts the successful calls -/

namespace Vector

variable {T : Type}

/-- What `Vector(void)` builds: an empty window at the start of a block of
`initial_size` cells, and a control block of version `1` without reference. -/
theorem ctor_spec (h : Heap T) (dflt : T) (newBuf newCb : Nat) :
    (ctor h dflt newBuf newCb).2 =
      { _buffer := newBuf, _buffer_end := newBuf + initial_size, _front := newBuf,
        _back := newBuf, _length := 0, _ctrlBlk := newCb } ∧
    (ctor h dflt newBuf newCb).1.blks newCb = some (CtrlBlk.new 1) ∧
    (ctor h dflt newBuf newCb).1.mem = h.mem := by
  refine ⟨by simp [ctor, init, alloc, raw], by simp [ctor, init, store], by simp [ctor, init]⟩

/-- Two cursors taken one after the other from a container whose control block
is not marked invalid: both constructions return, and the difference of the
cursors is the difference of their addresses. -/
theorem end_sub_begin (h : Heap T) (v : Vector) (cb : CtrlBlk)
    (hcb : h.blks v._ctrlBlk = some cb) (hv : cb._version ≠ INT_MIN) :
    ∃ b hb e he, begin h v = (.ok b, hb) ∧ end_ hb v = (.ok e, he) ∧
      const_iterator.sub he e b = .ok ((v._back : Int) - (v._front : Int)) := by
  refine ⟨⟨v._front, v._front, v._back, v._ctrlBlk⟩,
    { h with blks := store h.blks v._ctrlBlk (some cb.incRef) },
    ⟨v._back, v._front, v._back, v._ctrlBlk⟩,
    { h with blks := (store (store h.blks v._ctrlBlk (some cb.incRef)) v._ctrlBlk
        (some cb.incRef.incRef)) }, ?_, ?_, ?_⟩
  · simp [begin, iterator.ctor, const_iterator.ctor, hcb]
  · simp [end_, iterator.ctor, const_iterator.ctor, store_same]
  · simp [const_iterator.sub, const_iterator.validate_base, store_same, CtrlBlk.incRef, hv]

end Vector

/-- C6. After any sequence of append / prepend / remove calls on a freshly
constructed empty container, the length equals the number of insertions that
returned normally minus the number of removals that returned normally; and,
the sequence being shorter than the `INT_MIN - 1` version bumps it takes to
reach the marker of an invalid control block, taking `begin()` and then
`end()` succeeds and `end() - begin()` returns the length. -/
theorem length_counts_calls {T : Type} (h : Heap T) (dflt : T) (newBuf newCb : Nat)
    (ops : List (Op T)) :
    (((Tally.fresh h dflt newBuf newCb ops).state.2.size : Int)
      = ((Tally.fresh h dflt newBuf newCb ops).inserted : Int)
        - ((Tally.fresh h dflt newBuf newCb ops).removed : Int)) ∧
    (ops.length + 1 < INT_MIN →
      ∃ b hb e he,
        Vector.begin (Tally.fresh h dflt newBuf newCb ops).state.1
          (Tally.fresh h dflt newBuf newCb ops).state.2 = (.ok b, hb) ∧
        Vector.end_ hb (Tally.fresh h dflt newBuf newCb ops).state.2 = (.ok e, he) ∧
        const_iterator.sub he e b
          = .ok ((Tally.fresh h dflt newBuf newCb ops).state.2.size : Int)) := by
  obtain ⟨c1, c2, -⟩ := Vector.ctor_spec h dflt newBuf newCb
  have hwf0 : (Tally.start (Vector.ctor h dflt newBuf newCb)).state.2.WF := by
    show (Vector.ctor h dflt newBuf newCb).2.WF
    rw [c1]; simp [Vector.WF, initial_size]
  have hcb0 : (Tally.start (Vector.ctor h dflt newBuf newCb)).state.1.blks
      (Tally.start (Vector.ctor h dflt newBuf newCb)).state.2._ctrlBlk = some (CtrlBlk.new 1) := by
    show (Vector.ctor h dflt newBuf newCb).1.blks (Vector.ctor h dflt newBuf newCb).2._ctrlBlk = _
    rw [c1]; exact c2
  have hcount0 : (Tally.start (Vector.ctor h dflt newBuf newCb)).state.2._length
      + (Tally.start (Vector.ctor h dflt newBuf newCb)).removed
      = (Tally.start (Vector.ctor h dflt newBuf newCb)).inserted := by
    show (Vector.ctor h dflt newBuf newCb).2._length + 0 = 0
    rw [c1]
  obtain ⟨r1, ⟨cb1, r2, r3, r4⟩, r5⟩ :=
    Tally.run_unreferenced ops (Tally.start (Vector.ctor h dflt newBuf newCb)) 1
      (CtrlBlk.new 1) hwf0 hcb0 rfl (by simp [CtrlBlk.new, U64]) hcount0
  change (Tally.fresh h dflt newBuf newCb ops).state.2.WF at r1
  change (Tally.fresh h dflt newBuf newCb ops).state.1.blks
    (Tally.fresh h dflt newBuf newCb ops).state.2._ctrlBlk = some cb1 at r2
  change (Tally.fresh h dflt newBuf newCb ops).state.2._length
    + (Tally.fresh h dflt newBuf newCb ops).removed
    = (Tally.fresh h dflt newBuf newCb ops).inserted at r5
  refine ⟨by unfold Vector.size; omega, fun hlen => ?_⟩
  obtain ⟨b, hb, e, he, e1, e2, e3⟩ :=
    Vector.end_sub_begin _ _ cb1 r2 (by omega)
  refine ⟨b, hb, e, he, e1, e2, ?_⟩
  rw [e3]
  obtain ⟨-, w2, -, -, w5⟩ := r1
  unfold Vector.size
  congr 1
  omega

/-- Witness of C6: the calls `sampleOps` on `Vector(void)`. -/
theorem length_counts_calls_witness :
    sampleOps.length + 1 < INT_MIN ∧
    (Tally.fresh sampleHeap 0 30 5 sampleOps).state.2.size = 1 ∧
    ∃ b hb e he,
        Vector.begin (Tally.fresh sampleHeap 0 30 5 sampleOps).state.1
          (Tally.fresh sampleHeap 0 30 5 sampleOps).state.2 = (.ok b, hb) ∧
        Vector.end_ hb (Tally.fresh sampleHeap 0 30 5 sampleOps).state.2 = (.ok e, he) ∧
        const_iterator.sub he e b
          = .ok ((Tally.fresh sampleHeap 0 30 5 sampleOps).state.2.size : Int) :=
  ⟨by decide, by decide, (length_counts_calls sampleHeap 0 30 5 sampleOps).2 (by decide)⟩

/-! ## C7: a copy is independent of its source -/

/-- The copy loop leaves every cell outside the destination range alone. -/
theorem copy_cells_outside {T : Type} (m : Nat → Option T) (dst src n a : Nat)
    (hd : a < dst ∨ dst + n ≤ a) : copy_cells m dst src n a = m a := by
  induction n with
  | zero => rfl
  | succ n ih =>
    have h2 : a ≠ dst + n := by omega
    simp only [copy_cells]
    rw [store_ne _ _ _ _ h2]
    exact ih (by omega)

namespace Op

variable {T : Type}

/-- Where the block of the container is after the buffer part of a mutator:
where it was, or at the address the allocator handed out, twice as large. -/
theorem pre_block (op : Op T) (s : Heap T × Vector) :
    (op.grows s.2 = false →
      (op.pre s).2._buffer = s.2._buffer ∧ (op.pre s).2._buffer_end = s.2._buffer_end) ∧
    (op.grows s.2 = true → ∃ p, op.newBuf? = some p ∧
      (op.pre s).2._buffer = p ∧ (op.pre s).2._buffer_end = p + 2 * s.2.capacity) := by
  obtain ⟨h, v⟩ := s
  cases op with
  | push_back val newBuf newCb =>
    by_cases hg : v._back = v._buffer_end <;> by_cases hne : newBuf = v._buffer <;>
      simp [pre, grows, newBuf?, Vector.capacity, hg, hne] <;> omega
  | push_back_rv val newBuf newCb =>
    by_cases hg : v._back = v._buffer_end <;> by_cases hne : newBuf = v._buffer <;>
      simp [pre, grows, newBuf?, Vector.capacity, hg, hne] <;> omega
  | emplace_back val newBuf newCb =>
    by_cases hg : v._back = v._buffer_end <;> by_cases hne : newBuf = v._buffer <;>
      simp [pre, grows, newBuf?, Vector.capacity, hg, hne] <;> omega
  | push_front val newBuf newCb =>
    by_cases hg : v._front = v._buffer <;> by_cases hne : newBuf = v._buffer <;>
      simp [pre, grows, newBuf?, Vector.capacity, hg, hne] <;> omega
  | push_front_rv val newBuf newCb =>
    by_cases hg : v._front = v._buffer <;> by_cases hne : newBuf = v._buffer <;>
      simp [pre, grows, newBuf?, Vector.capacity, hg, hne] <;> omega
  | pop_back newCb =>
    by_cases hl : v._length = 0 <;> simp [pre, grows, hl]
  | pop_front newCb =>
    by_cases hl : v._length = 0 <;> simp [pre, grows, hl]

/-- The buffer part of a mutator writes only inside the block of the
container and, when it grows, inside the block the allocator handed out. -/
theorem pre_frame (op : Op T) (s : Heap T × Vector) (hwf : s.2.WF) (x : Nat)
    (hold : x < s.2._buffer ∨ s.2._buffer_end ≤ x)
    (hnew : op.grows s.2 = true → ∀ p, op.newBuf? = some p →
      x < p ∨ p + 2 * s.2.capacity ≤ x) :
    (op.pre s).1 x = s.1.mem x := by
  obtain ⟨h, v⟩ := s
  obtain ⟨w1, w2, w3, w4, w5⟩ := hwf
  dsimp only at w1 w2 w3 w4 w5 hold hnew
  cases op with
  | push_back val newBuf newCb =>
    by_cases hg : v._back = v._buffer_end
    · have hx := hnew (by simp [grows, hg]) newBuf rfl
      unfold Vector.capacity at hx
      by_cases hne : newBuf = v._buffer
      · simp only [pre, hg, hne, decide_True, if_true, ne_eq, not_true_eq_false, if_false]
        exact store_ne _ _ _ _ (by omega)
      · simp only [pre, hg, hne, decide_True, if_true, ne_eq, not_false_eq_true]
        rw [relocate_outside _ _ _ _ _ (by omega) (by omega)]
        exact store_ne _ _ _ _ (by omega)
    · simp only [pre, hg, decide_False, ne_eq, not_true_eq_false, if_false, Bool.false_eq_true]
      exact store_ne _ _ _ _ (by omega)
  | push_back_rv val newBuf newCb =>
    by_cases hg : v._back = v._buffer_end
    · have hx := hnew (by simp [grows, hg]) newBuf rfl
      unfold Vector.capacity at hx
      by_cases hne : newBuf = v._buffer
      · simp only [pre, hg, hne, decide_True, if_true, ne_eq, not_true_eq_false, if_false]
        exact store_ne _ _ _ _ (by omega)
      · simp only [pre, hg, hne, decide_True, if_true, ne_eq, not_false_eq_true]
        rw [relocate_outside _ _ _ _ _ (by omega) (by omega)]
        exact store_ne _ _ _ _ (by omega)
    · simp only [pre, hg, decide_False, ne_eq, not_true_eq_false, if_false, Bool.false_eq_true]
      exact store_ne _ _ _ _ (by omega)
  | emplace_back val newBuf newCb =>
    by_cases hg : v._back = v._buffer_end
    · have hx := hnew (by simp [grows, hg]) newBuf rfl
      unfold Vector.capacity at hx
      by_cases hne : newBuf = v._buffer
      · simp only [pre, hg, hne, decide_True, if_true, ne_eq, not_true_eq_false, if_false]
        exact store_ne _ _ _ _ (by omega)
      · simp only [pre, hg, hne, decide_True, if_true, ne_eq, not_false_eq_true]
        rw [relocate_outside _ _ _ _ _ (by omega) (by omega)]
        exact store_ne _ _ _ _ (by omega)
    · simp only [pre, hg, decide_False, ne_eq, not_true_eq_false, if_false, Bool.false_eq_true]
      exact store_ne _ _ _ _ (by omega)
  | push_front val newBuf newCb =>
    by_cases hg : v._front = v._buffer
    · have hx := hnew (by simp [grows, hg]) newBuf rfl
      unfold Vector.capacity at hx
      by_cases hne : newBuf = v._buffer
      · simp only [pre, hg, hne, decide_True, if_true, ne_eq, not_true_eq_false, if_false]
        exact store_ne _ _ _ _ (by omega)
      · simp only [pre, hg, hne, decide_True, if_true, ne_eq, not_false_eq_true]
        rw [relocate_outside _ _ _ _ _ (by omega) (by omega)]
        exact store_ne _ _ _ _ (by omega)
    · simp only [pre, hg, decide_False, ne_eq, not_true_eq_false, if_false, Bool.false_eq_true]
      exact store_ne _ _ _ _ (by omega)
  | push_front_rv val newBuf newCb =>
    by_cases hg : v._front = v._buffer
    · have hx := hnew (by simp [grows, hg]) newBuf rfl
      unfold Vector.capacity at hx
      by_cases hne : newBuf = v._buffer
      · simp only [pre, hg, hne, decide_True, if_true, ne_eq, not_true_eq_false, if_false]
        exact store_ne _ _ _ _ (by omega)
      · simp only [pre, hg, hne, decide_True, if_true, ne_eq, not_false_eq_true]
        rw [relocate_outside _ _ _ _ _ (by omega) (by omega)]
        exact store_ne _ _ _ _ (by omega)
    · simp only [pre, hg, decide_False, ne_eq, not_true_eq_false, if_false, Bool.false_eq_true]
      exact store_ne _ _ _ _ (by omega)
  | pop_back newCb =>
    by_cases hl : v._length = 0
    · simp [pre, hl]
    · simp only [pre, ne_eq, hl, not_false_eq_true, if_true]
      exact store_ne _ _ _ _ (by omega)
  | pop_front newCb =>
    by_cases hl : v._length = 0
    · simp [pre, hl]
    · simp only [pre, ne_eq, hl, not_false_eq_true, if_true]
      exact store_ne _ _ _ _ (by omega)

end Op


namespace Tally

variable {T : Type}

theorem step_state (t : Tally T) (op : Op T) : (t.step op).state = (op.apply t.state).2 := by
  unfold step
  split
  · split <;> rfl
  · rfl

theorem run_state (ops : List (Op T)) (t u : Tally T) (hs : t.state = u.state) :
    (t.run ops).state = (u.run ops).state := by
  induction ops generalizing t u with
  | nil => exact hs
  | cons op ops ih =>
    exact ih (t.step op) (u.step op) (by rw [step_state, step_state, hs])

end Tally

theorem runFrom_nil {T : Type} (s : Heap T × Vector) : runFrom s [] = s := rfl

theorem runFrom_cons {T : Type} (s : Heap T × Vector) (op : Op T) (ops : List (Op T)) :
    runFrom s (op :: ops) = runFrom (op.apply s).2 ops := by
  unfold runFrom
  exact Tally.run_state ops _ _ (by rw [Tally.step_state]; rfl)

/-- One call on a container that is apart from `a`, the allocator handing out
a block clear of the block of `a`: the container stays apart from `a`, keeps
its control block pointer, and neither a cell of the block of `a` nor another
control block changes. -/
theorem Apart.step {T : Type} (a : Vector) (s : Heap T × Vector) (op : Op T)
    (hs : Apart a s)
    (hf : op.grows s.2 = true → ∀ p, op.newBuf? = some p → a.FreshBlock p (2 * s.2.capacity)) :
    Apart a (op.apply s).2 ∧ (op.apply s).2.2._ctrlBlk = s.2._ctrlBlk ∧
    (∀ x, a._buffer ≤ x → x < a._buffer_end → (op.apply s).2.1.mem x = s.1.mem x) ∧
    (∀ p, p ≠ s.2._ctrlBlk → (op.apply s).2.1.blks p = s.1.blks p) := by
  obtain ⟨hwf, hdis, cb, hcb, hr⟩ := hs
  have heq := op.apply_eq s
  by_cases hth : op.throws s.2 = true
  · rw [if_pos hth] at heq
    rw [heq]
    exact ⟨⟨hwf, hdis, cb, hcb, hr⟩, rfl, fun _ _ _ => rfl, fun _ _ => rfl⟩
  · rw [if_neg hth] at heq
    obtain ⟨p1, p2, -, -⟩ := op.pre_layout s hwf
    obtain ⟨b1, b2⟩ := op.pre_block s
    have hcb1 : (Heap.mk (op.pre s).1 s.1.blks).blks (op.pre s).2._ctrlBlk = some cb := by
      rw [p2]; exact hcb
    rw [Vector.update_ctrlBlk_unreferenced _ _ _ _ _ _ _ cb hcb1 hr] at heq
    rw [heq]
    have hw := hwf
    obtain ⟨w1, w2, w3, w4, w5⟩ := hw
    unfold Vector.FreshBlock Vector.capacity at hdis
    refine ⟨⟨p1, ?_, ⟨(cb._version + 1) % U64, cb._refs, .NONE, 0, 0, 0⟩,
        by dsimp only; rw [store_same], hr⟩, p2, fun x hx1 hx2 => ?_, fun p hp => ?_⟩
    · dsimp only
      unfold Vector.FreshBlock Vector.capacity
      by_cases hg : op.grows s.2 = true
      · obtain ⟨q, hq, e1, e2⟩ := b2 hg
        have := hf hg q hq
        unfold Vector.FreshBlock Vector.capacity at this
        unfold Vector.capacity at e2
        rw [e1, e2]; omega
      · obtain ⟨e1, e2⟩ := b1 (by simpa using hg)
        rw [e1, e2]; omega
    · dsimp only
      refine op.pre_frame s hwf x (by omega) (fun hg q hq => ?_)
      have := hf hg q hq
      unfold Vector.FreshBlock Vector.capacity at this
      unfold Vector.capacity
      omega
    · dsimp only
      rw [p2]
      exact store_ne _ _ _ _ hp

/-- A run of calls on a container that is apart from `a`. -/
theorem Apart.run {T : Type} (a : Vector) (ops : List (Op T)) (s : Heap T × Vector)
    (hs : Apart a s) (hf : freshAlong a s ops = true) :
    Apart a (runFrom s ops) ∧ (runFrom s ops).2._ctrlBlk = s.2._ctrlBlk ∧
    (∀ x, a._buffer ≤ x → x < a._buffer_end → (runFrom s ops).1.mem x = s.1.mem x) ∧
    (∀ p, p ≠ s.2._ctrlBlk → (runFrom s ops).1.blks p = s.1.blks p) := by
  induction ops generalizing s with
  | nil => exact ⟨hs, rfl, fun _ _ _ => rfl, fun _ _ => rfl⟩
  | cons op ops ih =>
    simp only [freshAlong, Bool.and_eq_true, Bool.or_eq_true, Bool.not_eq_true'] at hf
    obtain ⟨hf1, hf2⟩ := hf
    have hstep := Apart.step a s op hs (fun hg q hq => by
      rcases hf1 with hf1 | hf1
      · rw [hg] at hf1; exact absurd hf1 (by simp)
      · rw [hq] at hf1; simpa using hf1)
    obtain ⟨t1, t2, t3, t4⟩ := hstep
    obtain ⟨i1, i2, i3, i4⟩ := ih (op.apply s).2 t1 hf2
    rw [runFrom_cons]
    refine ⟨i1, by rw [i2, t2], fun x hx1 hx2 => ?_, fun p hp => ?_⟩
    · rw [i3 x hx1 hx2, t3 x hx1 hx2]
    · rw [i4 p (by rw [t2]; exact hp), t4 p hp]


namespace const_iterator

variable {T : Type}

/-- What a cursor does depends on the heap through its own control block only. -/
theorem congr_heap (h1 h2 : Heap T) (c : const_iterator)
    (hb : h1.blks c._ctrlBlk = h2.blks c._ctrlBlk) :
    c.validate_base h1 = c.validate_base h2 ∧ c.validate_deref h1 = c.validate_deref h2 ∧
    c.deref h1 = c.deref h2 ∧ (∀ rhs, c.eq h1 rhs = c.eq h2 rhs) ∧
    (∀ rhs, c.ne h1 rhs = c.ne h2 rhs) ∧ (∀ rhs, c.sub h1 rhs = c.sub h2 rhs) ∧
    c.inc h1 = c.inc h2 ∧ c.dec h1 = c.dec h2 ∧
    (∀ offset, (c.add h1 offset).1 = (c.add h2 offset).1) := by
  have e1 : c.validate_base h1 = c.validate_base h2 := by
    unfold validate_base; rw [hb]
  have e2 : c.validate_deref h1 = c.validate_deref h2 := by
    unfold validate_deref; rw [e1]
  have e3 : ∀ rhs, c.eq h1 rhs = c.eq h2 rhs := by
    intro rhs; unfold eq; rw [e1]
  refine ⟨e1, e2, by unfold deref; rw [e2], e3, fun rhs => by unfold ne; rw [e1, e3],
    fun rhs => by unfold sub; rw [e1], by unfold inc; rw [e1], by unfold dec; rw [e1],
    fun offset => ?_⟩
  unfold add
  rw [e1]
  cases validate_base h2 c with
  | error e => rfl
  | ok u =>
    cases hc : h2.blks c._ctrlBlk with
    | none => simp [ctor_copy, hb, hc]
    | some cb => simp [ctor_copy, hb, hc]

end const_iterator

namespace Vector

variable {T : Type}

/-- What the copy constructor builds next to its source `a`. -/
theorem ctor_copy_apart (h : Heap T) (a : Vector) (newBuf newCb : Nat) (hwf : a.WF)
    (hbuf : a.FreshBlock newBuf a.capacity) :
    Apart a (ctor_copy h a newBuf newCb) ∧ (ctor_copy h a newBuf newCb).2._ctrlBlk = newCb ∧
    (∀ x, a._buffer ≤ x → x < a._buffer_end → (ctor_copy h a newBuf newCb).1.mem x = h.mem x) ∧
    (∀ p, p ≠ newCb → (ctor_copy h a newBuf newCb).1.blks p = h.blks p) := by
  obtain ⟨w1, w2, w3, w4, w5⟩ := hwf
  unfold FreshBlock capacity at hbuf
  refine ⟨⟨?_, ?_, CtrlBlk.new 1, ?_, rfl⟩, rfl, fun x hx1 hx2 => ?_, fun p hp => ?_⟩
  · simp only [ctor_copy, copy, raw, WF]; omega
  · simp only [ctor_copy, copy, raw, FreshBlock, capacity]; omega
  · simp [ctor_copy, copy, store]
  · simp only [ctor_copy, copy, raw]
    exact copy_cells_outside _ _ _ _ _ (by omega)
  · simp only [ctor_copy, copy]
    exact store_ne _ _ _ _ hp

/-- C7. Let `B` be the copy of a container `A` the copy constructor builds
(in a block clear of the block of `A`, with a control block of its own), and
let any sequence of append / prepend / remove calls be made on `B` (every
block the allocator hands out being clear of the block of `A`).  Then every
index of `A` designates what it designated, the control block of `A` is
unchanged, and every cursor attached to it validates, dereferences, compares,
subtracts, steps and offsets exactly as before the copy, the cells of the
window of `A` holding what they held.  (The members of `A`, its length
included, are no argument of a call on `B`.) -/
theorem copy_is_independent (h : Heap T) (a : Vector) (newBuf newCb : Nat)
    (ops : List (Op T)) (hwf : a.WF) (hbuf : a.FreshBlock newBuf a.capacity)
    (hcb : newCb ≠ a._ctrlBlk)
    (hfresh : freshAlong a (ctor_copy h a newBuf newCb) ops = true) :
    (∀ k, a.read (runFrom (ctor_copy h a newBuf newCb) ops).1 k = a.read h k) ∧
    (runFrom (ctor_copy h a newBuf newCb) ops).1.blks a._ctrlBlk = h.blks a._ctrlBlk ∧
    (∀ c : const_iterator, c._ctrlBlk = a._ctrlBlk →
      c.validate_base (runFrom (ctor_copy h a newBuf newCb) ops).1 = c.validate_base h ∧
      c.validate_deref (runFrom (ctor_copy h a newBuf newCb) ops).1 = c.validate_deref h ∧
      c.deref (runFrom (ctor_copy h a newBuf newCb) ops).1 = c.deref h ∧
      (∀ rhs, c.eq (runFrom (ctor_copy h a newBuf newCb) ops).1 rhs = c.eq h rhs) ∧
      (∀ rhs, c.ne (runFrom (ctor_copy h a newBuf newCb) ops).1 rhs = c.ne h rhs) ∧
      (∀ rhs, c.sub (runFrom (ctor_copy h a newBuf newCb) ops).1 rhs = c.sub h rhs) ∧
      c.inc (runFrom (ctor_copy h a newBuf newCb) ops).1 = c.inc h ∧
      c.dec (runFrom (ctor_copy h a newBuf newCb) ops).1 = c.dec h ∧
      (∀ offset, (c.add (runFrom (ctor_copy h a newBuf newCb) ops).1 offset).1
        = (c.add h offset).1) ∧
      (a._front ≤ c._ptr → c._ptr < a._back →
        (runFrom (ctor_copy h a newBuf newCb) ops).1.mem c._ptr = h.mem c._ptr)) := by
  obtain ⟨k1, k2, k3, k4⟩ := ctor_copy_apart h a newBuf newCb hwf hbuf
  obtain ⟨r1, r2, r3, r4⟩ := Apart.run a ops _ k1 hfresh
  obtain ⟨w1, w2, w3, w4, w5⟩ := hwf
  have hmem : ∀ x, a._buffer ≤ x → x < a._buffer_end →
      (runFrom (ctor_copy h a newBuf newCb) ops).1.mem x = h.mem x := fun x hx1 hx2 => by
    rw [r3 x hx1 hx2, k3 x hx1 hx2]
  have hblk : (runFrom (ctor_copy h a newBuf newCb) ops).1.blks a._ctrlBlk
      = h.blks a._ctrlBlk := by
    rw [r4 _ (by rw [k2]; exact fun e => hcb e.symm), k4 _ (fun e => hcb e.symm)]
  refine ⟨fun k => ?_, hblk, fun c hc => ?_⟩
  · by_cases hk : k < a._length
    · rw [read_eq _ _ _ hk, read_eq _ _ _ hk, hmem _ (by omega) (by omega)]
    · have hk2 : a._length ≤ k := by omega
      simp [read, index, hk2]
  · obtain ⟨c1, c2, c3, c4, c5, c6, c7, c8, c9⟩ :=
      const_iterator.congr_heap (runFrom (ctor_copy h a newBuf newCb) ops).1 h c
        (by rw [hc]; exact hblk)
    exact ⟨c1, c2, c3, c4, c5, c6, c7, c8, c9, fun h1 h2 => hmem _ (by omega) (by omega)⟩

/-- Witness of C7: `sampleCopyOps` on a copy of `sampleRoomy`. -/
theorem copy_is_independent_witness :
    sampleRoomy.WF ∧ sampleRoomy.FreshBlock 20 sampleRoomy.capacity ∧
    (5 : Nat) ≠ sampleRoomy._ctrlBlk ∧
    freshAlong sampleRoomy (ctor_copy sampleHeap sampleRoomy 20 5) sampleCopyOps = true ∧
    (∀ k, sampleRoomy.read (runFrom (ctor_copy sampleHeap sampleRoomy 20 5) sampleCopyOps).1 k
      = sampleRoomy.read sampleHeap k) ∧
    (runFrom (ctor_copy sampleHeap sampleRoomy 20 5) sampleCopyOps).1.blks sampleRoomy._ctrlBlk
      = sampleHeap.blks sampleRoomy._ctrlBlk :=
  have w := copy_is_independent sampleHeap sampleRoomy 20 5 sampleCopyOps
    (by decide) (by decide) (by decide) (by decide)
  ⟨by decide, by decide, by decide, by decide, w.1, w.2.1⟩

end Vector

/-! ## Control blocks under later calls -/

namespace Vector

variable {T : Type}

/-- The method `update_ctrlBlk` touches no control block other than the one
the container holds and the one it allocates. -/
theorem update_ctrlBlk_blks_other (h : Heap T) (v : Vector) (reason : invalidate_reason)
    (l b e newCb q : Nat) (h1 : q ≠ v._ctrlBlk) (h2 : q ≠ newCb) :
    (update_ctrlBlk h v reason l b e newCb).2.1.blks q = h.blks q := by
  unfold update_ctrlBlk
  cases hb : h.blks v._ctrlBlk with
  | none => rfl
  | some cb =>
    by_cases hr : cb._refs = 0
    · simp only [hr, if_true]
      exact store_ne _ _ _ _ h1
    · simp only [hr, if_false]
      rw [store_ne _ _ _ _ h2, store_ne _ _ _ _ h1]

/-- The method `destroy` touches no control block other than the one the
container holds. -/
theorem destroy_blks_other (h : Heap T) (v : Vector) (reason : invalidate_reason) (q : Nat)
    (h1 : q ≠ v._ctrlBlk) : (destroy h v reason).2.1.blks q = h.blks q := by
  unfold destroy
  by_cases hbuf : v._buffer = 0 <;> by_cases hnull : v._ctrlBlk = 0
  all_goals simp only [ne_eq, hbuf, hnull, not_true_eq_false, not_false_eq_true, if_true, if_false]
  all_goals first
    | rfl
    | (cases hb : h.blks v._ctrlBlk with
       | none => rfl
       | some cb =>
         by_cases hr : (cb.invalidate reason 0 0 0)._refs = 0
         · simp only [hr, if_true]; exact store_ne _ _ _ _ h1
         · simp only [hr, if_false]; exact store_ne _ _ _ _ h1)

/-- The method `destroy` keeps the control block pointer unless it deletes the
control block. -/
theorem destroy_referenced (h : Heap T) (v : Vector) (reason : invalidate_reason)
    (cb : CtrlBlk) (hnull : v._ctrlBlk ≠ 0) (hcb : h.blks v._ctrlBlk = some cb)
    (hr : cb._refs ≠ 0) :
    (destroy h v reason).1 = .ok () ∧
    (destroy h v reason).2.2._ctrlBlk = v._ctrlBlk ∧
    (destroy h v reason).2.1.blks v._ctrlBlk = some (cb.invalidate reason 0 0 0) := by
  have hr2 : (cb.invalidate reason 0 0 0)._refs ≠ 0 := hr
  unfold destroy
  by_cases hbuf : v._buffer = 0
  · simp only [ne_eq, hbuf, not_true_eq_false, if_false, hnull, not_false_eq_true, if_true,
      hcb, hr2]
    exact ⟨trivial, trivial, store_same _ _ _⟩
  · simp only [ne_eq, hbuf, not_false_eq_true, if_true, hnull, hcb, hr2, if_false]
    exact ⟨trivial, trivial, store_same _ _ _⟩

end Vector

namespace Op

variable {T : Type}

/-- The buffer part of a mutator keeps the control block pointer. -/
theorem pre_ctrlBlk (op : Op T) (s : Heap T × Vector) :
    (op.pre s).2._ctrlBlk = s.2._ctrlBlk := by
  obtain ⟨h, v⟩ := s
  cases op with
  | push_back val newBuf newCb =>
    by_cases hg : v._back = v._buffer_end <;> by_cases hne : newBuf = v._buffer <;>
      simp [pre, hg, hne]
  | push_back_rv val newBuf newCb =>
    by_cases hg : v._back = v._buffer_end <;> by_cases hne : newBuf = v._buffer <;>
      simp [pre, hg, hne]
  | emplace_back val newBuf newCb =>
    by_cases hg : v._back = v._buffer_end <;> by_cases hne : newBuf = v._buffer <;>
      simp [pre, hg, hne]
  | push_front val newBuf newCb =>
    by_cases hg : v._front = v._buffer <;> by_cases hne : newBuf = v._buffer <;>
      simp [pre, hg, hne]
  | push_front_rv val newBuf newCb =>
    by_cases hg : v._front = v._buffer <;> by_cases hne : newBuf = v._buffer <;>
      simp [pre, hg, hne]
  | pop_back newCb => by_cases hl : v._length = 0 <;> simp [pre, hl]
  | pop_front newCb => by_cases hl : v._length = 0 <;> simp [pre, hl]

/-- A mutator touches no control block other than the one the container holds
and the one it allocates. -/
theorem apply_blks_other (op : Op T) (s : Heap T × Vector) (q : Nat)
    (h1 : q ≠ s.2._ctrlBlk) (h2 : q ≠ op.newCb) :
    (op.apply s).2.1.blks q = s.1.blks q := by
  rw [op.apply_eq s]
  by_cases hth : op.throws s.2 = true
  · rw [if_pos hth]
  · rw [if_neg hth]
    exact Vector.update_ctrlBlk_blks_other _ _ _ _ _ _ _ q
      (by rw [op.pre_ctrlBlk s]; exact h1) h2

/-- A mutator that returns normally on a container whose control block is
referenced invalidates that control block, with its own reason and with the
location and the bounds of the window it has reached, and keeps the reference
count. -/
theorem apply_referenced (op : Op T) (s : Heap T × Vector) (cb : CtrlBlk)
    (hcb : s.1.blks s.2._ctrlBlk = some cb) (hr : cb._refs ≠ 0)
    (hok : (op.apply s).1 = .ok ()) (hnew : op.newCb ≠ s.2._ctrlBlk) :
    op.throws s.2 = false ∧
    (op.apply s).2.1.blks s.2._ctrlBlk =
      some (cb.invalidate op.reason (op.location (op.pre s).2)
        (op.pre s).2._front (op.pre s).2._back) ∧
    (op.apply s).2.2._ctrlBlk = op.newCb := by
  have heq := op.apply_eq s
  by_cases hth : op.throws s.2 = true
  · rw [if_pos hth] at heq
    rw [heq] at hok
    exact absurd hok (by simp)
  · rw [if_neg hth] at heq
    have hcb1 : (Heap.mk (op.pre s).1 s.1.blks).blks (op.pre s).2._ctrlBlk = some cb := by
      rw [op.pre_ctrlBlk s]; exact hcb
    rw [Vector.update_ctrlBlk_referenced _ _ _ _ _ _ _ cb hcb1 hr] at heq
    rw [heq]
    refine ⟨by simpa using hth, ?_, rfl⟩
    dsimp only
    rw [op.pre_ctrlBlk s, store_ne _ _ _ _ (fun e => hnew e.symm), store_same]

end Op


namespace Vector

variable {T : Type}

/-- The copy assignment touches no control block other than the one the
container holds and the one it allocates. -/
theorem assign_blks_other (h : Heap T) (v other : Vector) (same : Bool) (newBuf newCb q : Nat)
    (h1 : q ≠ v._ctrlBlk) (h2 : q ≠ newCb) :
    (assign h v other same newBuf newCb).2.1.blks q = h.blks q := by
  have hd := destroy_blks_other h v .COPY_ASSIGN q h1
  unfold assign
  cases same with
  | true => rfl
  | false =>
    simp only [Bool.not_false, if_true]
    rcases hdes : destroy h v .COPY_ASSIGN with ⟨out, hh, vv⟩
    rw [hdes] at hd
    cases out with
    | error e => exact hd
    | ok u =>
      simp only [copy]
      rw [store_ne _ _ _ _ h2]
      exact hd

end Vector

namespace Call

variable {T : Type}

/-- A call that can be made while the watched cursor of the retired control
block `p` is alive changes nothing of `p` but its reference count, which
follows the number of live cursors. -/
theorem frozen (c : Call T) (h : Heap T) (p n n1 : Nat) (cb : CtrlBlk)
    (hcb : h.blks p = some { cb with _refs := n + 1 }) (hn : n + 1 < U64)
    (ho : c.others p n = some n1) :
    (c.apply h).blks p = some { cb with _refs := n1 + 1 } ∧ n1 + 1 < U64 := by
  cases c with
  | mutate v op =>
    simp only [others, ne_eq] at ho
    split at ho
    · rename_i hh
      cases ho
      refine ⟨?_, hn⟩
      rw [← hcb]
      exact op.apply_blks_other (h, v) p (fun e => hh.1 e.symm) (fun e => hh.2 e.symm)
    · cases ho
  | assign v other same newBuf newCb =>
    simp only [others, ne_eq] at ho
    split at ho
    · rename_i hh
      cases ho
      refine ⟨?_, hn⟩
      rw [← hcb]
      exact Vector.assign_blks_other h v other same newBuf newCb p
        (fun e => hh.1 e.symm) (fun e => hh.2 e.symm)
    · cases ho
  | vdtor v =>
    simp only [others, ne_eq] at ho
    split at ho
    · rename_i hh
      cases ho
      refine ⟨?_, hn⟩
      rw [← hcb]
      exact Vector.destroy_blks_other h v .DESTROY p (fun e => hh e.symm)
    · cases ho
  | vctor dflt newBuf newCb =>
    simp only [others, ne_eq] at ho
    split at ho
    · rename_i hh
      cases ho
      refine ⟨?_, hn⟩
      rw [← hcb]
      exact store_ne _ _ _ _ (fun e => hh e.symm)
    · cases ho
  | vctor_n k dflt newBuf newCb =>
    simp only [others, ne_eq] at ho
    split at ho
    · rename_i hh
      cases ho
      refine ⟨?_, hn⟩
      rw [← hcb]
      exact store_ne _ _ _ _ (fun e => hh e.symm)
    · cases ho
  | vctor_copy other newBuf newCb =>
    simp only [others, ne_eq] at ho
    split at ho
    · rename_i hh
      cases ho
      refine ⟨?_, hn⟩
      rw [← hcb]
      exact store_ne _ _ _ _ (fun e => hh e.symm)
    · cases ho
  | ictor ptr begin_ end_ ctrlBlk =>
    simp only [others] at ho
    by_cases hp : ctrlBlk = p
    · subst hp
      rw [if_pos rfl] at ho
      by_cases hb : n + 2 < U64
      · rw [if_pos hb] at ho
        cases ho
        have e : (n + 1 + 1) % U64 = n + 1 + 1 := Nat.mod_eq_of_lt hb
        refine ⟨?_, hb⟩
        simp only [apply, const_iterator.ctor, hcb, store_same, CtrlBlk.incRef, e]
      · rw [if_neg hb] at ho; cases ho
    · rw [if_neg hp] at ho
      cases ho
      refine ⟨?_, hn⟩
      simp only [apply, const_iterator.ctor]
      cases hq : h.blks ctrlBlk with
      | none => exact hcb
      | some cq => rw [← hcb]; exact store_ne _ _ _ _ (fun e => hp e.symm)
  | icopy d =>
    simp only [others] at ho
    by_cases hp : d._ctrlBlk = p
    · rw [if_pos hp] at ho
      by_cases hb : n + 2 < U64
      · rw [if_pos hb] at ho
        cases ho
        have e : (n + 1 + 1) % U64 = n + 1 + 1 := Nat.mod_eq_of_lt hb
        refine ⟨?_, hb⟩
        simp only [apply, const_iterator.ctor_copy, hp, hcb, store_same, CtrlBlk.incRef, e]
      · rw [if_neg hb] at ho; cases ho
    · rw [if_neg hp] at ho
      cases ho
      refine ⟨?_, hn⟩
      simp only [apply, const_iterator.ctor_copy]
      cases hq : h.blks d._ctrlBlk with
      | none => exact hcb
      | some cq => rw [← hcb]; exact store_ne _ _ _ _ (fun e => hp e.symm)
  | idtor d =>
    simp only [others] at ho
    by_cases hp : d._ctrlBlk = p
    · rw [if_pos hp] at ho
      by_cases hb : 0 < n
      · rw [if_pos hb] at ho
        cases ho
        have e : (n + 1 + U64 - 1) % U64 = n - 1 + 1 := by
          have : n + 1 + U64 - 1 = n + U64 := by omega
          rw [this, Nat.add_mod_right, Nat.mod_eq_of_lt (by omega)]
          omega
        have hne : ¬ (n - 1 + 1 = 0) := by omega
        refine ⟨?_, by omega⟩
        simp only [apply, const_iterator.dtor, hp, hcb, CtrlBlk.decRef, e, hne, and_false,
          if_false, store_same]
      · rw [if_neg hb] at ho; cases ho
    · rw [if_neg hp] at ho
      cases ho
      refine ⟨?_, hn⟩
      simp only [apply, const_iterator.dtor]
      cases hq : h.blks d._ctrlBlk with
      | none => exact hcb
      | some cq =>
        dsimp only
        split <;> (rw [← hcb]; exact store_ne _ _ _ _ (fun e => hp e.symm))

end Call

/-- Calls that can be made while the watched cursor of the retired control
block `p` is alive change nothing of `p` but its reference count. -/
theorem runCalls_frozen {T : Type} (cs : List (Call T)) (h : Heap T) (p n : Nat) (cb : CtrlBlk)
    (hcb : h.blks p = some { cb with _refs := n + 1 }) (hn : n + 1 < U64)
    (ha : admissible p n cs = true) :
    ∃ n1, (runCalls h cs).blks p = some { cb with _refs := n1 + 1 } := by
  induction cs generalizing h n with
  | nil => exact ⟨n, hcb⟩
  | cons c cs ih =>
    simp only [admissible] at ha
    cases ho : c.others p n with
    | none => rw [ho] at ha; cases ha
    | some n1 =>
      rw [ho] at ha
      obtain ⟨f1, f2⟩ := c.frozen h p n n1 cb hcb hn ho
      exact ih (c.apply h) n1 f1 f2 ha


/-! ## Cursors counted in the reference count of a retired control block -/

namespace const_iterator

variable {T : Type}

/-- The check `validate_base` does not read the reference count. -/
theorem validate_base_refs (h1 h2 : Heap T) (c : const_iterator) (cb : CtrlBlk) (r1 r2 : Nat)
    (hb1 : h1.blks c._ctrlBlk = some { cb with _refs := r1 })
    (hb2 : h2.blks c._ctrlBlk = some { cb with _refs := r2 }) :
    c.validate_base h2 = c.validate_base h1 := by
  unfold validate_base
  rw [hb1, hb2]

/-- On a control block marked invalid, `validate_base` throws `invalid_iterator`. -/
theorem validate_base_invalid (h : Heap T) (c : const_iterator) (cb : CtrlBlk)
    (hb : h.blks c._ctrlBlk = some cb) (hv : cb._version = INT_MIN) :
    ∃ level, c.validate_base h = .error (.invalid_iterator level) := by
  unfold validate_base
  rw [hb]
  simp only [hv, if_true]
  split_ifs <;> exact ⟨_, rfl⟩

/-- On a control block invalidated by the destruction of the container,
`validate_base` throws `SEVERE`. -/
theorem validate_base_destroyed (h : Heap T) (c : const_iterator) (cb : CtrlBlk)
    (hb : h.blks c._ctrlBlk = some cb) (hv : cb._version = INT_MIN)
    (hr : cb._reason = .DESTROY) :
    c.validate_base h = .error (.invalid_iterator .SEVERE) := by
  unfold validate_base
  rw [hb]
  simp only [hv, hr, if_true]

/-- On a control block invalidated by a removal of the very cell the cursor
points at, `validate_base` throws `SEVERE`. -/
theorem validate_base_removed (h : Heap T) (c : const_iterator) (cb : CtrlBlk)
    (hb : h.blks c._ctrlBlk = some cb) (hv : cb._version = INT_MIN)
    (hr : cb._reason = .POP_BACK ∨ cb._reason = .POP_FRONT) (hl : c._ptr = cb._location) :
    c.validate_base h = .error (.invalid_iterator .SEVERE) := by
  unfold validate_base
  rw [hb]
  rcases hr with hr | hr <;> simp [hv, hr, hl]

/-- Every navigation starts with `validate_base` and throws what it throws. -/
theorem nav_throws (h : Heap T) (c : const_iterator) (level : Severity_level)
    (hv : c.validate_base h = .error (.invalid_iterator level)) : NavThrows h c level := by
  unfold NavThrows
  refine ⟨?_, ?_, ?_, ?_, fun rhs => ?_, fun rhs => ?_, fun rhs => ?_, fun offset => ?_⟩
  · unfold inc; rw [hv]
  · unfold dec; rw [hv]
  · unfold iterator.inc; rw [hv]
  · unfold iterator.dec; rw [hv]
  · unfold eq; rw [hv]
  · unfold ne; rw [hv]
  · unfold sub; rw [hv]
  · unfold add; rw [hv]

/-- A `SEVERE` failure of `validate_base` is what a dereference throws, in
range or out of range. -/
theorem deref_throws_severe (h : Heap T) (c : const_iterator)
    (hv : c.validate_base h = .error (.invalid_iterator .SEVERE)) :
    DerefThrows h c .SEVERE := by
  have hd : c.validate_deref h = .error (.invalid_iterator .SEVERE) := by
    unfold validate_deref
    rw [hv]
    simp
  unfold DerefThrows
  constructor
  · unfold deref; rw [hd]
  · unfold iterator.deref; rw [hd]

end const_iterator

theorem CtrlBlk.invalidate_refs (cb : CtrlBlk) (reason : invalidate_reason) (l b e n : Nat)
    (hr : cb._refs = n) :
    cb.invalidate reason l b e = { cb.invalidate reason l b e with _refs := n } := by
  subst hr
  rfl

/-- A successful event on a container whose control block is referenced
leaves that control block invalidated, with the reason of the event. -/
theorem Retire.invalidates {T : Type} (e : Retire T) (s : Heap T × Vector) (cb : CtrlBlk)
    (hnull : s.1.blks 0 = none) (hcb : s.1.blks s.2._ctrlBlk = some cb) (hr : cb._refs ≠ 0)
    (hok : (e.apply s).1 = .ok ()) (hnew : e.newCb? ≠ some s.2._ctrlBlk) :
    ∃ reason l b en,
      (e.apply s).2.1.blks s.2._ctrlBlk = some (cb.invalidate reason l b en) := by
  have hp : s.2._ctrlBlk ≠ 0 := by
    intro h0; rw [h0, hnull] at hcb; cases hcb
  cases e with
  | mutate op =>
    have hn : op.newCb ≠ s.2._ctrlBlk := fun h => hnew (by simp [Retire.newCb?, h])
    exact ⟨_, _, _, _, (op.apply_referenced s cb hcb hr hok hn).2.1⟩
  | assign other newBuf newCb =>
    have hn : newCb ≠ s.2._ctrlBlk := fun h => hnew (by simp [Retire.newCb?, h])
    obtain ⟨d1, d2, d3⟩ := Vector.destroy_referenced s.1 s.2 .COPY_ASSIGN cb hp hcb hr
    refine ⟨.COPY_ASSIGN, 0, 0, 0, ?_⟩
    simp only [Retire.apply, Vector.assign, Bool.not_false, if_true]
    rcases hdes : Vector.destroy s.1 s.2 .COPY_ASSIGN with ⟨out, hh, vv⟩
    rw [hdes] at d1 d3
    dsimp only at d1 d3
    subst d1
    simp only [Vector.copy]
    rw [store_ne _ _ _ _ (fun e => hn e.symm)]
    exact d3
  | dtor =>
    exact ⟨.DESTROY, 0, 0, 0, (Vector.destroy_referenced s.1 s.2 .DESTROY cb hp hcb hr).2.2⟩

/-- What the counting of cursors gives.  Let a cursor `c` be attached to the
control block of a container and counted in its reference count,
alive together with `n` other cursors of it (reference count `n + 1`), when
the container undergoes a successful end mutation (append, prepend,
emplace-at-back, remove at either end), a copy assignment from another
container, or its destruction.  Then, whatever calls follow while `c` stays
alive, every navigation of `c` (pre-increment, pre-decrement, `==`, `!=` and
`-` as left operand, `+`) throws `invalid_iterator`. -/
theorem retired_navigation_throws {T : Type} (h : Heap T) (v : Vector) (c : const_iterator)
    (cb : CtrlBlk) (n : Nat) (e : Retire T) (calls : List (Call T))
    (hnull : h.blks 0 = none) (hc : c._ctrlBlk = v._ctrlBlk)
    (hcb : h.blks v._ctrlBlk = some cb) (hrefs : cb._refs = n + 1) (hn : n + 1 < U64)
    (hok : (e.apply (h, v)).1 = .ok ()) (hnew : e.newCb? ≠ some v._ctrlBlk)
    (hlater : admissible v._ctrlBlk n calls = true) :
    ∃ level, NavThrows (runCalls (e.apply (h, v)).2.1 calls) c level := by
  obtain ⟨reason, l, b, en, hinv⟩ :=
    e.invalidates (h, v) cb hnull hcb (by omega) hok hnew
  rw [CtrlBlk.invalidate_refs cb reason l b en (n + 1) hrefs] at hinv
  obtain ⟨n1, hfin⟩ := runCalls_frozen calls _ v._ctrlBlk n _ hinv hn hlater
  rw [← hc] at hfin
  obtain ⟨level, hl⟩ := c.validate_base_invalid _ _ hfin rfl
  exact ⟨level, c.nav_throws _ level hl⟩

/-- What the counting of cursors gives on destruction.  Let a cursor `c` be
attached to the control block of a container and counted in its reference count,
alive together with `n` other cursors of it, when the container is destroyed.
Then, whatever calls follow while `c` stays alive, every navigation and every
dereference of `c` throws `invalid_iterator` with severity `SEVERE`, wherever
the address of `c` lies with respect to its bounds. -/
theorem destroyed_cursor_severe {T : Type} (h : Heap T) (v : Vector) (c : const_iterator)
    (cb : CtrlBlk) (n : Nat) (calls : List (Call T))
    (hnull : h.blks 0 = none) (hc : c._ctrlBlk = v._ctrlBlk)
    (hcb : h.blks v._ctrlBlk = some cb) (hrefs : cb._refs = n + 1) (hn : n + 1 < U64)
    (hlater : admissible v._ctrlBlk n calls = true) :
    (Vector.dtor h v).1 = .ok () ∧
    NavThrows (runCalls (Vector.dtor h v).2.1 calls) c .SEVERE ∧
    DerefThrows (runCalls (Vector.dtor h v).2.1 calls) c .SEVERE := by
  have hp : v._ctrlBlk ≠ 0 := by
    intro h0; rw [h0, hnull] at hcb; cases hcb
  obtain ⟨d1, -, d3⟩ := Vector.destroy_referenced h v .DESTROY cb hp hcb (by omega)
  change (Vector.dtor h v).1 = .ok () at d1
  change (Vector.dtor h v).2.1.blks v._ctrlBlk = _ at d3
  rw [CtrlBlk.invalidate_refs cb .DESTROY 0 0 0 (n + 1) hrefs] at d3
  obtain ⟨n1, hfin⟩ := runCalls_frozen calls _ v._ctrlBlk n _ d3 hn hlater
  rw [← hc] at hfin
  have hl := c.validate_base_destroyed _ _ hfin rfl rfl
  exact ⟨d1, c.nav_throws _ _ hl, c.deref_throws_severe _ hl⟩


/-- An instance of `retired_navigation_throws`: `sampleRoomy.begin()` is alive when `push_back(4)` is called. -/
theorem retired_navigation_throws_witness :
    sampleHeld.blks 0 = none ∧ sampleFirst._ctrlBlk = sampleRoomy._ctrlBlk ∧
    sampleHeld.blks sampleRoomy._ctrlBlk = some sampleHeldBlk ∧
    sampleHeldBlk._refs = 0 + 1 ∧
    ((Retire.mutate (Op.push_back 4 40 6)).apply (sampleHeld, sampleRoomy)).1 = .ok () ∧
    admissible sampleRoomy._ctrlBlk 0 sampleLater = true ∧
    ∃ level, NavThrows
      (runCalls ((Retire.mutate (Op.push_back 4 40 6)).apply (sampleHeld, sampleRoomy)).2.1
        sampleLater) sampleFirst level :=
  ⟨by decide, by decide, by decide, by decide, by decide, by decide,
   retired_navigation_throws sampleHeld sampleRoomy sampleFirst sampleHeldBlk 0
     (Retire.mutate (Op.push_back 4 40 6)) sampleLater
     (by decide) (by decide) (by decide) (by decide) (by decide) (by decide) (by decide)
     (by decide)⟩

/-- An instance of `destroyed_cursor_severe`: `sampleRoomy.begin()` is alive when `sampleRoomy` is destroyed. -/
theorem destroyed_cursor_severe_witness :
    sampleHeld.blks 0 = none ∧ sampleFirst._ctrlBlk = sampleRoomy._ctrlBlk ∧
    sampleHeld.blks sampleRoomy._ctrlBlk = some sampleHeldBlk ∧
    sampleHeldBlk._refs = 0 + 1 ∧
    admissible sampleRoomy._ctrlBlk 0 [Call.icopy sampleFirst, Call.vctor (0 : Nat) 60 9] = true ∧
    DerefThrows (runCalls (Vector.dtor sampleHeld sampleRoomy).2.1
      [Call.icopy sampleFirst, Call.vctor (0 : Nat) 60 9]) sampleFirst .SEVERE :=
  ⟨by decide, by decide, by decide, by decide, by decide,
   (destroyed_cursor_severe sampleHeld sampleRoomy sampleFirst sampleHeldBlk 0
     [Call.icopy sampleFirst, Call.vctor (0 : Nat) 60 9]
     (by decide) (by decide) (by decide) (by decide) (by decide) (by decide)).2.2⟩

namespace Op

variable {T : Type}

/-- A mutator that does not throw on an empty container returns normally when
the container holds a control block. -/
theorem apply_ok (op : Op T) (s : Heap T × Vector) (hcb : s.2.HasCtrlBlk s.1)
    (hth : op.throws s.2 = false) : (op.apply s).1 = .ok () := by
  rw [op.apply_eq s, hth]
  simp only [Bool.false_eq_true, if_false]
  refine (Vector.update_ctrlBlk_frame _ _ _ _ _ _ _ ?_).1
  unfold Vector.HasCtrlBlk
  rw [op.pre_ctrlBlk s]
  exact hcb

end Op

/-- What the counting of cursors gives on a removal.  Let a cursor `c` be
counted in the reference count of, and attached to, the control block of a non-empty
container, alive together with `n` other cursors of it.  If `c` points at the
last element and `pop_back` is called, or `c` points at the first element and
`pop_front` is called, the call returns normally and from then on, whatever
calls follow while `c` stays alive, the location recorded in the retired
control block is the address of `c`, and every navigation and every
dereference of `c` throws `invalid_iterator` with severity `SEVERE`. -/
theorem removed_cell_cursor_severe {T : Type} (h : Heap T) (v : Vector) (c : const_iterator)
    (cb : CtrlBlk) (n newCb : Nat) (calls : List (Call T))
    (hc : c._ctrlBlk = v._ctrlBlk) (hcb : h.blks v._ctrlBlk = some cb)
    (hrefs : cb._refs = n + 1) (hn : n + 1 < U64) (hne : v._length ≠ 0)
    (hnew : newCb ≠ v._ctrlBlk) (hlater : admissible v._ctrlBlk n calls = true) :
    (c._ptr = v._back - 1 →
      (Vector.pop_back h v newCb).1 = .ok () ∧
      (∃ cb1, (runCalls (Vector.pop_back h v newCb).2.1 calls).blks c._ctrlBlk = some cb1 ∧
        cb1._location = c._ptr) ∧
      NavThrows (runCalls (Vector.pop_back h v newCb).2.1 calls) c .SEVERE ∧
      DerefThrows (runCalls (Vector.pop_back h v newCb).2.1 calls) c .SEVERE) ∧
    (c._ptr = v._front →
      (Vector.pop_front h v newCb).1 = .ok () ∧
      (∃ cb1, (runCalls (Vector.pop_front h v newCb).2.1 calls).blks c._ctrlBlk = some cb1 ∧
        cb1._location = c._ptr) ∧
      NavThrows (runCalls (Vector.pop_front h v newCb).2.1 calls) c .SEVERE ∧
      DerefThrows (runCalls (Vector.pop_front h v newCb).2.1 calls) c .SEVERE) := by
  have hhas : Vector.HasCtrlBlk h v := by unfold Vector.HasCtrlBlk; rw [hcb]; rfl
  constructor
  · intro hptr
    have hth : (Op.pop_back newCb : Op T).throws v = false := by
      simp [Op.throws, Op.isInsert, hne]
    have hok := (Op.pop_back newCb : Op T).apply_ok (h, v) hhas hth
    obtain ⟨-, a2, -⟩ := (Op.pop_back newCb : Op T).apply_referenced (h, v) cb hcb
      (by omega) hok hnew
    change (Vector.pop_back h v newCb).1 = .ok () at hok
    change (Vector.pop_back h v newCb).2.1.blks v._ctrlBlk = _ at a2
    rw [CtrlBlk.invalidate_refs cb _ _ _ _ (n + 1) hrefs] at a2
    obtain ⟨n1, hfin⟩ := runCalls_frozen calls _ v._ctrlBlk n _ a2 hn hlater
    rw [← hc] at hfin
    have hloc : (Op.pop_back newCb : Op T).location ((Op.pop_back newCb : Op T).pre (h, v)).2
        = c._ptr := by
      simp [Op.location, Op.pre, hne, hptr]
    have hl := c.validate_base_removed _ _ hfin rfl (Or.inl rfl) hloc.symm
    exact ⟨hok, ⟨_, hfin, hloc⟩, c.nav_throws _ _ hl, c.deref_throws_severe _ hl⟩
  · intro hptr
    have hth : (Op.pop_front newCb : Op T).throws v = false := by
      simp [Op.throws, Op.isInsert, hne]
    have hok := (Op.pop_front newCb : Op T).apply_ok (h, v) hhas hth
    obtain ⟨-, a2, -⟩ := (Op.pop_front newCb : Op T).apply_referenced (h, v) cb hcb
      (by omega) hok hnew
    change (Vector.pop_front h v newCb).1 = .ok () at hok
    change (Vector.pop_front h v newCb).2.1.blks v._ctrlBlk = _ at a2
    rw [CtrlBlk.invalidate_refs cb _ _ _ _ (n + 1) hrefs] at a2
    obtain ⟨n1, hfin⟩ := runCalls_frozen calls _ v._ctrlBlk n _ a2 hn hlater
    rw [← hc] at hfin
    have hloc : (Op.pop_front newCb : Op T).location ((Op.pop_front newCb : Op T).pre (h, v)).2
        = c._ptr := by
      simp [Op.location, Op.pre, hne, hptr]
    have hl := c.validate_base_removed _ _ hfin rfl (Or.inr rfl) hloc.symm
    exact ⟨hok, ⟨_, hfin, hloc⟩, c.nav_throws _ _ hl, c.deref_throws_severe _ hl⟩

/-- An instance of `removed_cell_cursor_severe`: a cursor at the last element of `sampleRoomy`, then
`pop_back`; the cursor `sampleRoomy.begin()`, then `pop_front`. -/
theorem removed_cell_cursor_severe_witness :
    sampleLast._ctrlBlk = sampleRoomy._ctrlBlk ∧
    sampleHeld.blks sampleRoomy._ctrlBlk = some sampleHeldBlk ∧
    sampleHeldBlk._refs = 0 + 1 ∧ sampleRoomy._length ≠ 0 ∧
    sampleLast._ptr = sampleRoomy._back - 1 ∧ sampleFirst._ptr = sampleRoomy._front ∧
    DerefThrows (runCalls (Vector.pop_back sampleHeld sampleRoomy 6).2.1 sampleLater)
      sampleLast .SEVERE ∧
    DerefThrows (runCalls (Vector.pop_front sampleHeld sampleRoomy 6).2.1 sampleLater)
      sampleFirst .SEVERE :=
  ⟨by decide, by decide, by decide, by decide, by decide, by decide,
   ((removed_cell_cursor_severe sampleHeld sampleRoomy sampleLast sampleHeldBlk 0 6 sampleLater
      (by decide) (by decide) (by decide) (by decide) (by decide) (by decide)
      (by decide)).1 (by decide)).2.2.2,
   ((removed_cell_cursor_severe sampleHeld sampleRoomy sampleFirst sampleHeldBlk 0 6 sampleLater
      (by decide) (by decide) (by decide) (by decide) (by decide) (by decide)
      (by decide)).2 (by decide)).2.2.2⟩


/-! ## C12: what a dereference throws -/

namespace const_iterator

variable {T : Type}

/-- On a control block invalidated by an assignment, `validate_base` throws
`MODERATE`. -/
theorem validate_base_assigned (h : Heap T) (c : const_iterator) (cb : CtrlBlk)
    (hb : h.blks c._ctrlBlk = some cb) (hv : cb._version = INT_MIN)
    (hr : cb._reason = .COPY_ASSIGN ∨ cb._reason = .MOVE_ASSIGN) :
    c.validate_base h = .error (.invalid_iterator .MODERATE) := by
  unfold validate_base
  rw [hb]
  rcases hr with hr | hr <;> simp [hv, hr]

/-- How `validate_deref` combines the range check with `validate_base`. -/
theorem validate_deref_eq (h : Heap T) (c : const_iterator) :
    c.validate_deref h =
      match c.validate_base h with
      | .error (.invalid_iterator level) =>
        if ¬ c.OutOfRange ∨ level = .SEVERE then .error (.invalid_iterator level)
        else .error .out_of_range
      | .error e => .error e
      | .ok () => if c.OutOfRange then .error .out_of_range else .ok () := by
  unfold validate_deref OutOfRange
  cases hv : c.validate_base h with
  | error e =>
    cases e with
    | invalid_iterator level =>
      by_cases ho : c._ptr = 0 ∨ c._ptr < c._begin ∨ c._ptr ≥ c._end <;>
        by_cases hl : level = .SEVERE <;> simp [ho, hl]
    | out_of_range => simp
    | fault => simp
  | ok u =>
    by_cases ho : c._ptr = 0 ∨ c._ptr < c._begin ∨ c._ptr ≥ c._end <;> simp [ho]

/-- A failure of `validate_base` is what a dereference in range throws. -/
theorem deref_throws_in_range (h : Heap T) (c : const_iterator) (level : Severity_level)
    (hv : c.validate_base h = .error (.invalid_iterator level)) (hin : ¬ c.OutOfRange) :
    DerefThrows h c level := by
  have hd : c.validate_deref h = .error (.invalid_iterator level) := by
    rw [validate_deref_eq, hv]
    simp [hin]
  unfold DerefThrows
  constructor
  · unfold deref; rw [hd]
  · unfold iterator.deref; rw [hd]

end const_iterator

/-- A copy assignment from another container onto a container whose control
block is referenced returns normally and leaves that control block
invalidated with the reason `COPY_ASSIGN`. -/
theorem Vector.assign_referenced {T : Type} (h : Heap T) (v other : Vector)
    (newBuf newCb : Nat) (cb : CtrlBlk) (hnull : h.blks 0 = none)
    (hcb : h.blks v._ctrlBlk = some cb) (hr : cb._refs ≠ 0) (hnew : newCb ≠ v._ctrlBlk) :
    (Vector.assign h v other false newBuf newCb).1 = .ok () ∧
    (Vector.assign h v other false newBuf newCb).2.1.blks v._ctrlBlk
      = some (cb.invalidate .COPY_ASSIGN 0 0 0) := by
  have hp : v._ctrlBlk ≠ 0 := by
    intro h0; rw [h0, hnull] at hcb; cases hcb
  obtain ⟨d1, d2, d3⟩ := Vector.destroy_referenced h v .COPY_ASSIGN cb hp hcb hr
  simp only [Vector.assign, Bool.not_false, if_true]
  rcases hdes : Vector.destroy h v .COPY_ASSIGN with ⟨out, hh, vv⟩
  rw [hdes] at d1 d3
  dsimp only at d1 d3
  subst d1
  simp only [Vector.copy]
  rw [store_ne _ _ _ _ (fun e => hnew e.symm)]
  exact ⟨trivial, d3⟩

/-- What the counting of cursors gives on a copy assignment.  Let a cursor `c`
be counted in the reference count of, and attached to, the control block of a container `A`,
alive together with `n` other cursors of it, its address inside the bounds it
captured.  After the copy assignment of another container `B` onto `A`, and
whatever calls follow while `c` stays alive, dereferencing `c` throws
`invalid_iterator` with severity `MODERATE`. -/
theorem assigned_over_deref_moderate {T : Type} (h : Heap T) (a b : Vector)
    (c : const_iterator) (cb : CtrlBlk) (n newBuf newCb : Nat) (calls : List (Call T))
    (hnull : h.blks 0 = none) (hc : c._ctrlBlk = a._ctrlBlk)
    (hcb : h.blks a._ctrlBlk = some cb) (hrefs : cb._refs = n + 1) (hn : n + 1 < U64)
    (hnew : newCb ≠ a._ctrlBlk) (hin : ¬ c.OutOfRange)
    (hlater : admissible a._ctrlBlk n calls = true) :
    (Vector.assign h a b false newBuf newCb).1 = .ok () ∧
    DerefThrows (runCalls (Vector.assign h a b false newBuf newCb).2.1 calls) c .MODERATE := by
  obtain ⟨a1, a2⟩ := Vector.assign_referenced h a b newBuf newCb cb hnull hcb (by omega) hnew
  rw [CtrlBlk.invalidate_refs cb _ _ _ _ (n + 1) hrefs] at a2
  obtain ⟨n1, hfin⟩ := runCalls_frozen calls _ a._ctrlBlk n _ a2 hn hlater
  rw [← hc] at hfin
  have hl := c.validate_base_assigned _ _ hfin rfl (Or.inl rfl)
  exact ⟨a1, c.deref_throws_in_range _ _ hl hin⟩

/-- An instance of `assigned_over_deref_moderate`: `sampleFull` is copy-assigned onto `sampleRoomy` while
`sampleRoomy.begin()` is alive. -/
theorem assigned_over_deref_moderate_witness :
    sampleHeld.blks 0 = none ∧ sampleFirst._ctrlBlk = sampleRoomy._ctrlBlk ∧
    sampleHeld.blks sampleRoomy._ctrlBlk = some sampleHeldBlk ∧
    sampleHeldBlk._refs = 0 + 1 ∧ ¬ sampleFirst.OutOfRange ∧
    admissible sampleRoomy._ctrlBlk 0 [Call.icopy sampleFirst, Call.vctor (0 : Nat) 60 9] = true ∧
    DerefThrows
      (runCalls (Vector.assign sampleHeld sampleRoomy sampleFull false 40 6).2.1
        [Call.icopy sampleFirst, Call.vctor (0 : Nat) 60 9]) sampleFirst .MODERATE :=
  ⟨by decide, by decide, by decide, by decide, by decide, by decide,
   (assigned_over_deref_moderate sampleHeld sampleRoomy sampleFull sampleFirst sampleHeldBlk
     0 40 6 [Call.icopy sampleFirst, Call.vctor (0 : Nat) 60 9]
     (by decide) (by decide) (by decide) (by decide) (by decide) (by decide) (by decide)
     (by decide)).2⟩

/-- C12. How a dereference is decided, for a cursor whose control block is
alive, `OutOfRange` saying that the address is null, below the captured begin,
or at or after the captured end.  If the generation was never retired, the
dereference throws `out_of_range` exactly when `OutOfRange` holds and otherwise
returns the reference to the cell at the address.  If the generation is
retired, `validate_base` throws `invalid_iterator` with some severity `s`; the
dereference throws `invalid_iterator` with `s` when `s` is `SEVERE` or
`OutOfRange` is false, and throws `out_of_range` when `OutOfRange` holds and
`s` is not `SEVERE`. -/
theorem deref_decision {T : Type} (h : Heap T) (c : const_iterator) :
    (c.Current h →
      (c.deref h = .error .out_of_range ↔ c.OutOfRange) ∧
      (¬ c.OutOfRange → c.deref h = .ok c._ptr)) ∧
    (c.Retired h →
      ∃ s, c.validate_base h = .error (.invalid_iterator s) ∧
        ((s = .SEVERE ∨ ¬ c.OutOfRange) → c.deref h = .error (.invalid_iterator s)) ∧
        ((c.OutOfRange ∧ s ≠ .SEVERE) → c.deref h = .error .out_of_range)) ∧
    iterator.deref h c = c.deref h := by
  refine ⟨fun ⟨cb, hb, hv⟩ => ?_, fun ⟨cb, hb, hv⟩ => ?_, rfl⟩
  · have hvb : c.validate_base h = .ok () := by
      unfold const_iterator.validate_base; rw [hb]; simp [hv]
    have hd : c.deref h = if c.OutOfRange then .error .out_of_range else .ok c._ptr := by
      unfold const_iterator.deref
      rw [const_iterator.validate_deref_eq, hvb]
      by_cases ho : c.OutOfRange <;> simp [ho]
    rw [hd]
    by_cases ho : c.OutOfRange <;> simp [ho]
  · obtain ⟨s, hs⟩ := c.validate_base_invalid h cb hb hv
    refine ⟨s, hs, fun hc => ?_, fun hc => ?_⟩
    · unfold const_iterator.deref
      rw [const_iterator.validate_deref_eq, hs]
      have : ¬ c.OutOfRange ∨ s = .SEVERE := hc.symm
      simp [this]
    · unfold const_iterator.deref
      rw [const_iterator.validate_deref_eq, hs]
      have : ¬ (¬ c.OutOfRange ∨ s = .SEVERE) := by
        intro hh; rcases hh with hh | hh
        · exact hh hc.1
        · exact hc.2 hh
      simp [this]


/-- Witness of C12: `sampleRoomy.begin()` before any mutation, and
`sampleRoomy.end()` after `pop_front`. -/
theorem deref_decision_witness :
    sampleFirst.Current sampleHeld ∧ ¬ sampleFirst.OutOfRange ∧
    sampleFirst.deref sampleHeld = .ok sampleFirst._ptr ∧
    sampleEnd.Retired samplePoppedFront ∧
    ∃ s, sampleEnd.validate_base samplePoppedFront = .error (.invalid_iterator s) :=
  have hcur : sampleFirst.Current sampleHeld := ⟨sampleHeldBlk, by decide, by decide⟩
  have hret : sampleEnd.Retired samplePoppedFront :=
    ⟨sampleHeldBlk.invalidate .POP_FRONT 10 11 13, by decide, by decide⟩
  ⟨hcur, by decide, ((deref_decision sampleHeld sampleFirst).1 hcur).2 (by decide), hret,
   ((deref_decision samplePoppedFront sampleEnd).2.1 hret).imp (fun _ hs => hs.1)⟩

/-! ## C13, C14: the milder severities -/

/-- C13, as the code has it.  For a cursor whose control block was invalidated
by a mutator at either end, and which does not point at the location recorded
by a removal, `validate_base` throws `MODERATE` exactly when the address is
below the recorded begin or above the recorded end; at the recorded end itself
it does not. -/
theorem moderate_iff_outside_closed_range {T : Type} (h : Heap T) (c : const_iterator)
    (cb : CtrlBlk) (hb : h.blks c._ctrlBlk = some cb) (hv : cb._version = INT_MIN)
    (hr : cb._reason.isEndMutation = true)
    (hloc : cb._reason.isRemoval = true → c._ptr ≠ cb._location) :
    (c.validate_base h = .error (.invalid_iterator .MODERATE)
      ↔ (c._ptr < cb._begin ∨ c._ptr > cb._end)) ∧
    (c._ptr = cb._end → cb._begin ≤ cb._end →
      c.validate_base h
        = .error (.invalid_iterator (if cb._reason.isFront then .WARNING else .MILD))) := by
  unfold const_iterator.validate_base
  rw [hb]
  obtain ⟨ver, refs, reason, loc, b, e⟩ := cb
  dsimp only at hv hr hloc ⊢
  subst hv
  cases reason <;>
    simp only [invalidate_reason.isEndMutation, invalidate_reason.isRemoval,
      invalidate_reason.isFront, Bool.false_eq_true, forall_true_left, ne_eq] at hr hloc ⊢ <;>
    (constructor
     · by_cases ho : c._ptr < b ∨ c._ptr > e <;> simp [ho, hloc]
     · intro he hle
       have : ¬ (c._ptr < b ∨ c._ptr > e) := by omega
       simp [this, hloc])

/-- Counterexample to C13 as stated: `sampleRoomy.end()` is alive when
`pop_front` is called.  The control block is retired for `POP_FRONT` with the
bounds `[11, 13)`; the cursor, at `13`, is not at the recorded location and
its address is at the recorded end, hence not below it; `validate_base`
throws `WARNING`, not `MODERATE`. -/
theorem moderate_at_end_counterexample :
    samplePoppedFront.blks sampleEnd._ctrlBlk
      = some (sampleHeldBlk.invalidate .POP_FRONT 10 11 13) ∧
    sampleEnd._ptr ≠ 10 ∧ sampleEnd._ptr ≥ 13 ∧
    sampleEnd.validate_base samplePoppedFront = .error (.invalid_iterator .WARNING) ∧
    sampleEnd.validate_base samplePoppedFront ≠ .error (.invalid_iterator .MODERATE) := by
  decide


/-- Witness of the amended C13: `sampleRoomy.end()` after `pop_front`. -/
theorem moderate_iff_outside_closed_range_witness :
    samplePoppedFront.blks sampleEnd._ctrlBlk
      = some (sampleHeldBlk.invalidate .POP_FRONT 10 11 13) ∧
    sampleEnd.validate_base samplePoppedFront = .error (.invalid_iterator .WARNING) :=
  ⟨by decide,
   (moderate_iff_outside_closed_range samplePoppedFront sampleEnd
     (sampleHeldBlk.invalidate .POP_FRONT 10 11 13) (by decide) (by decide) (by decide)
     (by decide)).2 (by decide) (by decide)⟩

/-- C14. For a cursor whose control block was invalidated by a mutator at
either end, whose address lies within the recorded bounds (the recorded end
included) and which does not point at the location recorded by a removal,
`validate_base` throws `WARNING` when the reason is `PUSH_FRONT` or
`POP_FRONT`, and `MILD` when it is `PUSH_BACK`, `EMPLACE_BACK` or `POP_BACK`. -/
theorem in_bounds_severity {T : Type} (h : Heap T) (c : const_iterator)
    (cb : CtrlBlk) (hb : h.blks c._ctrlBlk = some cb) (hv : cb._version = INT_MIN)
    (hloc : cb._reason.isRemoval = true → c._ptr ≠ cb._location)
    (hin : cb._begin ≤ c._ptr ∧ c._ptr ≤ cb._end) :
    ((cb._reason = .PUSH_FRONT ∨ cb._reason = .POP_FRONT) →
      c.validate_base h = .error (.invalid_iterator .WARNING)) ∧
    ((cb._reason = .PUSH_BACK ∨ cb._reason = .EMPLACE_BACK ∨ cb._reason = .POP_BACK) →
      c.validate_base h = .error (.invalid_iterator .MILD)) := by
  unfold const_iterator.validate_base
  rw [hb]
  obtain ⟨ver, refs, reason, loc, b, e⟩ := cb
  dsimp only at hv hloc hin ⊢
  subst hv
  have hno : ¬ (c._ptr < b ∨ c._ptr > e) := by omega
  constructor
  · intro hr
    rcases hr with hr | hr <;> subst hr <;>
      simp only [invalidate_reason.isRemoval, Bool.false_eq_true, forall_true_left,
        ne_eq] at hloc <;> simp [hno, hloc]
  · intro hr
    rcases hr with hr | hr | hr <;> subst hr <;>
      simp only [invalidate_reason.isRemoval, Bool.false_eq_true, forall_true_left,
        ne_eq] at hloc <;> simp [hno, hloc]

/-- Witness of C14: the cursor at the second element of `sampleRoomy` after
`pop_front` (`WARNING`) and after `pop_back` (`MILD`). -/
theorem in_bounds_severity_witness :
    sampleSecond.validate_base samplePoppedFront = .error (.invalid_iterator .WARNING) ∧
    sampleSecond.validate_base samplePoppedBack = .error (.invalid_iterator .MILD) :=
  ⟨(in_bounds_severity samplePoppedFront sampleSecond
      (sampleHeldBlk.invalidate .POP_FRONT 10 11 13) (by decide) (by decide) (by decide)
      (by decide)).1 (by decide),
   (in_bounds_severity samplePoppedBack sampleSecond
      (sampleHeldBlk.invalidate .POP_BACK 12 10 12) (by decide) (by decide) (by decide)
      (by decide)).2 (by decide)⟩


/-! ## C15: a cursor taken before a mutation and dereferenced after it -/

/-- On a control block invalidated by a mutator at the back, a cursor within
the recorded bounds that is not at the location recorded by a removal makes
`validate_base` throw `MILD`. -/
theorem const_iterator.validate_base_back_mild {T : Type} (h : Heap T) (c : const_iterator)
    (cb : CtrlBlk) (reason : invalidate_reason) (l b e : Nat)
    (hb : h.blks c._ctrlBlk = some (cb.invalidate reason l b e))
    (hr : reason = .PUSH_BACK ∨ reason = .EMPLACE_BACK ∨ (reason = .POP_BACK ∧ c._ptr ≠ l))
    (hin : b ≤ c._ptr ∧ c._ptr ≤ e) :
    c.validate_base h = .error (.invalid_iterator .MILD) := by
  unfold const_iterator.validate_base
  rw [hb]
  have hno : ¬ (c._ptr < b ∨ c._ptr > e) := by omega
  rcases hr with hr | hr | ⟨hr, hl⟩
  · subst hr; simp [CtrlBlk.invalidate, hno]
  · subst hr; simp [CtrlBlk.invalidate, hno]
  · subst hr; simp [CtrlBlk.invalidate, hno, hl]

/-- A call of `begin()` on a container whose control block is alive. -/
theorem Vector.begin_spec {T : Type} (h : Heap T) (v : Vector) (cb : CtrlBlk)
    (hcb : h.blks v._ctrlBlk = some cb) :
    Vector.begin h v =
      (.ok { _ptr := v._front, _begin := v._front, _end := v._back, _ctrlBlk := v._ctrlBlk },
       { h with blks := store h.blks v._ctrlBlk (some cb.incRef) }) := by
  simp [Vector.begin, iterator.ctor, const_iterator.ctor, hcb]

/-- The buffer part of an append on a container with room at the back. -/
theorem Op.pre_back_in_place {T : Type} (op : Op T) (s : Heap T × Vector)
    (hop : op.reason = .PUSH_BACK ∨ op.reason = .EMPLACE_BACK)
    (hroom : s.2._back ≠ s.2._buffer_end) :
    ∃ val, op.pre s = (store s.1.mem s.2._back (some val),
      { s.2 with _back := s.2._back + 1, _length := s.2._length + 1 }) := by
  obtain ⟨h, v⟩ := s
  cases op with
  | push_back val newBuf newCb => exact ⟨val, by simp [Op.pre, hroom]⟩
  | push_back_rv val newBuf newCb => exact ⟨val, by simp [Op.pre, hroom]⟩
  | emplace_back val newBuf newCb => exact ⟨val, by simp [Op.pre, hroom]⟩
  | push_front val newBuf newCb => simp [Op.reason] at hop
  | push_front_rv val newBuf newCb => simp [Op.reason] at hop
  | pop_back newCb => simp [Op.reason] at hop
  | pop_front newCb => simp [Op.reason] at hop

/-- An append on a container with room at the back, while a cursor taken by
`begin()` is alive: the call returns normally in the same block, every
dereference of the cursor throws `MILD`, and the cell the cursor points at is
untouched. -/
theorem Op.append_in_place {T : Type} (op : Op T) (h : Heap T) (v : Vector) (cb : CtrlBlk)
    (hop : op.reason = .PUSH_BACK ∨ op.reason = .EMPLACE_BACK)
    (hwf : v.WF) (hnn : v._buffer ≠ 0) (hne : v._length ≠ 0)
    (hroom : v._back ≠ v._buffer_end)
    (hcb : h.blks v._ctrlBlk = some cb) (hrefs : cb._refs ≠ 0)
    (hnew : op.newCb ≠ v._ctrlBlk) :
    (op.apply (h, v)).1 = .ok () ∧
    (op.apply (h, v)).2.2._buffer = v._buffer ∧
    (op.apply (h, v)).2.2._buffer_end = v._buffer_end ∧
    DerefThrows (op.apply (h, v)).2.1
      { _ptr := v._front, _begin := v._front, _end := v._back, _ctrlBlk := v._ctrlBlk } .MILD ∧
    (op.apply (h, v)).2.1.mem v._front = h.mem v._front := by
  obtain ⟨w1, w2, w3, w4, w5⟩ := hwf
  have hth : op.throws v = false := by
    cases op <;> simp [Op.reason] at hop <;> simp [Op.throws, Op.isInsert]
  have hhas : Vector.HasCtrlBlk h v := by unfold Vector.HasCtrlBlk; rw [hcb]; rfl
  have hok := op.apply_ok (h, v) hhas hth
  obtain ⟨-, a2, -⟩ := op.apply_referenced (h, v) cb hcb hrefs hok hnew
  obtain ⟨val, hpre⟩ := op.pre_back_in_place (h, v) hop hroom
  have hhas1 : Vector.HasCtrlBlk (Heap.mk (op.pre (h, v)).1 h.blks) (op.pre (h, v)).2 := by
    unfold Vector.HasCtrlBlk; rw [op.pre_ctrlBlk]; exact hhas
  obtain ⟨-, f2, f3, f4, -, -, -⟩ := Vector.update_ctrlBlk_frame
    (Heap.mk (op.pre (h, v)).1 h.blks) (op.pre (h, v)).2 op.reason
    (op.location (op.pre (h, v)).2) (op.pre (h, v)).2._front (op.pre (h, v)).2._back
    op.newCb hhas1
  have heq := op.apply_eq (h, v)
  rw [hth] at heq
  simp only [Bool.false_eq_true, if_false] at heq
  rw [← heq] at f2 f3 f4
  rw [hpre] at a2 f2 f3 f4
  dsimp only at a2 f2 f3 f4
  have hvb := const_iterator.validate_base_back_mild (op.apply (h, v)).2.1
    { _ptr := v._front, _begin := v._front, _end := v._back, _ctrlBlk := v._ctrlBlk }
    cb op.reason _ _ _ a2
    (by rcases hop with hop | hop
        · exact Or.inl hop
        · exact Or.inr (Or.inl hop))
    (by dsimp only; omega)
  refine ⟨hok, f3, f4, ?_, ?_⟩
  · refine const_iterator.deref_throws_in_range _ _ _ hvb ?_
    unfold const_iterator.OutOfRange
    dsimp only
    omega
  · rw [f2]
    exact store_ne _ _ _ _ (by omega)

/-- C15, as the code has it.  Take `it = begin()` on a non-empty container with
room at the back (its control block alive, the reference count not at its
maximum).  After an append of any form, which then does not reallocate,
dereferencing `it` throws `invalid_iterator` with severity `MILD`, although
the cell `it` points at still holds the first element. -/
theorem deref_after_append_mild {T : Type} (h : Heap T) (v : Vector) (cb : CtrlBlk)
    (val : T) (newBuf newCb : Nat) (hwf : v.WF) (hnn : v._buffer ≠ 0) (hne : v._length ≠ 0)
    (hroom : v._back ≠ v._buffer_end) (hcb : h.blks v._ctrlBlk = some cb)
    (hrefs : cb._refs + 1 < U64) (hnew : newCb ≠ v._ctrlBlk) :
    ∃ it h1, Vector.begin h v = (.ok it, h1) ∧ it._ptr = v._front ∧
      ∀ r ∈ [Vector.push_back h1 v val newBuf newCb, Vector.push_back_rv h1 v val newBuf newCb,
              Vector.emplace_back h1 v val newBuf newCb],
        r.1 = .ok () ∧ r.2.2._buffer = v._buffer ∧ r.2.2._buffer_end = v._buffer_end ∧
        DerefThrows r.2.1 it .MILD ∧ r.2.1.mem it._ptr = h.mem v._front := by
  refine ⟨_, _, Vector.begin_spec h v cb hcb, rfl, fun r hr => ?_⟩
  have hcb1 : (Heap.mk h.mem (store h.blks v._ctrlBlk (some cb.incRef))).blks v._ctrlBlk
      = some cb.incRef := store_same _ _ _
  have hr1 : cb.incRef._refs ≠ 0 := by
    show (cb._refs + 1) % U64 ≠ 0
    rw [Nat.mod_eq_of_lt hrefs]; omega
  simp only [List.mem_cons, List.mem_singleton, List.not_mem_nil, or_false] at hr
  rcases hr with rfl | rfl | rfl
  · exact (Op.push_back val newBuf newCb).append_in_place _ v _ (Or.inl rfl) hwf hnn hne hroom
      hcb1 hr1 hnew
  · exact (Op.push_back_rv val newBuf newCb).append_in_place _ v _ (Or.inl rfl) hwf hnn hne
      hroom hcb1 hr1 hnew
  · exact (Op.emplace_back val newBuf newCb).append_in_place _ v _ (Or.inr rfl) hwf hnn hne
      hroom hcb1 hr1 hnew

/-- Counterexample to C15 as stated, on its own example: contents `[1, 2, 3]`
in a block of capacity `8`, `it = begin()`, `push_back(4)` in the same block;
dereferencing `it` throws `MILD` and returns nothing. -/
theorem deref_after_append_counterexample :
    sampleRoomy.capacity = 8 ∧ sampleRoomy.Contents sampleHeap [1, 2, 3] ∧
    (Vector.begin sampleHeap sampleRoomy).1 = .ok sampleFirst ∧
    (Vector.push_back (Vector.begin sampleHeap sampleRoomy).2 sampleRoomy 4 40 6).1 = .ok () ∧
    (Vector.push_back (Vector.begin sampleHeap sampleRoomy).2 sampleRoomy 4 40 6).2.2._buffer
      = sampleRoomy._buffer ∧
    sampleFirst.deref (Vector.push_back (Vector.begin sampleHeap sampleRoomy).2 sampleRoomy
      4 40 6).2.1 = .error (.invalid_iterator .MILD) := by
  decide

/-- Witness of the amended C15: the same example. -/
theorem deref_after_append_mild_witness :
    sampleRoomy.WF ∧ sampleRoomy._buffer ≠ 0 ∧ sampleRoomy._length ≠ 0 ∧
    sampleRoomy._back ≠ sampleRoomy._buffer_end ∧
    sampleHeap.blks sampleRoomy._ctrlBlk = some (CtrlBlk.new 1) ∧
    ∃ it h1, Vector.begin sampleHeap sampleRoomy = (.ok it, h1) ∧ it._ptr = sampleRoomy._front ∧
      ∀ r ∈ [Vector.push_back h1 sampleRoomy 4 40 6, Vector.push_back_rv h1 sampleRoomy 4 40 6,
              Vector.emplace_back h1 sampleRoomy 4 40 6],
        r.1 = .ok () ∧ r.2.2._buffer = sampleRoomy._buffer ∧
        r.2.2._buffer_end = sampleRoomy._buffer_end ∧
        DerefThrows r.2.1 it .MILD ∧ r.2.1.mem it._ptr = sampleHeap.mem sampleRoomy._front :=
  ⟨by decide, by decide, by decide, by decide, by decide,
   deref_after_append_mild sampleHeap sampleRoomy (CtrlBlk.new 1) 4 40 6
     (by decide) (by decide) (by decide) (by decide) (by decide) (by decide) (by decide)⟩


/-- On a control block invalidated by `pop_back`, a cursor that is not at the
recorded location makes `validate_base` throw a severity other than `SEVERE`. -/
theorem const_iterator.validate_base_pop_back_other {T : Type} (h : Heap T)
    (c : const_iterator) (cb : CtrlBlk) (l b e : Nat)
    (hb : h.blks c._ctrlBlk = some (cb.invalidate .POP_BACK l b e)) (hl : c._ptr ≠ l) :
    ∃ level, c.validate_base h = .error (.invalid_iterator level) ∧ level ≠ .SEVERE := by
  unfold const_iterator.validate_base
  rw [hb]
  by_cases ho : c._ptr < b ∨ c._ptr > e
  · exact ⟨.MODERATE, by simp [CtrlBlk.invalidate, hl, ho], by decide⟩
  · exact ⟨.MILD, by simp [CtrlBlk.invalidate, hl, ho], by decide⟩

/-- The dereference after `pop_back` of a cursor that is counted in the
reference count.  Let a cursor `c` of a non-empty container be
alive, with the window of the container as its captured bounds, when
`pop_back` is called, and be dereferenced after the call.  If `c` pointed at
the removed element the dereference throws `invalid_iterator` `SEVERE`;
otherwise, if the address of `c` is outside its captured bounds, which is the
case whenever it is outside the bounds recorded in the retired control block,
it throws `out_of_range`; otherwise it throws `invalid_iterator` `MILD`. -/
theorem deref_after_pop_back {T : Type} (h : Heap T) (v : Vector) (c : const_iterator)
    (cb : CtrlBlk) (newCb : Nat) (hwf : v.WF) (hne : v._length ≠ 0)
    (hc : c._ctrlBlk = v._ctrlBlk) (hb1 : c._begin = v._front) (hb2 : c._end = v._back)
    (hcb : h.blks v._ctrlBlk = some cb) (hrefs : cb._refs ≠ 0) (hnew : newCb ≠ v._ctrlBlk) :
    (Vector.pop_back h v newCb).1 = .ok () ∧
    (c._ptr = v._back - 1 → DerefThrows (Vector.pop_back h v newCb).2.1 c .SEVERE) ∧
    (c._ptr ≠ v._back - 1 → c.OutOfRange →
      c.deref (Vector.pop_back h v newCb).2.1 = .error .out_of_range ∧
      iterator.deref (Vector.pop_back h v newCb).2.1 c = .error .out_of_range) ∧
    (c._ptr ≠ v._back - 1 → ¬ c.OutOfRange →
      DerefThrows (Vector.pop_back h v newCb).2.1 c .MILD) ∧
    ((c._ptr < v._front ∨ c._ptr > v._back - 1) → c._ptr ≠ v._back - 1 → c.OutOfRange) := by
  obtain ⟨w1, w2, w3, w4, w5⟩ := hwf
  have hhas : Vector.HasCtrlBlk h v := by unfold Vector.HasCtrlBlk; rw [hcb]; rfl
  have hth : (Op.pop_back newCb : Op T).throws v = false := by
    simp [Op.throws, Op.isInsert, hne]
  have hok := (Op.pop_back newCb : Op T).apply_ok (h, v) hhas hth
  obtain ⟨-, a2, -⟩ := (Op.pop_back newCb : Op T).apply_referenced (h, v) cb hcb hrefs hok hnew
  change (Vector.pop_back h v newCb).1 = .ok () at hok
  change (Vector.pop_back h v newCb).2.1.blks v._ctrlBlk = _ at a2
  simp only [Op.reason, Op.location, Op.pre, ne_eq, hne, not_false_eq_true, if_true] at a2
  rw [← hc] at a2
  refine ⟨hok, fun hp => ?_, fun hp ho => ?_, fun hp ho => ?_, fun ho hp => ?_⟩
  · have hl := c.validate_base_removed _ _ a2 rfl (Or.inl rfl) hp
    exact c.deref_throws_severe _ hl
  · obtain ⟨level, hl1, hl2⟩ := c.validate_base_pop_back_other _ cb _ _ _ a2 hp
    have hd : c.validate_deref (Vector.pop_back h v newCb).2.1 = .error .out_of_range := by
      rw [const_iterator.validate_deref_eq, hl1]
      simp [ho, hl2]
    constructor
    · unfold const_iterator.deref; rw [hd]
    · unfold iterator.deref; rw [hd]
  · have hin : v._front ≤ c._ptr ∧ c._ptr ≤ v._back - 1 := by
      unfold const_iterator.OutOfRange at ho
      omega
    have hl := c.validate_base_back_mild _ cb _ _ _ _ a2 (Or.inr (Or.inr ⟨rfl, hp⟩)) hin
    exact c.deref_throws_in_range _ _ hl ho
  · unfold const_iterator.OutOfRange
    omega

/-- Counterexample to C16 as stated: `sampleRoomy.end()` is alive when
`pop_back` is called.  The cursor, at `13`, did not point at the removed
element, at `12`, and its address is outside the recorded bounds `[10, 12)`:
`validate_base` does throw `MODERATE`, but the dereference throws
`out_of_range`, not `invalid_iterator` `MODERATE`. -/
theorem deref_after_pop_back_counterexample :
    samplePoppedBack.blks sampleEnd._ctrlBlk
      = some (sampleHeldBlk.invalidate .POP_BACK 12 10 12) ∧
    sampleEnd._ptr ≠ 12 ∧ sampleEnd._ptr ≥ 12 ∧
    sampleEnd.validate_base samplePoppedBack = .error (.invalid_iterator .MODERATE) ∧
    sampleEnd.deref samplePoppedBack = .error .out_of_range ∧
    sampleEnd.deref samplePoppedBack ≠ .error (.invalid_iterator .MODERATE) := by
  decide

/-- Instances of `deref_after_pop_back`: the cursors at the last element, at the end
and at the second element of `sampleRoomy`. -/
theorem deref_after_pop_back_witness :
    sampleRoomy.WF ∧ sampleRoomy._length ≠ 0 ∧
    sampleHeld.blks sampleRoomy._ctrlBlk = some sampleHeldBlk ∧ sampleHeldBlk._refs ≠ 0 ∧
    DerefThrows (Vector.pop_back sampleHeld sampleRoomy 6).2.1 sampleLast .SEVERE ∧
    sampleEnd.deref (Vector.pop_back sampleHeld sampleRoomy 6).2.1 = .error .out_of_range ∧
    DerefThrows (Vector.pop_back sampleHeld sampleRoomy 6).2.1 sampleSecond .MILD :=
  ⟨by decide, by decide, by decide, by decide,
   (deref_after_pop_back sampleHeld sampleRoomy sampleLast sampleHeldBlk 6
     (by decide) (by decide) (by decide) (by decide) (by decide) (by decide) (by decide)
     (by decide)).2.1 (by decide),
   ((deref_after_pop_back sampleHeld sampleRoomy sampleEnd sampleHeldBlk 6
     (by decide) (by decide) (by decide) (by decide) (by decide) (by decide) (by decide)
     (by decide)).2.2.1 (by decide) (by decide)).1,
   (deref_after_pop_back sampleHeld sampleRoomy sampleSecond sampleHeldBlk 6
     (by decide) (by decide) (by decide) (by decide) (by decide) (by decide) (by decide)
     (by decide)).2.2.2.1 (by decide) (by decide)⟩


/-! ## C17, C18: the copy and the sized constructor -/

/-- With disjoint ranges, the copy loop puts source cell `k` into destination
cell `k`. -/
theorem copy_cells_dst {T : Type} (m : Nat → Option T) (dst src n k : Nat)
    (hdis : dst + n ≤ src ∨ src + n ≤ dst) (hk : k < n) :
    copy_cells m dst src n (dst + k) = m (src + k) := by
  induction n with
  | zero => omega
  | succ n ih =>
    simp only [copy_cells]
    by_cases hkn : k = n
    · subst hkn
      rw [store_same]
      exact copy_cells_outside m dst src k (src + k) (by omega)
    · rw [store_ne _ _ _ _ (by omega)]
      exact ih (by omega) (by omega)

/-- The filling loop of `init` puts the default value in each of the `n` cells. -/
theorem fill_cells_at {T : Type} (m : Nat → Option T) (p : Nat) (dflt : T) (n k : Nat)
    (hk : k < n) : fill_cells m p dflt n (p + k) = some dflt := by
  induction n with
  | zero => omega
  | succ n ih =>
    simp only [fill_cells]
    by_cases hkn : k = n
    · subst hkn; rw [store_same]
    · rw [store_ne _ _ _ _ (by omega)]
      exact ih (by omega)

namespace Vector

variable {T : Type}

/-- C17. For every source container `other` (satisfying the layout invariant,
the block handed out being clear of its block), `copy`, which is the whole of
the copy constructor and the second step of the copy assignment, produces a
container in the block the allocator handed out, which is clear of the block
of the source, with the same capacity, the same offsets of `_front` and
`_back` from the start of the block, the same length and, at every index, what
the source has at that index: cell `k` of the new window holds what cell `k`
of the window of the source holds, and no cell outside the new window changes.
The container holds the control block newly built by `CtrlBlk(1)`: version `1`,
not marked invalid, no reference, reason `NONE`; no other control block
changes.  The source reads as before. -/
theorem copy_spec (h : Heap T) (v other : Vector) (newBuf newCb : Nat) (hwf : other.WF)
    (hbuf : other.FreshBlock newBuf other.capacity) :
    (copy h v other newBuf newCb).2.capacity = other.capacity ∧
    (copy h v other newBuf newCb).2._front - (copy h v other newBuf newCb).2._buffer
      = other._front - other._buffer ∧
    (copy h v other newBuf newCb).2._back - (copy h v other newBuf newCb).2._buffer
      = other._back - other._buffer ∧
    (copy h v other newBuf newCb).2.size = other.size ∧
    (∀ k, (copy h v other newBuf newCb).2.read (copy h v other newBuf newCb).1 k
      = other.read h k) ∧
    (∀ k, other.read (copy h v other newBuf newCb).1 k = other.read h k) ∧
    (copy h v other newBuf newCb).1.blks (copy h v other newBuf newCb).2._ctrlBlk
      = some { _version := 1, _refs := 0, _reason := .NONE, _location := 0, _begin := 0,
               _end := 0 } ∧
    (1 : Nat) ≠ INT_MIN ∧
    ctor_copy h other newBuf newCb = copy h raw other newBuf newCb ∧
    (copy h v other newBuf newCb).2._buffer = newBuf ∧
    (copy h v other newBuf newCb).2._buffer_end = newBuf + other.capacity ∧
    (copy h v other newBuf newCb).2._front = newBuf + (other._front - other._buffer) ∧
    (copy h v other newBuf newCb).2._back = newBuf + (other._back - other._buffer) ∧
    other.FreshBlock (copy h v other newBuf newCb).2._buffer
      (copy h v other newBuf newCb).2.capacity ∧
    (∀ k, k < other._length →
      (copy h v other newBuf newCb).1.mem (newBuf + (other._front - other._buffer) + k)
        = h.mem (other._front + k)) ∧
    (∀ a, (a < newBuf + (other._front - other._buffer) ∨
        newBuf + (other._front - other._buffer) + other._length ≤ a) →
      (copy h v other newBuf newCb).1.mem a = h.mem a) ∧
    (copy h v other newBuf newCb).2._ctrlBlk = newCb ∧
    (∀ p, p ≠ newCb → (copy h v other newBuf newCb).1.blks p = h.blks p) := by
  obtain ⟨w1, w2, w3, w4, w5⟩ := hwf
  unfold FreshBlock capacity at hbuf
  refine ⟨?_, ?_, ?_, rfl, fun k => ?_, fun k => ?_, ?_, by decide, rfl, rfl, ?_, ?_, ?_, ?_,
    fun k hk => ?_, fun a ha => ?_, rfl, fun p hp => ?_⟩
  · simp only [copy, capacity]; omega
  · simp only [copy]; omega
  · simp only [copy]; omega
  · by_cases hk : k < other._length
    · rw [read_eq _ _ _ (by simpa [copy] using hk), read_eq _ _ _ hk]
      simp only [copy]
      rw [copy_cells_dst _ _ _ _ _ (by omega) hk]
    · have hk2 : other._length ≤ k := by omega
      simp [read, index, copy, hk2]
  · by_cases hk : k < other._length
    · rw [read_eq _ _ _ hk, read_eq _ _ _ hk]
      simp only [copy]
      rw [copy_cells_outside _ _ _ _ _ (by omega)]
    · have hk2 : other._length ≤ k := by omega
      simp [read, index, hk2]
  · simp only [copy, store_same, CtrlBlk.new, U64]
  · simp only [copy, capacity]; omega
  · simp only [copy]; omega
  · simp only [copy]; omega
  · simp only [copy, FreshBlock, capacity]; omega
  · simp only [copy]
    have e : newBuf + (other._front - other._buffer) = other._front - other._buffer + newBuf := by
      omega
    rw [e]
    exact copy_cells_dst _ _ _ _ _ (by omega) hk
  · simp only [copy]
    exact copy_cells_outside _ _ _ _ _ (by omega)
  · simp only [copy]
    exact store_ne _ _ _ _ hp

/-- Witness of C17: a copy of `sampleRoomy` into a block at `20`. -/
theorem copy_spec_witness :
    sampleRoomy.WF ∧ sampleRoomy.FreshBlock 20 sampleRoomy.capacity ∧
    (copy sampleHeap raw sampleRoomy 20 5).2.capacity = sampleRoomy.capacity ∧
    (∀ k, (copy sampleHeap raw sampleRoomy 20 5).2.read (copy sampleHeap raw sampleRoomy 20 5).1 k
      = sampleRoomy.read sampleHeap k) ∧
    (copy sampleHeap raw sampleRoomy 20 5).2._buffer = 20 ∧
    (copy sampleHeap raw sampleRoomy 20 5).1.mem 22 = some 1 ∧
    sampleHeap.mem 22 = none :=
  have w := copy_spec sampleHeap raw sampleRoomy 20 5 (by decide) (by decide)
  ⟨by decide, by decide, w.1, w.2.2.2.2.1, w.2.2.2.2.2.2.2.2.2.1, by decide, by decide⟩

/-- C18, as the code has it.  For every `n` other than `0`, the sized
constructor yields a container whose capacity is exactly `n`, whose length is
`n`, whose window is the entire block, and whose `n` elements are the default
value; for `n = 0` it does what `Vector(void)` does: capacity `initial_size`,
that is `8`, and an empty window at the start of the block. -/
theorem ctor_n_spec (h : Heap T) (n : Nat) (dflt : T) (newBuf newCb : Nat) :
    (n ≠ 0 →
      (ctor_n h n dflt newBuf newCb).2.capacity = n ∧
      (ctor_n h n dflt newBuf newCb).2.size = n ∧
      (ctor_n h n dflt newBuf newCb).2._front = (ctor_n h n dflt newBuf newCb).2._buffer ∧
      (ctor_n h n dflt newBuf newCb).2._back = (ctor_n h n dflt newBuf newCb).2._buffer_end ∧
      (∀ k, k < n → (ctor_n h n dflt newBuf newCb).2.read (ctor_n h n dflt newBuf newCb).1 k
        = .ok (some dflt))) ∧
    (n = 0 →
      ctor_n h n dflt newBuf newCb = ctor h dflt newBuf newCb ∧
      (ctor_n h n dflt newBuf newCb).2.capacity = 8 ∧
      (ctor_n h n dflt newBuf newCb).2.size = 0 ∧
      (ctor_n h n dflt newBuf newCb).2._front = (ctor_n h n dflt newBuf newCb).2._buffer ∧
      (ctor_n h n dflt newBuf newCb).2._back = (ctor_n h n dflt newBuf newCb).2._buffer) := by
  constructor
  · intro hn
    have hv : (ctor_n h n dflt newBuf newCb).2 =
        { _buffer := newBuf, _buffer_end := newBuf + n, _front := newBuf, _back := newBuf + n,
          _length := n, _ctrlBlk := newCb } := by
      simp [ctor_n, init, alloc, raw, hn]
    have hm : (ctor_n h n dflt newBuf newCb).1.mem = fill_cells h.mem newBuf dflt n := by
      simp [ctor_n, init, alloc, raw, hn]
    refine ⟨by rw [hv]; simp [capacity], by rw [hv]; rfl, by rw [hv], by rw [hv],
      fun k hk => ?_⟩
    rw [read_eq _ _ _ (by rw [hv]; exact hk), hm, hv]
    dsimp only
    rw [fill_cells_at _ _ _ _ _ hk]
  · intro hn
    subst hn
    refine ⟨rfl, ?_, ?_, ?_, ?_⟩ <;> simp [ctor_n, init, alloc, raw, capacity, size, initial_size]

/-- Counterexample to C18 as stated: `n = 0`.  The block has `8` cells, not
`0`, and the window is empty, not the entire block. -/
theorem ctor_n_zero_counterexample :
    (ctor_n sampleHeap 0 (0 : Nat) 30 5).2.capacity = 8 ∧
    (ctor_n sampleHeap 0 (0 : Nat) 30 5).2.capacity ≠ 0 ∧
    (ctor_n sampleHeap 0 (0 : Nat) 30 5).2._back ≠ (ctor_n sampleHeap 0 (0 : Nat) 30 5).2._buffer_end := by
  decide

/-- Witness of the amended C18: `n = 3`. -/
theorem ctor_n_spec_witness :
    (3 : Nat) ≠ 0 ∧ (ctor_n sampleHeap 3 (0 : Nat) 30 5).2.capacity = 3 ∧
    (ctor_n sampleHeap 3 (0 : Nat) 30 5).2.size = 3 :=
  have w := (ctor_n_spec sampleHeap 3 (0 : Nat) 30 5).1 (by decide)
  ⟨by decide, w.1, w.2.1⟩

end Vector


/-! ## C19, C20: where the room goes when a block is outgrown -/

namespace Op

variable {T : Type}

/-- A mutator that returns normally leaves the container with the members its
buffer part has computed. -/
theorem apply_members (op : Op T) (s : Heap T × Vector) (hcb : s.2.HasCtrlBlk s.1)
    (hth : op.throws s.2 = false) :
    (op.apply s).1 = .ok () ∧
    (op.apply s).2.2._buffer = (op.pre s).2._buffer ∧
    (op.apply s).2.2._buffer_end = (op.pre s).2._buffer_end ∧
    (op.apply s).2.2._front = (op.pre s).2._front ∧
    (op.apply s).2.2._back = (op.pre s).2._back ∧
    (op.apply s).2.2._length = (op.pre s).2._length := by
  have hhas1 : Vector.HasCtrlBlk (Heap.mk (op.pre s).1 s.1.blks) (op.pre s).2 := by
    unfold Vector.HasCtrlBlk; rw [op.pre_ctrlBlk]; exact hcb
  obtain ⟨f1, -, f3, f4, f5, f6, f7⟩ := Vector.update_ctrlBlk_frame
    (Heap.mk (op.pre s).1 s.1.blks) (op.pre s).2 op.reason
    (op.location (op.pre s).2) (op.pre s).2._front (op.pre s).2._back op.newCb hhas1
  have heq := op.apply_eq s
  rw [hth] at heq
  simp only [Bool.false_eq_true, if_false] at heq
  rw [← heq] at f1 f3 f4 f5 f6 f7
  exact ⟨f1, f3, f4, f5, f6, f7⟩

/-- Layout after the buffer part of an append, on a container that satisfies
the layout invariant. -/
theorem pre_append_layout (op : Op T) (s : Heap T × Vector)
    (hop : op.reason = .PUSH_BACK ∨ op.reason = .EMPLACE_BACK) (hwf : s.2.WF) :
    (s.2._back = s.2._buffer_end →
      (op.pre s).2.capacity = 2 * s.2.capacity ∧
      op.newBuf? = some (op.pre s).2._buffer ∧
      (op.pre s).2._front - (op.pre s).2._buffer = s.2._front - s.2._buffer) ∧
    (s.2._back ≠ s.2._buffer_end →
      (op.pre s).2._buffer = s.2._buffer ∧ (op.pre s).2._buffer_end = s.2._buffer_end ∧
      (op.pre s).2._front = s.2._front) := by
  obtain ⟨h, v⟩ := s
  obtain ⟨w1, w2, w3, w4, w5⟩ := hwf
  dsimp only at w1 w2 w3 w4 w5 ⊢
  cases op with
  | push_back val newBuf newCb =>
    by_cases hg : v._back = v._buffer_end <;> by_cases hne : newBuf = v._buffer <;>
      simp [pre, newBuf?, Vector.capacity, hg, hne] <;> omega
  | push_back_rv val newBuf newCb =>
    by_cases hg : v._back = v._buffer_end <;> by_cases hne : newBuf = v._buffer <;>
      simp [pre, newBuf?, Vector.capacity, hg, hne] <;> omega
  | emplace_back val newBuf newCb =>
    by_cases hg : v._back = v._buffer_end <;> by_cases hne : newBuf = v._buffer <;>
      simp [pre, newBuf?, Vector.capacity, hg, hne] <;> omega
  | push_front val newBuf newCb => simp [Op.reason] at hop
  | push_front_rv val newBuf newCb => simp [Op.reason] at hop
  | pop_back newCb => simp [Op.reason] at hop
  | pop_front newCb => simp [Op.reason] at hop

end Op


namespace Vector

variable {T : Type}

/-- Growth at the back on a container that satisfies the layout invariant,
whose block then has at least one cell: an append that finds `_back` at the
end of the block moves to a block of twice the capacity, at the address the
allocator hands out, with `_front` at the same offset; otherwise it stays in
the same block.  The spare capacity in front of the window is unchanged. -/
theorem append_growth (h : Heap T) (v : Vector) (val : T) (newBuf newCb : Nat)
    (hwf : v.WF) (hcb : v.HasCtrlBlk h) :
    ∀ r ∈ [push_back h v val newBuf newCb, push_back_rv h v val newBuf newCb,
            emplace_back h v val newBuf newCb],
      r.1 = .ok () ∧
      (v._back = v._buffer_end →
        r.2.2.capacity = 2 * v.capacity ∧ r.2.2._buffer = newBuf) ∧
      (v._back ≠ v._buffer_end →
        r.2.2._buffer = v._buffer ∧ r.2.2.capacity = v.capacity) ∧
      r.2.2._front - r.2.2._buffer = v._front - v._buffer := by
  have key : ∀ op : Op T, (op.reason = .PUSH_BACK ∨ op.reason = .EMPLACE_BACK) →
      op.newBuf? = some newBuf →
      (op.apply (h, v)).1 = .ok () ∧
      (v._back = v._buffer_end →
        (op.apply (h, v)).2.2.capacity = 2 * v.capacity ∧
        (op.apply (h, v)).2.2._buffer = newBuf) ∧
      (v._back ≠ v._buffer_end →
        (op.apply (h, v)).2.2._buffer = v._buffer ∧
        (op.apply (h, v)).2.2.capacity = v.capacity) ∧
      (op.apply (h, v)).2.2._front - (op.apply (h, v)).2.2._buffer
        = v._front - v._buffer := by
    intro op hop hnb
    have hth : op.throws v = false := by
      cases op <;> simp [Op.reason] at hop <;> simp [Op.throws, Op.isInsert]
    obtain ⟨m1, m2, m3, m4, m5, m6⟩ := op.apply_members (h, v) hcb hth
    obtain ⟨l1, l2⟩ := op.pre_append_layout (h, v) hop hwf
    dsimp only at l1 l2
    unfold capacity at l1 ⊢
    refine ⟨m1, fun hg => ?_, fun hg => ?_, ?_⟩
    · obtain ⟨g1, g2, g3⟩ := l1 hg
      rw [hnb] at g2
      have g2 := Option.some.inj g2
      rw [m2, m3]
      exact ⟨g1, g2.symm⟩
    · obtain ⟨g1, g2, g3⟩ := l2 hg
      rw [m2, m3, g1, g2]
      exact ⟨rfl, rfl⟩
    · rw [m2, m4]
      by_cases hg : v._back = v._buffer_end
      · exact (l1 hg).2.2
      · obtain ⟨g1, g2, g3⟩ := l2 hg
        rw [g1, g3]
  intro r hr
  simp only [List.mem_cons, List.mem_singleton, List.not_mem_nil, or_false] at hr
  rcases hr with rfl | rfl | rfl
  · exact key (.push_back val newBuf newCb) (Or.inl rfl) rfl
  · exact key (.push_back_rv val newBuf newCb) (Or.inl rfl) rfl
  · exact key (.emplace_back val newBuf newCb) (Or.inr rfl) rfl

/-- C19 on a block of no cell, the container the initializer-list constructor
builds from an empty list: `_back` is at the end of the block, and the append
asks for a block of `2 * 0 = 0` cells, not of `max (2 * 0) 1 = 1`; it returns
normally after constructing the value in the cell at the end of that block,
outside of it, and leaves `_back` beyond `_buffer_end`. -/
theorem append_on_no_cell :
    sampleNoCell.2.capacity = 0 ∧ sampleNoCell.2.size = 0 ∧
    sampleNoCell.2._back = sampleNoCell.2._buffer_end ∧
    sampleNoCell.2.HasCtrlBlk sampleNoCell.1 ∧
    ∀ r ∈ [push_back sampleNoCell.1 sampleNoCell.2 7 40 6,
            push_back_rv sampleNoCell.1 sampleNoCell.2 7 40 6,
            emplace_back sampleNoCell.1 sampleNoCell.2 7 40 6],
      r.1 = .ok () ∧ r.2.2.capacity = 0 ∧ r.2.2.capacity ≠ max (2 * 0) 1 ∧
      r.2.2._buffer = 40 ∧ r.2.2._buffer_end < r.2.2._back ∧
      r.2.1.mem r.2.2._buffer_end = some 7 := by
  decide

end Vector


/-! ## C21: the number of reallocations of a run of appends -/

/-- One append on a container nobody holds a cursor of. -/
theorem Op.append_step {T : Type} (op : Op T) (s : Heap T × Vector) (cb : CtrlBlk)
    (hop : op.reason = .PUSH_BACK ∨ op.reason = .EMPLACE_BACK) (hwf : s.2.WF)
    (hcb : s.1.blks s.2._ctrlBlk = some cb) (hr : cb._refs = 0) :
    (op.apply s).2.2.WF ∧
    (∃ cb1, (op.apply s).2.1.blks (op.apply s).2.2._ctrlBlk = some cb1 ∧ cb1._refs = 0) ∧
    (op.apply s).2.2._length = s.2._length + 1 ∧
    (op.apply s).2.2._front - (op.apply s).2.2._buffer = s.2._front - s.2._buffer ∧
    (op.grows s.2 = true ↔ s.2._back = s.2._buffer_end) ∧
    (s.2._back = s.2._buffer_end → (op.apply s).2.2.capacity = 2 * s.2.capacity) ∧
    (s.2._back ≠ s.2._buffer_end → (op.apply s).2.2.capacity = s.2.capacity) := by
  have hth : op.throws s.2 = false := by
    cases op <;> simp [Op.reason] at hop <;> simp [Op.throws, Op.isInsert]
  have hins : op.isInsert = true := by
    cases op <;> simp [Op.reason] at hop <;> rfl
  have hgr : op.grows s.2 = true ↔ s.2._back = s.2._buffer_end := by
    cases op <;> simp [Op.reason] at hop <;> simp [Op.grows]
  obtain ⟨p1, p2, p3, -⟩ := op.pre_layout s hwf
  obtain ⟨l1, l2⟩ := op.pre_append_layout s hop hwf
  have heq := op.apply_eq s
  rw [hth] at heq
  simp only [Bool.false_eq_true, if_false] at heq
  have hcb1 : (Heap.mk (op.pre s).1 s.1.blks).blks (op.pre s).2._ctrlBlk = some cb := by
    rw [p2]; exact hcb
  rw [Vector.update_ctrlBlk_unreferenced _ _ _ _ _ _ _ cb hcb1 hr] at heq
  rw [heq]
  dsimp only
  refine ⟨p1, ⟨⟨(cb._version + 1) % U64, cb._refs, .NONE, 0, 0, 0⟩, store_same _ _ _, hr⟩,
    p3 hins, ?_, hgr, fun hg => (l1 hg).1, fun hg => ?_⟩
  · by_cases hg : s.2._back = s.2._buffer_end
    · exact (l1 hg).2.2
    · obtain ⟨g1, -, g3⟩ := l2 hg
      rw [g1, g3]
  · obtain ⟨g1, g2, -⟩ := l2 hg
    unfold Vector.capacity
    rw [g1, g2]

/-- A run of appends on a container nobody holds a cursor of, whose window
starts at the start of a block of `8 * 2 ^ g` cells that `g` reallocations were
just enough to reach. -/
theorem appends_run {T : Type} (ops : List (Op T)) (s : Heap T × Vector) (cb : CtrlBlk) (g : Nat)
    (hops : ∀ op ∈ ops, op.reason = .PUSH_BACK ∨ op.reason = .EMPLACE_BACK)
    (hwf : s.2.WF) (hcb : s.1.blks s.2._ctrlBlk = some cb) (hr : cb._refs = 0)
    (hfront : s.2._front = s.2._buffer) (hcap : s.2.capacity = 8 * 2 ^ g)
    (hmin : ∀ j, j < g → 8 * 2 ^ j < s.2._length) :
    (runFrom s ops).2.capacity = 8 * 2 ^ (g + countGrows s ops) ∧
    (runFrom s ops).2._length = s.2._length + ops.length ∧
    (runFrom s ops).2._length ≤ (runFrom s ops).2.capacity ∧
    (∀ j, j < g + countGrows s ops → 8 * 2 ^ j < s.2._length + ops.length) := by
  induction ops generalizing s cb g with
  | nil =>
    obtain ⟨w1, w2, w3, w4, w5⟩ := hwf
    refine ⟨by simpa [countGrows] using hcap, rfl, ?_, by simpa [countGrows] using hmin⟩
    rw [runFrom_nil]
    unfold Vector.capacity
    omega
  | cons op ops ih =>
    have hop := hops op (List.mem_cons_self _ _)
    obtain ⟨a1, ⟨cb1, a2, a3⟩, a4, a5, a6, a7, a8⟩ := op.append_step s cb hop hwf hcb hr
    have hw := hwf
    obtain ⟨w1, w2, w3, w4, w5⟩ := hw
    have a1' := a1
    obtain ⟨v1, v2, v3, v4, v5⟩ := a1'
    have hfront1 : (op.apply s).2.2._front = (op.apply s).2.2._buffer := by omega
    rw [runFrom_cons]
    simp only [countGrows, List.length_cons]
    by_cases hg : s.2._back = s.2._buffer_end
    · have hgr : op.grows s.2 = true := a6.mpr hg
      have hcap1 : (op.apply s).2.2.capacity = 8 * 2 ^ (g + 1) := by
        rw [a7 hg, hcap, pow_succ]; ring
      have hlen : s.2._length = 8 * 2 ^ g := by
        unfold Vector.capacity at hcap; omega
      have hmin1 : ∀ j, j < g + 1 → 8 * 2 ^ j < (op.apply s).2.2._length := by
        intro j hj
        have : 2 ^ j ≤ 2 ^ g := Nat.pow_le_pow_right (by decide) (by omega)
        rw [a4]; omega
      obtain ⟨i1, i2, i3, i4⟩ := ih (op.apply s).2 cb1 (g + 1)
        (fun o ho => hops o (List.mem_cons_of_mem _ ho)) a1 a2 a3 hfront1 hcap1 hmin1
      rw [hgr]
      simp only [if_true]
      have e1 : g + (1 + countGrows (op.apply s).2 ops)
          = g + 1 + countGrows (op.apply s).2 ops := by omega
      rw [e1]
      refine ⟨i1, by rw [i2, a4]; omega, i3, fun j hj => ?_⟩
      have := i4 j hj
      rw [a4] at this; omega
    · have hgr : op.grows s.2 = false := by
        cases hh : op.grows s.2
        · rfl
        · exact absurd (a6.mp hh) hg
      have hcap1 : (op.apply s).2.2.capacity = 8 * 2 ^ g := by rw [a8 hg, hcap]
      have hmin1 : ∀ j, j < g → 8 * 2 ^ j < (op.apply s).2.2._length := by
        intro j hj
        have := hmin j hj
        rw [a4]; omega
      obtain ⟨i1, i2, i3, i4⟩ := ih (op.apply s).2 cb1 g
        (fun o ho => hops o (List.mem_cons_of_mem _ ho)) a1 a2 a3 hfront1 hcap1 hmin1
      rw [hgr]
      simp only [Bool.false_eq_true, if_false, Nat.zero_add]
      refine ⟨i1, by rw [i2, a4]; omega, i3, fun j hj => ?_⟩
      have := i4 j hj
      rw [a4] at this; omega

/-- C21. Let `N` appends, of any form, be made on a freshly constructed empty
container, and let `k` be the number of them that reallocate.  Then `k` is the
least natural number with `8 * 2 ^ k >= N`, the final capacity is `8 * 2 ^ k`,
the final length is `N`, and `k` is at most the binary logarithm of `N`. -/
theorem appends_reallocate_log {T : Type} (h : Heap T) (dflt : T) (newBuf newCb : Nat)
    (ops : List (Op T))
    (hops : ∀ op ∈ ops, op.reason = .PUSH_BACK ∨ op.reason = .EMPLACE_BACK) :
    ops.length ≤ 8 * 2 ^ countGrows (Vector.ctor h dflt newBuf newCb) ops ∧
    (∀ j, j < countGrows (Vector.ctor h dflt newBuf newCb) ops → 8 * 2 ^ j < ops.length) ∧
    (runFrom (Vector.ctor h dflt newBuf newCb) ops).2.capacity
      = 8 * 2 ^ countGrows (Vector.ctor h dflt newBuf newCb) ops ∧
    (runFrom (Vector.ctor h dflt newBuf newCb) ops).2.size = ops.length ∧
    countGrows (Vector.ctor h dflt newBuf newCb) ops ≤ Nat.log 2 ops.length := by
  obtain ⟨c1, c2, -⟩ := Vector.ctor_spec h dflt newBuf newCb
  have hwf0 : (Vector.ctor h dflt newBuf newCb).2.WF := by
    rw [c1]; simp [Vector.WF, initial_size]
  have hcb0 : (Vector.ctor h dflt newBuf newCb).1.blks (Vector.ctor h dflt newBuf newCb).2._ctrlBlk
      = some (CtrlBlk.new 1) := by rw [c1]; exact c2
  obtain ⟨r1, r2, r3, r4⟩ := appends_run ops (Vector.ctor h dflt newBuf newCb) (CtrlBlk.new 1) 0
    hops hwf0 hcb0 rfl (by rw [c1]) (by rw [c1]; simp [Vector.capacity, initial_size])
    (fun j hj => absurd hj (Nat.not_lt_zero _))
  have hlen0 : (Vector.ctor h dflt newBuf newCb).2._length = 0 := by rw [c1]
  rw [hlen0] at r2 r4
  simp only [Nat.zero_add] at r1 r2 r4
  refine ⟨by rw [← r1, ← r2]; exact r3, r4, r1, r2, ?_⟩
  rcases Nat.eq_zero_or_pos (countGrows (Vector.ctor h dflt newBuf newCb) ops) with hk | hk
  · rw [hk]; exact Nat.zero_le _
  · have h8 := r4 (countGrows (Vector.ctor h dflt newBuf newCb) ops - 1) (by omega)
    apply Nat.le_log_of_pow_le (by decide)
    have e : 2 ^ countGrows (Vector.ctor h dflt newBuf newCb) ops
        = 2 * 2 ^ (countGrows (Vector.ctor h dflt newBuf newCb) ops - 1) := by
      conv_lhs => rw [show countGrows (Vector.ctor h dflt newBuf newCb) ops
        = (countGrows (Vector.ctor h dflt newBuf newCb) ops - 1) + 1 by omega]
      rw [pow_succ]; ring
    omega

/-- Witness of C21: nine appends reallocate once and end in sixteen cells. -/
theorem appends_reallocate_log_witness :
    (∀ op ∈ sampleNine, op.reason = .PUSH_BACK ∨ op.reason = .EMPLACE_BACK) ∧
    countGrows (Vector.ctor sampleHeap 0 30 5) sampleNine = 1 ∧
    (runFrom (Vector.ctor sampleHeap 0 30 5) sampleNine).2.capacity
      = 8 * 2 ^ countGrows (Vector.ctor sampleHeap 0 30 5) sampleNine :=
  ⟨by decide, by decide,
   (appends_reallocate_log sampleHeap 0 30 5 sampleNine (by decide)).2.2.1⟩


/-! ## C22: what a removal on an empty container throws -/

/-- C22, as the code has it.  On a container of length `0`, `pop_back` and
`pop_front` throw `std::out_of_range`, the very exception class `operator[]`
throws for an index `k >= length`: the two failures are of one kind. -/
theorem pop_empty_throws_out_of_range {T : Type} (h : Heap T) (v : Vector) (newCb k : Nat)
    (hlen : v.size = 0) (hk : k ≥ v.size) :
    (Vector.pop_back h v newCb).1 = .error .out_of_range ∧
    (Vector.pop_front h v newCb).1 = .error .out_of_range ∧
    v.index k = .error .out_of_range ∧
    (Vector.pop_back h v newCb).1 = (v.index k).map (fun _ => ()) ∧
    (Vector.pop_front h v newCb).1 = (v.index k).map (fun _ => ()) := by
  unfold Vector.size at hlen hk
  have e1 : (Vector.pop_back h v newCb).1 = .error .out_of_range := by
    simp [Vector.pop_back, hlen]
  have e2 : (Vector.pop_front h v newCb).1 = .error .out_of_range := by
    simp [Vector.pop_front, hlen]
  have e3 : v.index k = .error .out_of_range := by
    simp [Vector.index, hk]
  refine ⟨e1, e2, e3, ?_, ?_⟩
  · rw [e1, e3]; rfl
  · rw [e2, e3]; rfl

/-- Counterexample to C22 as stated: on the freshly constructed empty container,
the exception of `pop_back` and of `pop_front` is the exception of the indexed
access at `k = 0`, not one of another kind. -/
theorem pop_empty_kind_counterexample :
    sampleEmpty.2.size = 0 ∧
    (Vector.pop_back sampleEmpty.1 sampleEmpty.2 6).1 = .error .out_of_range ∧
    (Vector.pop_front sampleEmpty.1 sampleEmpty.2 6).1 = .error .out_of_range ∧
    sampleEmpty.2.index 0 = .error .out_of_range ∧
    ¬ ((Vector.pop_back sampleEmpty.1 sampleEmpty.2 6).1
        ≠ (sampleEmpty.2.index 0).map (fun _ => ())) := by
  decide

/-- Witness of the amended C22: the freshly constructed empty container. -/
theorem pop_empty_throws_out_of_range_witness :
    sampleEmpty.2.size = 0 ∧ (0 : Nat) ≥ sampleEmpty.2.size ∧
    (Vector.pop_back sampleEmpty.1 sampleEmpty.2 6).1 = .error .out_of_range :=
  ⟨by decide, by decide,
   (pop_empty_throws_out_of_range sampleEmpty.1 sampleEmpty.2 6 0 (by decide) (by decide)).1⟩


/-! ## C23: the move assignment -/

/-- C23, for the move assignment with its call of `update_ctrlBlk` completed by
any three pointers.  Let a cursor `c` be attached to the control block of a
container `A`, alive together with `n` other cursors of it, when a container
`B` is move-assigned onto `A`.  Then the call returns normally, the control
block `A` held is invalidated with the reason `MOVE_ASSIGN`, and, whatever
calls follow while `c` stays alive, every navigation of `c` throws
`invalid_iterator` with severity `MODERATE`. -/
theorem move_assigned_navigation_moderate {T : Type} (h : Heap T) (a b : Vector)
    (c : const_iterator) (cb : CtrlBlk) (n location begin_ end_ newCb : Nat)
    (calls : List (Call T)) (hc : c._ctrlBlk = a._ctrlBlk)
    (hcb : h.blks a._ctrlBlk = some cb) (hrefs : cb._refs = n + 1) (hn : n + 1 < U64)
    (hnew : newCb ≠ a._ctrlBlk) (hlater : admissible a._ctrlBlk n calls = true) :
    (Vector.assign_move h a b location begin_ end_ newCb).1 = .ok () ∧
    (Vector.assign_move h a b location begin_ end_ newCb).2.1.blks a._ctrlBlk
      = some (cb.invalidate .MOVE_ASSIGN location begin_ end_) ∧
    NavThrows (runCalls (Vector.assign_move h a b location begin_ end_ newCb).2.1 calls)
      c .MODERATE := by
  have hv : (⟨a._buffer, a._buffer_end, a._front, a._back, a._length, a._ctrlBlk⟩ : Vector)
      = a := rfl
  have heq : Vector.update_ctrlBlk h a .MOVE_ASSIGN location begin_ end_ newCb = _ :=
    Vector.update_ctrlBlk_referenced h a .MOVE_ASSIGN location begin_ end_ newCb cb hcb
      (by omega)
  have e1 : (Vector.assign_move h a b location begin_ end_ newCb).1 = .ok () := by
    simp only [Vector.assign_move, hv, heq]
  have e2 : (Vector.assign_move h a b location begin_ end_ newCb).2.1.blks a._ctrlBlk
      = some (cb.invalidate .MOVE_ASSIGN location begin_ end_) := by
    simp only [Vector.assign_move, hv, heq]
    rw [store_ne _ _ _ _ (fun e => hnew e.symm), store_same]
  refine ⟨e1, e2, ?_⟩
  rw [CtrlBlk.invalidate_refs cb _ _ _ _ (n + 1) hrefs] at e2
  obtain ⟨n1, hfin⟩ := runCalls_frozen calls _ a._ctrlBlk n _ e2 hn hlater
  rw [← hc] at hfin
  exact c.nav_throws _ _ (c.validate_base_assigned _ _ hfin rfl (Or.inr rfl))

/-- Witness of C23: `sampleFull` is move-assigned onto `sampleRoomy` while
`sampleRoomy.begin()` is alive. -/
theorem move_assigned_navigation_moderate_witness :
    sampleFirst._ctrlBlk = sampleRoomy._ctrlBlk ∧
    sampleHeld.blks sampleRoomy._ctrlBlk = some sampleHeldBlk ∧
    sampleHeldBlk._refs = 0 + 1 ∧
    admissible sampleRoomy._ctrlBlk 0 [Call.icopy sampleFirst, Call.vctor (0 : Nat) 60 9] = true ∧
    NavThrows (runCalls (Vector.assign_move sampleHeld sampleRoomy sampleFull 0 0 0 6).2.1
      [Call.icopy sampleFirst, Call.vctor (0 : Nat) 60 9]) sampleFirst .MODERATE :=
  ⟨by decide, by decide, by decide, by decide,
   (move_assigned_navigation_moderate sampleHeld sampleRoomy sampleFull sampleFirst
     sampleHeldBlk 0 0 0 0 6 [Call.icopy sampleFirst, Call.vctor (0 : Nat) 60 9]
     (by decide) (by decide) (by decide) (by decide) (by decide) (by decide)).2.2⟩


/-! ## C24: the layout invariant -/

/-- The method `update_ctrlBlk` changes no member of the container other than
`_ctrlBlk`, whatever the heap. -/
theorem Vector.update_ctrlBlk_members {T : Type} (h : Heap T) (v : Vector)
    (reason : invalidate_reason) (l b e newCb : Nat) :
    (Vector.update_ctrlBlk h v reason l b e newCb).2.2._buffer = v._buffer ∧
    (Vector.update_ctrlBlk h v reason l b e newCb).2.2._buffer_end = v._buffer_end ∧
    (Vector.update_ctrlBlk h v reason l b e newCb).2.2._front = v._front ∧
    (Vector.update_ctrlBlk h v reason l b e newCb).2.2._back = v._back ∧
    (Vector.update_ctrlBlk h v reason l b e newCb).2.2._length = v._length := by
  unfold Vector.update_ctrlBlk
  cases hb : h.blks v._ctrlBlk with
  | none => exact ⟨rfl, rfl, rfl, rfl, rfl⟩
  | some cb =>
    by_cases hr : cb._refs = 0 <;> simp [hr]

/-- A mutator keeps the layout invariant, whatever the heap and whether it
returns or throws. -/
theorem Op.apply_WF {T : Type} (op : Op T) (s : Heap T × Vector) (hwf : s.2.WF) :
    (op.apply s).2.2.WF := by
  rw [op.apply_eq s]
  by_cases hth : op.throws s.2 = true
  · rw [if_pos hth]; exact hwf
  · rw [if_neg hth]
    obtain ⟨p1, -, -, -⟩ := op.pre_layout s hwf
    obtain ⟨m1, m2, m3, m4, m5⟩ := Vector.update_ctrlBlk_members
      (Heap.mk (op.pre s).1 s.1.blks) (op.pre s).2 op.reason
      (op.location (op.pre s).2) (op.pre s).2._front (op.pre s).2._back op.newCb
    unfold Vector.WF at p1 ⊢
    rw [m1, m2, m3, m4, m5]
    exact p1

/-- C24. Every container reachable from the empty constructor, the sized
constructor or the copy constructor by any sequence of append, prepend,
emplace and remove calls, successful or failed, satisfies
`_buffer <= _front <= _back <= _buffer_end`, has a capacity of at least `1`,
and has `_length == _back - _front`. -/
theorem reachable_layout {T : Type} (v : Vector) (hv : Reachable T v) :
    v._buffer ≤ v._front ∧ v._front ≤ v._back ∧ v._back ≤ v._buffer_end ∧
    1 ≤ v.capacity ∧ v._length = v._back - v._front := by
  have hwf : v.WF := by
    induction hv with
    | ctor h dflt newBuf newCb =>
      simp [Vector.ctor, Vector.init, Vector.alloc, Vector.raw, Vector.WF, initial_size]
    | ctor_n h n dflt newBuf newCb =>
      by_cases hn : n = 0
      · simp [Vector.ctor_n, Vector.init, Vector.alloc, Vector.raw, Vector.WF, initial_size, hn]
      · simp [Vector.ctor_n, Vector.init, Vector.alloc, Vector.raw, Vector.WF, hn]
        omega
    | ctor_copy h other newBuf newCb _ ih =>
      obtain ⟨w1, w2, w3, w4, w5⟩ := ih
      simp only [Vector.ctor_copy, Vector.copy, Vector.raw, Vector.WF]
      omega
    | call h v op _ ih => exact op.apply_WF (h, v) ih
  obtain ⟨w1, w2, w3, w4, w5⟩ := hwf
  refine ⟨w1, w2, w3, ?_, w5⟩
  unfold Vector.capacity
  omega

/-- Witness of C24: a copy of `Vector(3)` after an append and a removal at the
front. -/
theorem reachable_layout_witness :
    Reachable Nat sampleTrail.2 ∧ 1 ≤ sampleTrail.2.capacity :=
  have h0 : Reachable Nat sampleThree.2 := Reachable.ctor_n sampleHeap 3 (0 : Nat) 30 5
  have h1 : Reachable Nat sampleThreeCopy.2 :=
    Reachable.ctor_copy sampleThree.1 sampleThree.2 20 7 h0
  have h2 : Reachable Nat sampleThreeMore.2 :=
    Reachable.call sampleThreeCopy.1 sampleThreeCopy.2 (Op.push_back 4 40 6) h1
  have h3 : Reachable Nat sampleTrail.2 :=
    Reachable.call sampleThreeMore.1 sampleThreeMore.2 (Op.pop_front 6) h2
  ⟨h3, (reachable_layout _ h3).2.2.2.1⟩


/-! ## C25, C26: what a mutation does to the control block -/

/-- The location a mutator records depends on the window only. -/
theorem Op.location_congr {T : Type} (op : Op T) (v w : Vector)
    (hf : v._front = w._front) (hb : v._back = w._back) : op.location v = op.location w := by
  cases op <;> simp [Op.location, hf, hb]

/-- The location a mutator records is the address of the element it inserts or
removes. -/
theorem Op.location_affected {T : Type} (op : Op T) (s : Heap T × Vector) (hwf : s.2.WF)
    (hth : op.throws s.2 = false) :
    op.affected s.2 (op.pre s).2 = .ok (op.location (op.pre s).2) := by
  obtain ⟨p1, -, p3, p4⟩ := op.pre_layout s hwf
  obtain ⟨h, v⟩ := s
  obtain ⟨w1, w2, w3, w4, w5⟩ := hwf
  obtain ⟨q1, q2, q3, q4, q5⟩ := p1
  dsimp only at w1 w2 w3 w4 w5 hth p3 p4
  cases op with
  | push_back val newBuf newCb =>
    have := p3 rfl
    simp only [Op.affected, Op.location, Vector.index, Vector.size]
    rw [if_neg (by omega)]
    congr 1; omega
  | push_back_rv val newBuf newCb =>
    have := p3 rfl
    simp only [Op.affected, Op.location, Vector.index, Vector.size]
    rw [if_neg (by omega)]
    congr 1; omega
  | emplace_back val newBuf newCb =>
    have := p3 rfl
    simp only [Op.affected, Op.location, Vector.index, Vector.size]
    rw [if_neg (by omega)]
    congr 1; omega
  | push_front val newBuf newCb =>
    have := p3 rfl
    simp only [Op.affected, Op.location, Vector.index, Vector.size]
    rw [if_neg (by omega)]
    rfl
  | push_front_rv val newBuf newCb =>
    have := p3 rfl
    simp only [Op.affected, Op.location, Vector.index, Vector.size]
    rw [if_neg (by omega)]
    rfl
  | pop_back newCb =>
    have hl : v._length ≠ 0 := by
      simpa [Op.throws, Op.isInsert] using hth
    simp only [Op.affected, Op.location, Op.pre, Vector.index, Vector.size, ne_eq, hl,
      not_false_eq_true, if_true]
    rw [if_neg (by omega)]
    congr 1; omega
  | pop_front newCb =>
    have hl : v._length ≠ 0 := by
      simpa [Op.throws, Op.isInsert] using hth
    simp only [Op.affected, Op.location, Op.pre, Vector.index, Vector.size, ne_eq, hl,
      not_false_eq_true, if_true]
    rw [if_neg (by omega)]
    congr 1

/-- C25. Let a mutator at either end return normally on a container whose
control block has version `v`.  If the reference count is `0`, the container
keeps the control block, which gets the version `v + 1` (in `uint64_t`
arithmetic), the reason `NONE` and null location and bounds.  If the reference
count is positive, the control block is marked invalid with the reason of the
mutator, the address of the element inserted or removed and the bounds
`[_front, _back)` the container has after the call, its reference count as it
was, and the container holds a new control block of version `v + 1`, reference
count `0`, reason `NONE`. -/
theorem mutation_updates_ctrlBlk {T : Type} (op : Op T) (s : Heap T × Vector) (cb : CtrlBlk)
    (hwf : s.2.WF) (hcb : s.1.blks s.2._ctrlBlk = some cb)
    (hok : (op.apply s).1 = .ok ()) (hnew : op.newCb ≠ s.2._ctrlBlk) :
    (cb._refs = 0 →
      (op.apply s).2.2._ctrlBlk = s.2._ctrlBlk ∧
      (op.apply s).2.1.blks s.2._ctrlBlk
        = some { _version := (cb._version + 1) % U64, _refs := 0, _reason := .NONE,
                 _location := 0, _begin := 0, _end := 0 }) ∧
    (cb._refs ≠ 0 →
      (op.apply s).2.1.blks s.2._ctrlBlk
        = some { _version := INT_MIN, _refs := cb._refs, _reason := op.reason,
                 _location := op.location (op.apply s).2.2,
                 _begin := (op.apply s).2.2._front, _end := (op.apply s).2.2._back } ∧
      (op.apply s).2.2._ctrlBlk = op.newCb ∧
      (op.apply s).2.1.blks op.newCb
        = some { _version := (cb._version + 1) % U64, _refs := 0, _reason := .NONE,
                 _location := 0, _begin := 0, _end := 0 }) ∧
    op.affected s.2 (op.apply s).2.2 = .ok (op.location (op.apply s).2.2) ∧
    (cb._version + 1 < U64 → (cb._version + 1) % U64 = cb._version + 1) := by
  have heq := op.apply_eq s
  have hth : op.throws s.2 = false := by
    cases hh : op.throws s.2
    · rfl
    · rw [hh, if_pos rfl] at heq
      rw [heq] at hok
      exact absurd hok (by simp)
  rw [hth] at heq
  simp only [Bool.false_eq_true, if_false] at heq
  have hcb1 : (Heap.mk (op.pre s).1 s.1.blks).blks (op.pre s).2._ctrlBlk = some cb := by
    rw [op.pre_ctrlBlk s]; exact hcb
  have haff := op.location_affected s hwf hth
  have hmod : (cb._version + 1) % U64 % U64 = (cb._version + 1) % U64 := Nat.mod_mod _ _
  by_cases hr : cb._refs = 0
  · rw [Vector.update_ctrlBlk_unreferenced _ _ _ _ _ _ _ cb hcb1 hr] at heq
    rw [heq]
    refine ⟨fun _ => ⟨op.pre_ctrlBlk s, ?_⟩, fun h0 => absurd hr h0, haff,
      fun hlt => Nat.mod_eq_of_lt hlt⟩
    dsimp only
    rw [op.pre_ctrlBlk s, store_same, hr]
  · rw [Vector.update_ctrlBlk_referenced _ _ _ _ _ _ _ cb hcb1 hr] at heq
    rw [heq]
    dsimp only
    refine ⟨fun h0 => absurd h0 hr, fun _ => ⟨?_, rfl, ?_⟩, ?_, fun hlt => Nat.mod_eq_of_lt hlt⟩
    · rw [op.pre_ctrlBlk s, store_ne _ _ _ _ (fun e => hnew e.symm), store_same]
      rfl
    · rw [store_same]
      simp only [CtrlBlk.new, hmod]
    · rw [show op.location { (op.pre s).2 with _ctrlBlk := op.newCb }
          = op.location (op.pre s).2 from op.location_congr _ _ rfl rfl]
      cases op <;> exact haff

/-- Witness of C25: `pop_back` on `sampleRoomy` while one cursor is alive. -/
theorem mutation_updates_ctrlBlk_witness :
    sampleRoomy.WF ∧ sampleHeld.blks sampleRoomy._ctrlBlk = some sampleHeldBlk ∧
    sampleHeldBlk._refs ≠ 0 ∧
    ((Op.pop_back 6 : Op Nat).apply (sampleHeld, sampleRoomy)).1 = .ok () ∧
    ((Op.pop_back 6 : Op Nat).apply (sampleHeld, sampleRoomy)).2.2._ctrlBlk = 6 :=
  ⟨by decide, by decide, by decide, by decide,
   ((mutation_updates_ctrlBlk (Op.pop_back 6 : Op Nat) (sampleHeld, sampleRoomy) sampleHeldBlk
     (by decide) (by decide) (by decide) (by decide)).2.1 (by decide)).2.1⟩


/-- The method `destroy` returns normally when the control block of the
container is there. -/
theorem Vector.destroy_ok {T : Type} (h : Heap T) (v : Vector) (reason : invalidate_reason)
    (cb : CtrlBlk) (hcb : h.blks v._ctrlBlk = some cb) : (Vector.destroy h v reason).1 = .ok () := by
  unfold Vector.destroy
  by_cases hbuf : v._buffer = 0 <;> by_cases hnull : v._ctrlBlk = 0
  all_goals simp only [ne_eq, hbuf, hnull, not_true_eq_false, not_false_eq_true, if_true, if_false]
  all_goals first
    | rfl
    | (by_cases hr : (cb.invalidate reason 0 0 0)._refs = 0
       · simp only [hcb, hr, if_true]
       · simp only [hcb, hr, if_false])

/-- C26 (amended). A mutator at either end that returns normally leaves the
container with a control block whose version is the previous version plus one
(in `uint64_t` arithmetic), whether the block was bumped in place or replaced;
a copy assignment from another object leaves the container with a new control
block of version `1`, whatever the previous version was. -/
theorem version_after_retirement {T : Type} (s : Heap T × Vector) (cb : CtrlBlk)
    (hcb : s.1.blks s.2._ctrlBlk = some cb) :
    (∀ op : Op T, (op.apply s).1 = .ok () →
      ∃ cb1, (op.apply s).2.1.blks (op.apply s).2.2._ctrlBlk = some cb1 ∧
        cb1._version = (cb._version + 1) % U64) ∧
    (∀ other newBuf newCb,
      (Vector.assign s.1 s.2 other false newBuf newCb).1 = .ok () ∧
      (Vector.assign s.1 s.2 other false newBuf newCb).2.1.blks
          (Vector.assign s.1 s.2 other false newBuf newCb).2.2._ctrlBlk
        = some (CtrlBlk.new 1) ∧
      (CtrlBlk.new 1)._version = 1) := by
  constructor
  · intro op hok
    have heq := op.apply_eq s
    have hth : op.throws s.2 = false := by
      cases hh : op.throws s.2
      · rfl
      · rw [hh, if_pos rfl] at heq
        rw [heq] at hok
        exact absurd hok (by simp)
    rw [hth] at heq
    simp only [Bool.false_eq_true, if_false] at heq
    have hcb1 : (Heap.mk (op.pre s).1 s.1.blks).blks (op.pre s).2._ctrlBlk = some cb := by
      rw [op.pre_ctrlBlk s]; exact hcb
    by_cases hr : cb._refs = 0
    · rw [Vector.update_ctrlBlk_unreferenced _ _ _ _ _ _ _ cb hcb1 hr] at heq
      rw [heq]
      exact ⟨_, store_same _ _ _, rfl⟩
    · rw [Vector.update_ctrlBlk_referenced _ _ _ _ _ _ _ cb hcb1 hr] at heq
      rw [heq]
      exact ⟨_, store_same _ _ _, Nat.mod_mod _ _⟩
  · intro other newBuf newCb
    have hd := Vector.destroy_ok s.1 s.2 .COPY_ASSIGN cb hcb
    unfold Vector.assign
    simp only [Bool.not_false, if_true]
    rcases hdes : Vector.destroy s.1 s.2 .COPY_ASSIGN with ⟨out, hh, vv⟩
    rw [hdes] at hd
    dsimp only at hd
    subst hd
    exact ⟨rfl, store_same _ _ _, rfl⟩

/-- Witness of C26 (amended): `sampleBumped`, whose control block has the
version `2`, is assigned a copy of `sampleFull` and gets a control block of
version `1`. -/
theorem version_after_retirement_witness :
    sampleBumped.1.blks sampleBumped.2._ctrlBlk = some (CtrlBlk.new 2) ∧
    (Vector.assign sampleBumped.1 sampleBumped.2 sampleFull false 50 9).2.1.blks
        (Vector.assign sampleBumped.1 sampleBumped.2 sampleFull false 50 9).2.2._ctrlBlk
      = some (CtrlBlk.new 1) :=
  ⟨by decide,
   ((version_after_retirement sampleBumped (CtrlBlk.new 2) (by decide)).2 sampleFull 50 9).2.1⟩

/-- Counterexample to C26 as stated: the container `sampleBumped` holds a
control block of version `2`; after the copy assignment from `sampleFull` it
holds one of version `1`, which is neither `2 + 1` nor greater than `2`. -/
theorem version_reset_counterexample :
    ∃ cb cb1 : CtrlBlk,
      sampleBumped.1.blks sampleBumped.2._ctrlBlk = some cb ∧
      (Vector.assign sampleBumped.1 sampleBumped.2 sampleFull false 50 9).1 = .ok () ∧
      (Vector.assign sampleBumped.1 sampleBumped.2 sampleFull false 50 9).2.1.blks
          (Vector.assign sampleBumped.1 sampleBumped.2 sampleFull false 50 9).2.2._ctrlBlk
        = some cb1 ∧
      cb1._version ≠ cb._version + 1 ∧ cb1._version < cb._version :=
  ⟨CtrlBlk.new 2, CtrlBlk.new 1, by decide, by decide, by decide, by decide, by decide⟩

/-! ## C27: a retired control block under later calls -/

/-- C30. For a cursor `a` of a control block that is not marked invalid and a
cursor `b` of one that is, `a == b`, `a != b` and `a - b` return a value
while `b == a`, `b != a` and `b - a` throw `invalid_iterator`. -/
theorem comparison_checks_left_only {T : Type} (h : Heap T) (a b : const_iterator)
    (ha : a.Current h) (hb : b.Retired h) :
    a.eq h b = .ok (decide (a._ptr = b._ptr)) ∧
    a.ne h b = .ok (!decide (a._ptr = b._ptr)) ∧
    a.sub h b = .ok ((a._ptr : Int) - (b._ptr : Int)) ∧
    ∃ level, b.eq h a = .error (.invalid_iterator level) ∧
      b.ne h a = .error (.invalid_iterator level) ∧
      b.sub h a = .error (.invalid_iterator level) := by
  obtain ⟨ca, hca, hva⟩ := ha
  obtain ⟨cb, hcb, hvb⟩ := hb
  have hoka : a.validate_base h = .ok () := by
    unfold const_iterator.validate_base
    rw [hca]
    simp only [hva, if_false]
  obtain ⟨level, hl⟩ := const_iterator.validate_base_invalid h b cb hcb hvb
  have heq : a.eq h b = .ok (decide (a._ptr = b._ptr)) := by
    unfold const_iterator.eq; rw [hoka]
  refine ⟨heq, ?_, ?_, level, ?_, ?_, ?_⟩
  · unfold const_iterator.ne; rw [hoka]; dsimp only; rw [heq]
  · unfold const_iterator.sub; rw [hoka]
  · unfold const_iterator.eq; rw [hl]
  · unfold const_iterator.ne; rw [hl]
  · unfold const_iterator.sub; rw [hl]

/-- Witness of C30: in `sampleBoth`, `sampleFresh` is a cursor of the control
block the container holds and `sampleFirst` one of the block the `pop_back`
retired. -/
theorem comparison_checks_left_only_witness :
    sampleFresh.Current sampleBoth ∧ sampleFirst.Retired sampleBoth ∧
    sampleFresh.eq sampleBoth sampleFirst = .ok true ∧
    ∃ level, sampleFirst.eq sampleBoth sampleFresh = .error (.invalid_iterator level) :=
  have h1 : sampleFresh.Current sampleBoth := ⟨(CtrlBlk.new 2).incRef, by decide, by decide⟩
  have h2 : sampleFirst.Retired sampleBoth :=
    ⟨(CtrlBlk.new 1).incRef.invalidate .POP_BACK 12 10 12, by decide, by decide⟩
  let t := comparison_checks_left_only sampleBoth sampleFresh sampleFirst h1 h2
  ⟨h1, h2, t.1, t.2.2.2.imp (fun _ hx => hx.1)⟩


/-! ## The bookkeeping of control blocks in reachable states -/

theorem attachedTo_cons (c : const_iterator) (cs : List const_iterator) (p : Nat) :
    attachedTo (c :: cs) p = attachedTo cs p + if c._ctrlBlk = p then 1 else 0 := by
  unfold attachedTo
  rw [List.countP_cons]
  simp

theorem attachedTo_eq_zero (cs : List const_iterator) (p : Nat) :
    attachedTo cs p = 0 ↔ ∀ c ∈ cs, c._ctrlBlk ≠ p := by
  unfold attachedTo
  rw [List.countP_eq_zero]
  simp

theorem attachedTo_le_length (cs : List const_iterator) (p : Nat) :
    attachedTo cs p ≤ cs.length :=
  List.countP_le_length _

theorem holders_cons (v : Vector) (vs : List Vector) (p : Nat) :
    holders (v :: vs) p = holders vs p + if v._ctrlBlk = p then 1 else 0 := by
  unfold holders
  rw [List.countP_cons]
  simp

theorem holders_eq_zero (vs : List Vector) (p : Nat) :
    holders vs p = 0 ↔ ∀ v ∈ vs, v._ctrlBlk ≠ p := by
  unfold holders
  rw [List.countP_eq_zero]
  simp

theorem store_store {α : Type} (m : Nat → α) (a : Nat) (x y : α) :
    store (store m a x) a y = store m a y := by
  funext b
  by_cases hb : b = a
  · subst hb; rw [store_same, store_same]
  · rw [store_ne _ _ _ _ hb, store_ne _ _ _ _ hb, store_ne _ _ _ _ hb]

/-- The method `decRef` leaves the version alone. -/
theorem CtrlBlk.decRef_version (cb : CtrlBlk) : cb.decRef._version = cb._version := by
  cases cb; rfl

namespace Inv

variable {n : Nat} {blks : Nat → Option CtrlBlk} {vs : List Vector} {cs : List const_iterator}

/-- A control block that is there is not at the null address. -/
theorem ne_null (hi : Inv n blks vs cs) (p : Nat) (cb : CtrlBlk) (hp : blks p = some cb) :
    p ≠ 0 := by
  intro h0
  rw [h0, hi.null] at hp
  cases hp

/-- No other container holds the control block of the first one. -/
theorem others_differ {v : Vector} (hi : Inv n blks (v :: vs) cs) (hv : v._ctrlBlk ≠ 0) :
    ∀ u ∈ vs, u._ctrlBlk ≠ v._ctrlBlk := by
  have hd := hi.distinct v._ctrlBlk hv
  rw [holders_cons, if_pos rfl] at hd
  exact (holders_eq_zero vs v._ctrlBlk).1 (by omega)

/-- The bookkeeping of a state holds of any later count of calls. -/
theorem mono {m : Nat} (hi : Inv n blks vs cs) (hm : n ≤ m) : Inv m blks vs cs where
  null := hi.null
  count := hi.count
  attached := hi.attached
  few := le_trans hi.few hm
  held := fun v hv hn => by
    obtain ⟨cb, h1, h2, h3⟩ := hi.held v hv hn
    exact ⟨cb, h1, h2, le_trans h3 hm⟩
  distinct := hi.distinct
  owner := hi.owner
  kept := hi.kept
  window := hi.window

/-- The order in which containers and cursors are listed is immaterial. -/
theorem perm {vs1 : List Vector} {cs1 : List const_iterator} (hi : Inv n blks vs cs)
    (hv : vs.Perm vs1) (hc : cs.Perm cs1) : Inv n blks vs1 cs1 where
  null := hi.null
  count := fun p cb hp => by
    rw [hi.count p cb hp]
    exact List.Perm.countP_eq _ hc
  attached := fun c hc1 => hi.attached c (hc.mem_iff.2 hc1)
  few := by rw [← hc.length_eq]; exact hi.few
  held := fun v hv1 hn => hi.held v (hv.mem_iff.2 hv1) hn
  distinct := fun p hp => by
    have := hi.distinct p hp
    unfold holders at this ⊢
    rw [← List.Perm.countP_eq _ hv]
    exact this
  owner := fun p cb hp hver => by
    obtain ⟨v, h1, h2⟩ := hi.owner p cb hp hver
    exact ⟨v, hv.mem_iff.1 h1, h2⟩
  kept := hi.kept
  window := fun c hc1 cb hp hver => by
    obtain ⟨v, h1, h2⟩ := hi.window c (hc.mem_iff.2 hc1) cb hp hver
    exact ⟨v, hv.mem_iff.1 h1, h2⟩

/-- A container without a control block can leave. -/
theorem drop_null {v : Vector} (hi : Inv n blks (v :: vs) cs) (hv : v._ctrlBlk = 0) :
    Inv n blks vs cs where
  null := hi.null
  count := hi.count
  attached := hi.attached
  few := hi.few
  held := fun u hu hn => hi.held u (List.mem_cons_of_mem _ hu) hn
  distinct := fun p hp => by
    have := hi.distinct p hp
    rw [holders_cons] at this
    omega
  owner := fun p cb hp hver => by
    obtain ⟨u, h1, h2⟩ := hi.owner p cb hp hver
    rcases List.mem_cons.1 h1 with e | e
    · exact absurd (by rw [← h2, e, hv]) (hi.ne_null p cb hp)
    · exact ⟨u, e, h2⟩
  kept := hi.kept
  window := fun c hc cb hp hver => by
    obtain ⟨u, h1, h2, h3⟩ := hi.window c hc cb hp hver
    rcases List.mem_cons.1 h1 with e | e
    · exact absurd (by rw [← h2, e, hv]) (hi.ne_null _ cb hp)
    · exact ⟨u, e, h2, h3⟩

/-- A container without a control block can join. -/
theorem add_null {v : Vector} (hi : Inv n blks vs cs) (hv : v._ctrlBlk = 0) :
    Inv n blks (v :: vs) cs where
  null := hi.null
  count := hi.count
  attached := hi.attached
  few := hi.few
  held := fun u hu hn => by
    rcases List.mem_cons.1 hu with e | e
    · exact absurd (by rw [e, hv]) hn
    · exact hi.held u e hn
  distinct := fun p hp => by
    rw [holders_cons, if_neg (by rw [hv]; exact fun e => hp e.symm)]
    exact hi.distinct p hp
  owner := fun p cb hp hver => by
    obtain ⟨u, h1, h2⟩ := hi.owner p cb hp hver
    exact ⟨u, List.mem_cons_of_mem _ h1, h2⟩
  kept := hi.kept
  window := fun c hc cb hp hver => by
    obtain ⟨u, h1, h2⟩ := hi.window c hc cb hp hver
    exact ⟨u, List.mem_cons_of_mem _ h1, h2⟩

/-- The first container can be replaced by one with the same control block and
the same window. -/
theorem replace_head {v : Vector} (v1 : Vector) (hi : Inv n blks (v :: vs) cs)
    (hc : v1._ctrlBlk = v._ctrlBlk) (hf : v1._front = v._front) (hb : v1._back = v._back) :
    Inv n blks (v1 :: vs) cs where
  null := hi.null
  count := hi.count
  attached := hi.attached
  few := hi.few
  held := fun u hu hn => by
    rcases List.mem_cons.1 hu with e | e
    · rw [e, hc]
      exact hi.held v (List.mem_cons_self _ _) (by rw [← hc, ← e]; exact hn)
    · exact hi.held u (List.mem_cons_of_mem _ e) hn
  distinct := fun p hp => by
    have := hi.distinct p hp
    rw [holders_cons] at this ⊢
    rw [hc]
    exact this
  owner := fun p cb hp hver => by
    obtain ⟨u, h1, h2⟩ := hi.owner p cb hp hver
    rcases List.mem_cons.1 h1 with e | e
    · exact ⟨v1, List.mem_cons_self _ _, by rw [hc, ← e, h2]⟩
    · exact ⟨u, List.mem_cons_of_mem _ e, h2⟩
  kept := hi.kept
  window := fun c hcm cb hp hver => by
    obtain ⟨u, h1, h2, h3, h4⟩ := hi.window c hcm cb hp hver
    rcases List.mem_cons.1 h1 with e | e
    · exact ⟨v1, List.mem_cons_self _ _, by rw [hc, ← e, h2], by rw [hf, ← e, h3],
        by rw [hb, ← e, h4]⟩
    · exact ⟨u, List.mem_cons_of_mem _ e, h2, h3, h4⟩

/-- The first container leaves and its control block, which no cursor is
attached to, is deleted. -/
theorem free {v : Vector} {cb0 : CtrlBlk} (hi : Inv n blks (v :: vs) cs)
    (h0 : blks v._ctrlBlk = some cb0) (hr : cb0._refs = 0) :
    Inv n (store blks v._ctrlBlk none) vs cs := by
  have hq : v._ctrlBlk ≠ 0 := hi.ne_null _ cb0 h0
  have hoth := hi.others_differ hq
  have hnoc : ∀ c ∈ cs, c._ctrlBlk ≠ v._ctrlBlk := by
    rw [← attachedTo_eq_zero, ← hi.count _ cb0 h0, hr]
  have hback : ∀ p cb, store blks v._ctrlBlk none p = some cb → p ≠ v._ctrlBlk ∧ blks p = some cb := by
    intro p cb hp
    by_cases e : p = v._ctrlBlk
    · rw [e, store_same] at hp; cases hp
    · rw [store_ne _ _ _ _ e] at hp; exact ⟨e, hp⟩
  refine ⟨?_, ?_, ?_, hi.few, ?_, ?_, ?_, ?_, ?_⟩
  · rw [store_ne _ _ _ _ (fun e => hq e.symm)]; exact hi.null
  · intro p cb hp
    exact hi.count p cb (hback p cb hp).2
  · intro c hc
    rw [store_ne _ _ _ _ (hnoc c hc)]
    exact hi.attached c hc
  · intro u hu hn
    rw [store_ne _ _ _ _ (hoth u hu)]
    exact hi.held u (List.mem_cons_of_mem _ hu) hn
  · intro p hp
    have := hi.distinct p hp
    rw [holders_cons] at this
    omega
  · intro p cb hp hver
    obtain ⟨e, hp1⟩ := hback p cb hp
    obtain ⟨u, h1, h2⟩ := hi.owner p cb hp1 hver
    rcases List.mem_cons.1 h1 with e1 | e1
    · exact absurd (by rw [← h2, e1]) e
    · exact ⟨u, e1, h2⟩
  · intro p cb hp
    exact hi.kept p cb (hback p cb hp).2
  · intro c hc cb hp hver
    obtain ⟨e, hp1⟩ := hback _ cb hp
    obtain ⟨u, h1, h2, h3⟩ := hi.window c hc cb hp1 hver
    rcases List.mem_cons.1 h1 with e1 | e1
    · exact absurd (by rw [← h2, e1]) e
    · exact ⟨u, e1, h2, h3⟩

/-- The first container leaves and its control block, which a cursor is
attached to, is marked invalid. -/
theorem retire {v : Vector} {cb0 : CtrlBlk} (hi : Inv n blks (v :: vs) cs)
    (h0 : blks v._ctrlBlk = some cb0) (hr : cb0._refs ≠ 0) (reason : invalidate_reason)
    (l b e : Nat) :
    Inv n (store blks v._ctrlBlk (some (cb0.invalidate reason l b e))) vs cs := by
  have hq : v._ctrlBlk ≠ 0 := hi.ne_null _ cb0 h0
  have hoth := hi.others_differ hq
  have hback : ∀ p cb, store blks v._ctrlBlk (some (cb0.invalidate reason l b e)) p = some cb →
      (p = v._ctrlBlk ∧ cb = cb0.invalidate reason l b e) ∨ (p ≠ v._ctrlBlk ∧ blks p = some cb) := by
    intro p cb hp
    by_cases e : p = v._ctrlBlk
    · rw [e, store_same] at hp
      exact Or.inl ⟨e, (Option.some.inj hp).symm⟩
    · rw [store_ne _ _ _ _ e] at hp; exact Or.inr ⟨e, hp⟩
  refine ⟨?_, ?_, ?_, hi.few, ?_, ?_, ?_, ?_, ?_⟩
  · rw [store_ne _ _ _ _ (fun e => hq e.symm)]; exact hi.null
  · intro p cb hp
    rcases hback p cb hp with ⟨e1, e2⟩ | ⟨-, e2⟩
    · rw [e2, e1]; exact hi.count _ cb0 h0
    · exact hi.count p cb e2
  · intro c hc
    by_cases e1 : c._ctrlBlk = v._ctrlBlk
    · rw [e1, store_same]; exact ⟨_, rfl⟩
    · rw [store_ne _ _ _ _ e1]; exact hi.attached c hc
  · intro u hu hn
    rw [store_ne _ _ _ _ (hoth u hu)]
    exact hi.held u (List.mem_cons_of_mem _ hu) hn
  · intro p hp
    have := hi.distinct p hp
    rw [holders_cons] at this
    omega
  · intro p cb hp hver
    rcases hback p cb hp with ⟨-, e2⟩ | ⟨e1, e2⟩
    · rw [e2] at hver; exact absurd rfl hver
    · obtain ⟨u, h1, h2⟩ := hi.owner p cb e2 hver
      rcases List.mem_cons.1 h1 with e3 | e3
      · exact absurd (by rw [← h2, e3]) e1
      · exact ⟨u, e3, h2⟩
  · intro p cb hp hver
    rcases hback p cb hp with ⟨-, e2⟩ | ⟨-, e2⟩
    · rw [e2]; exact hr
    · exact hi.kept p cb e2 hver
  · intro c hc cb hp hver
    rcases hback _ cb hp with ⟨-, e2⟩ | ⟨e1, e2⟩
    · rw [e2] at hver; exact absurd rfl hver
    · obtain ⟨u, h1, h2, h3⟩ := hi.window c hc cb e2 hver
      rcases List.mem_cons.1 h1 with e3 | e3
      · exact absurd (by rw [← h2, e3]) e1
      · exact ⟨u, e3, h2, h3⟩

/-- A container joins with a new control block, placed at a fresh address. -/
theorem adopt {m : Nat} (v : Vector) (rec : CtrlBlk) (hi : Inv n blks vs cs)
    (hp0 : v._ctrlBlk ≠ 0) (hfresh : blks v._ctrlBlk = none) (hr : rec._refs = 0)
    (hver : rec._version ≠ INT_MIN) (hle : rec._version ≤ m) (hm : n ≤ m) :
    Inv m (store blks v._ctrlBlk (some rec)) (v :: vs) cs := by
  have hnoc : ∀ c ∈ cs, c._ctrlBlk ≠ v._ctrlBlk := by
    intro c hc e
    obtain ⟨cb, h1⟩ := hi.attached c hc
    rw [e, hfresh] at h1; cases h1
  have hnov : ∀ u ∈ vs, u._ctrlBlk ≠ v._ctrlBlk := by
    intro u hu e
    obtain ⟨cb, h1, -⟩ := hi.held u hu (by rw [e]; exact hp0)
    rw [e, hfresh] at h1; cases h1
  have hback : ∀ p cb, store blks v._ctrlBlk (some rec) p = some cb →
      (p = v._ctrlBlk ∧ cb = rec) ∨ (p ≠ v._ctrlBlk ∧ blks p = some cb) := by
    intro p cb hp
    by_cases e : p = v._ctrlBlk
    · rw [e, store_same] at hp
      exact Or.inl ⟨e, (Option.some.inj hp).symm⟩
    · rw [store_ne _ _ _ _ e] at hp; exact Or.inr ⟨e, hp⟩
  refine ⟨?_, ?_, ?_, le_trans hi.few hm, ?_, ?_, ?_, ?_, ?_⟩
  · rw [store_ne _ _ _ _ (fun e => hp0 e.symm)]; exact hi.null
  · intro p cb hp
    rcases hback p cb hp with ⟨e1, e2⟩ | ⟨-, e2⟩
    · rw [e2, e1, hr]; exact ((attachedTo_eq_zero cs _).2 hnoc).symm
    · exact hi.count p cb e2
  · intro c hc
    rw [store_ne _ _ _ _ (hnoc c hc)]; exact hi.attached c hc
  · intro u hu hn
    rcases List.mem_cons.1 hu with e | e
    · rw [e, store_same]; exact ⟨rec, rfl, hver, hle⟩
    · rw [store_ne _ _ _ _ (hnov u e)]
      obtain ⟨cb, h1, h2, h3⟩ := hi.held u e hn
      exact ⟨cb, h1, h2, le_trans h3 hm⟩
  · intro p hp
    rw [holders_cons]
    by_cases e : v._ctrlBlk = p
    · rw [if_pos e, ← e, (holders_eq_zero vs _).2 hnov]
    · rw [if_neg e]; exact hi.distinct p hp
  · intro p cb hp hv
    rcases hback p cb hp with ⟨e1, -⟩ | ⟨-, e2⟩
    · exact ⟨v, List.mem_cons_self _ _, e1.symm⟩
    · obtain ⟨u, h1, h2⟩ := hi.owner p cb e2 hv
      exact ⟨u, List.mem_cons_of_mem _ h1, h2⟩
  · intro p cb hp hv
    rcases hback p cb hp with ⟨-, e2⟩ | ⟨-, e2⟩
    · rw [e2] at hv; exact absurd hv hver
    · exact hi.kept p cb e2 hv
  · intro c hc cb hp hv
    rw [store_ne _ _ _ _ (hnoc c hc)] at hp
    obtain ⟨u, h1, h2⟩ := hi.window c hc cb hp hv
    exact ⟨u, List.mem_cons_of_mem _ h1, h2⟩

/-- A cursor is attached to a control block that is there; if the block is
not marked invalid the cursor captures the window of the container that holds
it. -/
theorem attach (c : const_iterator) (cb0 : CtrlBlk) (hi : Inv n blks vs cs) (hn : n + 1 < U64)
    (h0 : blks c._ctrlBlk = some cb0)
    (hw : cb0._version ≠ INT_MIN →
      ∃ v ∈ vs, v._ctrlBlk = c._ctrlBlk ∧ c._begin = v._front ∧ c._end = v._back) :
    Inv (n + 1) (store blks c._ctrlBlk (some cb0.incRef)) vs (c :: cs) := by
  have hq : c._ctrlBlk ≠ 0 := hi.ne_null _ cb0 h0
  have hcount := hi.count _ cb0 h0
  have hle := attachedTo_le_length cs c._ctrlBlk
  have hfew := hi.few
  have hinc : cb0.incRef._refs = cb0._refs + 1 := by
    show (cb0._refs + 1) % U64 = cb0._refs + 1
    exact Nat.mod_eq_of_lt (by omega)
  have hback : ∀ p cb, store blks c._ctrlBlk (some cb0.incRef) p = some cb →
      (p = c._ctrlBlk ∧ cb = cb0.incRef) ∨ (p ≠ c._ctrlBlk ∧ blks p = some cb) := by
    intro p cb hp
    by_cases e : p = c._ctrlBlk
    · rw [e, store_same] at hp
      exact Or.inl ⟨e, (Option.some.inj hp).symm⟩
    · rw [store_ne _ _ _ _ e] at hp; exact Or.inr ⟨e, hp⟩
  refine ⟨?_, ?_, ?_, ?_, ?_, hi.distinct, ?_, ?_, ?_⟩
  · rw [store_ne _ _ _ _ (fun e => hq e.symm)]; exact hi.null
  · intro p cb hp
    rw [attachedTo_cons]
    rcases hback p cb hp with ⟨e1, e2⟩ | ⟨e1, e2⟩
    · rw [e2, hinc, e1, if_pos rfl, hcount]
    · rw [if_neg (fun e => e1 e.symm)]; exact hi.count p cb e2
  · intro d hd
    by_cases e1 : d._ctrlBlk = c._ctrlBlk
    · rw [e1, store_same]; exact ⟨_, rfl⟩
    · rw [store_ne _ _ _ _ e1]
      rcases List.mem_cons.1 hd with e | e
      · exact absurd (by rw [e]) e1
      · exact hi.attached d e
  · simp only [List.length_cons]; omega
  · intro u hu hnn
    by_cases e1 : u._ctrlBlk = c._ctrlBlk
    · rw [e1, store_same]
      obtain ⟨cb, h1, h2, h3⟩ := hi.held u hu hnn
      rw [e1, h0] at h1
      cases h1
      exact ⟨_, rfl, h2, by show cb0._version ≤ n + 1; omega⟩
    · rw [store_ne _ _ _ _ e1]
      obtain ⟨cb, h1, h2, h3⟩ := hi.held u hu hnn
      exact ⟨cb, h1, h2, by omega⟩
  · intro p cb hp hv
    rcases hback p cb hp with ⟨e1, e2⟩ | ⟨-, e2⟩
    · rw [e2] at hv
      rw [e1]
      exact hi.owner _ cb0 h0 hv
    · exact hi.owner p cb e2 hv
  · intro p cb hp hv
    rcases hback p cb hp with ⟨-, e2⟩ | ⟨-, e2⟩
    · rw [e2, hinc]; omega
    · exact hi.kept p cb e2 hv
  · intro d hd cb hp hv
    rcases List.mem_cons.1 hd with e | e
    · rw [e] at hp ⊢
      rw [store_same] at hp
      cases hp
      exact hw hv
    · rcases hback _ cb hp with ⟨e1, e2⟩ | ⟨-, e2⟩
      · rw [e2] at hv
        have h0d : blks d._ctrlBlk = some cb0 := by rw [e1]; exact h0
        exact hi.window d e cb0 h0d hv
      · exact hi.window d e cb e2 hv

/-- The first cursor can be replaced by one with the same control block and the
same bounds. -/
theorem nav {c c1 : const_iterator} (hi : Inv n blks vs (c :: cs))
    (hc : c1._ctrlBlk = c._ctrlBlk) (hb : c1._begin = c._begin) (he : c1._end = c._end) :
    Inv n blks vs (c1 :: cs) where
  null := hi.null
  count := fun p cb hp => by
    rw [hi.count p cb hp, attachedTo_cons, attachedTo_cons, hc]
  attached := fun d hd => by
    rcases List.mem_cons.1 hd with e | e
    · rw [e, hc]; exact hi.attached c (List.mem_cons_self _ _)
    · exact hi.attached d (List.mem_cons_of_mem _ e)
  few := hi.few
  held := hi.held
  distinct := hi.distinct
  owner := hi.owner
  kept := hi.kept
  window := fun d hd cb hp hv => by
    rcases List.mem_cons.1 hd with e | e
    · rw [e, hc] at hp
      obtain ⟨u, h1, h2, h3, h4⟩ := hi.window c (List.mem_cons_self _ _) cb hp hv
      exact ⟨u, h1, by rw [e, hc, h2], by rw [e, hb, h3], by rw [e, he, h4]⟩
    · exact hi.window d (List.mem_cons_of_mem _ e) cb hp hv

/-- The first cursor is destroyed: its control block loses a reference, and is
deleted if it is marked invalid and has no reference left. -/
theorem detach {c : const_iterator} {cb0 : CtrlBlk} (hi : Inv n blks vs (c :: cs))
    (hn : n < U64) (h0 : blks c._ctrlBlk = some cb0) :
    cb0.decRef._refs = attachedTo cs c._ctrlBlk ∧
    Inv n (if cb0.decRef._version = INT_MIN ∧ cb0.decRef._refs = 0
            then store blks c._ctrlBlk none
            else store blks c._ctrlBlk (some cb0.decRef)) vs cs := by
  have hq : c._ctrlBlk ≠ 0 := hi.ne_null _ cb0 h0
  have hcount := hi.count _ cb0 h0
  rw [attachedTo_cons, if_pos rfl] at hcount
  have hle := attachedTo_le_length cs c._ctrlBlk
  have hfew := hi.few
  simp only [List.length_cons] at hfew
  have hdec : cb0.decRef._refs = attachedTo cs c._ctrlBlk := by
    show (cb0._refs + U64 - 1) % U64 = _
    rw [hcount]
    have : attachedTo cs c._ctrlBlk + 1 + U64 - 1 = attachedTo cs c._ctrlBlk + U64 := by omega
    rw [this, Nat.add_mod_right]
    exact Nat.mod_eq_of_lt (by omega)
  have hverd : cb0.decRef._version = cb0._version := CtrlBlk.decRef_version cb0
  have hcnt : ∀ p, p ≠ c._ctrlBlk → attachedTo (c :: cs) p = attachedTo cs p := by
    intro p hp
    rw [attachedTo_cons, if_neg (fun e => hp e.symm)]; rfl
  refine ⟨hdec, ?_⟩
  rw [hverd]
  by_cases hfree : cb0._version = INT_MIN ∧ cb0.decRef._refs = 0
  · rw [if_pos hfree]
    have hnoc : ∀ d ∈ cs, d._ctrlBlk ≠ c._ctrlBlk := by
      rw [← attachedTo_eq_zero, ← hdec]; exact hfree.2
    have hback : ∀ p cb, store blks c._ctrlBlk none p = some cb →
        p ≠ c._ctrlBlk ∧ blks p = some cb := by
      intro p cb hp
      by_cases e : p = c._ctrlBlk
      · rw [e, store_same] at hp; cases hp
      · rw [store_ne _ _ _ _ e] at hp; exact ⟨e, hp⟩
    refine ⟨?_, ?_, ?_, by omega, ?_, hi.distinct, ?_, ?_, ?_⟩
    · rw [store_ne _ _ _ _ (fun e => hq e.symm)]; exact hi.null
    · intro p cb hp
      obtain ⟨e1, e2⟩ := hback p cb hp
      rw [hi.count p cb e2, hcnt p e1]
    · intro d hd
      rw [store_ne _ _ _ _ (hnoc d hd)]
      exact hi.attached d (List.mem_cons_of_mem _ hd)
    · intro u hu hnn
      obtain ⟨cb, h1, h2, h3⟩ := hi.held u hu hnn
      have e1 : u._ctrlBlk ≠ c._ctrlBlk := by
        intro e
        rw [e, h0] at h1
        cases h1
        exact h2 hfree.1
      rw [store_ne _ _ _ _ e1]
      exact ⟨cb, h1, h2, h3⟩
    · intro p cb hp hv
      exact hi.owner p cb (hback p cb hp).2 hv
    · intro p cb hp hv
      exact hi.kept p cb (hback p cb hp).2 hv
    · intro d hd cb hp hv
      exact hi.window d (List.mem_cons_of_mem _ hd) cb (hback _ cb hp).2 hv
  · rw [if_neg hfree]
    have hback : ∀ p cb, store blks c._ctrlBlk (some cb0.decRef) p = some cb →
        (p = c._ctrlBlk ∧ cb = cb0.decRef) ∨ (p ≠ c._ctrlBlk ∧ blks p = some cb) := by
      intro p cb hp
      by_cases e : p = c._ctrlBlk
      · rw [e, store_same] at hp
        exact Or.inl ⟨e, (Option.some.inj hp).symm⟩
      · rw [store_ne _ _ _ _ e] at hp; exact Or.inr ⟨e, hp⟩
    refine ⟨?_, ?_, ?_, by omega, ?_, hi.distinct, ?_, ?_, ?_⟩
    · rw [store_ne _ _ _ _ (fun e => hq e.symm)]; exact hi.null
    · intro p cb hp
      rcases hback p cb hp with ⟨e1, e2⟩ | ⟨e1, e2⟩
      · rw [e2, hdec, e1]
      · rw [hi.count p cb e2, hcnt p e1]
    · intro d hd
      by_cases e1 : d._ctrlBlk = c._ctrlBlk
      · rw [e1, store_same]; exact ⟨_, rfl⟩
      · rw [store_ne _ _ _ _ e1]
        exact hi.attached d (List.mem_cons_of_mem _ hd)
    · intro u hu hnn
      obtain ⟨cb, h1, h2, h3⟩ := hi.held u hu hnn
      by_cases e1 : u._ctrlBlk = c._ctrlBlk
      · rw [e1, store_same]
        rw [e1, h0] at h1
        cases h1
        exact ⟨_, rfl, by rw [hverd]; exact h2, by rw [hverd]; exact h3⟩
      · rw [store_ne _ _ _ _ e1]
        exact ⟨cb, h1, h2, h3⟩
    · intro p cb hp hv
      rcases hback p cb hp with ⟨e1, e2⟩ | ⟨-, e2⟩
      · rw [e2, hverd] at hv
        rw [e1]
        exact hi.owner _ cb0 h0 hv
      · exact hi.owner p cb e2 hv
    · intro p cb hp hv
      rcases hback p cb hp with ⟨-, e2⟩ | ⟨-, e2⟩
      · rw [e2] at hv ⊢
        rw [hverd] at hv
        exact fun hz => hfree ⟨hv, hz⟩
      · exact hi.kept p cb e2 hv
    · intro d hd cb hp hv
      rcases hback _ cb hp with ⟨e1, e2⟩ | ⟨-, e2⟩
      · rw [e2, hverd] at hv
        have h0d : blks d._ctrlBlk = some cb0 := by rw [e1]; exact h0
        exact hi.window d (List.mem_cons_of_mem _ hd) cb0 h0d hv
      · exact hi.window d (List.mem_cons_of_mem _ hd) cb e2 hv

end Inv

/-! ## What each call does to the control blocks -/

/-- A mutator either throws `std::out_of_range` and changes nothing, or reads
through a control block pointer without a control block, or bumps the version
of the control block in place, or marks it invalid and attaches a new one. -/
theorem Op.apply_blks {T : Type} (op : Op T) (s : Heap T × Vector) :
    op.apply s = (.error .out_of_range, s) ∨
    (s.1.blks s.2._ctrlBlk = none ∧ (op.apply s).1 = .error .fault) ∨
    (∃ cb, s.1.blks s.2._ctrlBlk = some cb ∧ cb._refs = 0 ∧
      (op.apply s).2.1.blks = store s.1.blks s.2._ctrlBlk
        (some { cb with _version := (cb._version + 1) % U64, _reason := .NONE,
                        _location := 0, _begin := 0, _end := 0 }) ∧
      (op.apply s).2.2._ctrlBlk = s.2._ctrlBlk ∧
      (op.apply s).2.2._front = (op.pre s).2._front ∧
      (op.apply s).2.2._back = (op.pre s).2._back) ∨
    (∃ cb l b e, s.1.blks s.2._ctrlBlk = some cb ∧ cb._refs ≠ 0 ∧
      (op.apply s).2.1.blks = store (store s.1.blks s.2._ctrlBlk
        (some (cb.invalidate op.reason l b e))) op.newCb
        (some (CtrlBlk.new ((cb._version + 1) % U64))) ∧
      (op.apply s).2.2._ctrlBlk = op.newCb) := by
  have heq := op.apply_eq s
  cases hth : op.throws s.2 with
  | true =>
    rw [hth, if_pos rfl] at heq
    exact Or.inl heq
  | false =>
    rw [hth] at heq
    simp only [Bool.false_eq_true, if_false] at heq
    right
    cases hb : s.1.blks s.2._ctrlBlk with
    | none =>
      left
      refine ⟨rfl, ?_⟩
      rw [heq]
      unfold Vector.update_ctrlBlk
      dsimp only
      rw [op.pre_ctrlBlk s, hb]
    | some cb =>
      right
      have hcb1 : (Heap.mk (op.pre s).1 s.1.blks).blks (op.pre s).2._ctrlBlk = some cb := by
        rw [op.pre_ctrlBlk s]; exact hb
      by_cases hr : cb._refs = 0
      · left
        rw [Vector.update_ctrlBlk_unreferenced _ _ _ _ _ _ _ cb hcb1 hr] at heq
        rw [heq]
        refine ⟨cb, rfl, hr, ?_, op.pre_ctrlBlk s, rfl, rfl⟩
        dsimp only
        rw [op.pre_ctrlBlk s]
      · right
        rw [Vector.update_ctrlBlk_referenced _ _ _ _ _ _ _ cb hcb1 hr] at heq
        rw [heq]
        refine ⟨cb, op.location (op.pre s).2, (op.pre s).2._front, (op.pre s).2._back, rfl, hr, ?_, rfl⟩
        dsimp only
        rw [op.pre_ctrlBlk s]

/-- What `destroy` does to the control blocks. -/
theorem Vector.destroy_blks {T : Type} (h : Heap T) (v : Vector) (reason : invalidate_reason) :
    (v._ctrlBlk = 0 ∧ (Vector.destroy h v reason).2.1.blks = h.blks) ∨
    (v._ctrlBlk ≠ 0 ∧ h.blks v._ctrlBlk = none) ∨
    (∃ cb, h.blks v._ctrlBlk = some cb ∧ cb._refs = 0 ∧
      (Vector.destroy h v reason).2.1.blks = store h.blks v._ctrlBlk none) ∨
    (∃ cb, h.blks v._ctrlBlk = some cb ∧ cb._refs ≠ 0 ∧
      (Vector.destroy h v reason).2.1.blks
        = store h.blks v._ctrlBlk (some (cb.invalidate reason 0 0 0))) := by
  by_cases hnull : v._ctrlBlk = 0
  · left
    refine ⟨hnull, ?_⟩
    unfold Vector.destroy
    by_cases hbuf : v._buffer = 0 <;>
      simp only [ne_eq, hbuf, hnull, not_true_eq_false, not_false_eq_true, if_true, if_false]
  · right
    cases hb : h.blks v._ctrlBlk with
    | none => exact Or.inl ⟨hnull, rfl⟩
    | some cb =>
      right
      by_cases hr : cb._refs = 0
      · left
        have hr2 : (cb.invalidate reason 0 0 0)._refs = 0 := hr
        refine ⟨cb, rfl, hr, ?_⟩
        unfold Vector.destroy
        by_cases hbuf : v._buffer = 0 <;>
          simp only [ne_eq, hbuf, hnull, not_true_eq_false, not_false_eq_true, if_true, if_false,
            hb, hr2]
      · right
        have hr2 : (cb.invalidate reason 0 0 0)._refs ≠ 0 := hr
        refine ⟨cb, rfl, hr, ?_⟩
        unfold Vector.destroy
        by_cases hbuf : v._buffer = 0 <;>
          simp only [ne_eq, hbuf, hnull, not_true_eq_false, not_false_eq_true, if_true, if_false,
            hb, hr2]

/-- After `destroy` has returned, the copy assignment attaches a new control
block of version `1`. -/
theorem Vector.assign_blks {T : Type} (h : Heap T) (v other : Vector) (newBuf newCb : Nat)
    (hok : (Vector.destroy h v .COPY_ASSIGN).1 = .ok ()) :
    (Vector.assign h v other false newBuf newCb).2.1.blks
      = store (Vector.destroy h v .COPY_ASSIGN).2.1.blks newCb (some (CtrlBlk.new 1)) ∧
    (Vector.assign h v other false newBuf newCb).2.2._ctrlBlk = newCb := by
  unfold Vector.assign
  simp only [Bool.not_false, if_true]
  rcases hdes : Vector.destroy h v .COPY_ASSIGN with ⟨out, hh, vv⟩
  rw [hdes] at hok
  dsimp only at hok
  subst hok
  exact ⟨rfl, rfl⟩

/-- The `emplace_back` calls of the initializer-list constructor bump the
version of the new control block, which no cursor is attached to. -/
theorem Vector.emplace_run_blks {T : Type} (args : List (T × Nat × Nat)) (h : Heap T)
    (v : Vector) (ver : Nat)
    (hcb : h.blks v._ctrlBlk = some ⟨ver % U64, 0, .NONE, 0, 0, 0⟩) :
    (args.foldl
      (fun s a =>
        match s.1 with
        | .ok () => Vector.emplace_back s.2.1 s.2.2 a.1 a.2.1 a.2.2
        | .error _ => s)
      ((.ok (), (h, v)) : Outcome Unit (Heap T × Vector))).2.2._ctrlBlk = v._ctrlBlk ∧
    (args.foldl
      (fun s a =>
        match s.1 with
        | .ok () => Vector.emplace_back s.2.1 s.2.2 a.1 a.2.1 a.2.2
        | .error _ => s)
      ((.ok (), (h, v)) : Outcome Unit (Heap T × Vector))).2.1.blks
      = store h.blks v._ctrlBlk (some ⟨(ver + args.length) % U64, 0, .NONE, 0, 0, 0⟩) := by
  induction args generalizing h v ver with
  | nil =>
    refine ⟨rfl, ?_⟩
    funext q
    by_cases hq : q = v._ctrlBlk
    · rw [hq, store_same]; exact hcb
    · rw [store_ne _ _ _ _ hq]
      rfl
  | cons a args ih =>
    simp only [List.foldl_cons, List.length_cons]
    have hap : Vector.emplace_back h v a.1 a.2.1 a.2.2
        = (Op.emplace_back a.1 a.2.1 a.2.2 : Op T).apply (h, v) := rfl
    have heq := (Op.emplace_back a.1 a.2.1 a.2.2 : Op T).apply_eq (h, v)
    have hth : (Op.emplace_back a.1 a.2.1 a.2.2 : Op T).throws v = false := rfl
    rw [hth] at heq
    simp only [Bool.false_eq_true, if_false] at heq
    have hpc := (Op.emplace_back a.1 a.2.1 a.2.2 : Op T).pre_ctrlBlk (h, v)
    have hcb1 : (Heap.mk ((Op.emplace_back a.1 a.2.1 a.2.2 : Op T).pre (h, v)).1 h.blks).blks
        ((Op.emplace_back a.1 a.2.1 a.2.2 : Op T).pre (h, v)).2._ctrlBlk
          = some ⟨ver % U64, 0, .NONE, 0, 0, 0⟩ := by
      rw [hpc]; exact hcb
    rw [Vector.update_ctrlBlk_unreferenced _ _ _ _ _ _ _ _ hcb1 rfl] at heq
    rw [hap, heq]
    dsimp only
    rw [hpc]
    have hmod : (ver % U64 + 1) % U64 = (ver + 1) % U64 := by
      unfold U64; omega
    obtain ⟨i1, i2⟩ := ih
      (Heap.mk ((Op.emplace_back a.1 a.2.1 a.2.2 : Op T).pre (h, v)).1
        (store h.blks v._ctrlBlk (some ⟨(ver % U64 + 1) % U64, 0, .NONE, 0, 0, 0⟩)))
      ((Op.emplace_back a.1 a.2.1 a.2.2 : Op T).pre (h, v)).2 (ver + 1)
      (by dsimp only; rw [hpc, store_same, hmod])
    rw [hpc] at i1 i2
    refine ⟨i1, ?_⟩
    rw [i2]
    dsimp only
    rw [store_store, show ver + 1 + args.length = ver + (args.length + 1) by omega]

/-- The initializer-list constructor attaches a new control block whose
version is one more than the number of elements. -/
theorem Vector.ctor_list_blks {T : Type} (h : Heap T) (v0 : Vector)
    (args : List (T × Nat × Nat)) (newBuf newCb : Nat) :
    (Vector.ctor_list h v0 args newBuf newCb).2.2._ctrlBlk = newCb ∧
    (Vector.ctor_list h v0 args newBuf newCb).2.1.blks
      = store h.blks newCb (some ⟨(1 + args.length) % U64, 0, .NONE, 0, 0, 0⟩) := by
  unfold Vector.ctor_list
  dsimp only
  obtain ⟨i1, i2⟩ := Vector.emplace_run_blks args
    (Heap.mk h.mem (store h.blks newCb (some (CtrlBlk.new 1))))
    { v0.alloc args.length newBuf with _ctrlBlk := newCb } 1
    (by dsimp only; rw [store_same]; rfl)
  refine ⟨i1, ?_⟩
  rw [i2]
  dsimp only
  rw [store_store]

namespace const_iterator

variable {T : Type}

/-- A cursor constructor that returns has found the control block and added a
reference to it. -/
theorem ctor_ok (h : Heap T) (ptr b e p : Nat) (c : const_iterator)
    (hok : (ctor h ptr b e p).1 = .ok c) :
    ∃ cb, h.blks p = some cb ∧ c = ⟨ptr, b, e, p⟩ ∧
      (ctor h ptr b e p).2.blks = store h.blks p (some cb.incRef) := by
  unfold ctor at hok ⊢
  dsimp only at hok ⊢
  cases hb : h.blks p with
  | none => rw [hb] at hok; cases hok
  | some cb =>
    rw [hb] at hok
    dsimp only at hok
    exact ⟨cb, rfl, (Except.ok.inj hok).symm, rfl⟩

/-- A cursor copy constructor that returns has found the control block and
added a reference to it. -/
theorem ctor_copy_ok (h : Heap T) (d c : const_iterator)
    (hok : (ctor_copy h d).1 = .ok c) :
    ∃ cb, h.blks d._ctrlBlk = some cb ∧ c = d ∧
      (ctor_copy h d).2.blks = store h.blks d._ctrlBlk (some cb.incRef) := by
  unfold ctor_copy at hok ⊢
  dsimp only at hok ⊢
  cases hb : h.blks d._ctrlBlk with
  | none => rw [hb] at hok; cases hok
  | some cb =>
    rw [hb] at hok
    dsimp only at hok
    exact ⟨cb, rfl, (Except.ok.inj hok).symm, rfl⟩

/-- An `operator+` that returns has copied the cursor and moved the copy. -/
theorem add_ok (h : Heap T) (d c : const_iterator) (offset : Int)
    (hok : (d.add h offset).1 = .ok c) :
    ∃ cb, h.blks d._ctrlBlk = some cb ∧ c._ctrlBlk = d._ctrlBlk ∧ c._begin = d._begin ∧
      c._end = d._end ∧ c._ptr = ((d._ptr : Int) + offset).toNat ∧
      d.validate_base h = .ok () ∧
      (d.add h offset).2.blks = store h.blks d._ctrlBlk (some cb.incRef) := by
  unfold add at hok ⊢
  cases hv : d.validate_base h with
  | error e => rw [hv] at hok; cases hok
  | ok u =>
    rw [hv] at hok
    dsimp only at hok ⊢
    unfold ctor_copy at hok ⊢
    dsimp only at hok ⊢
    cases hb : h.blks d._ctrlBlk with
    | none => rw [hb] at hok; cases hok
    | some cb =>
      rw [hb] at hok
      dsimp only at hok
      have := (Except.ok.inj hok).symm
      subst this
      exact ⟨cb, rfl, rfl, rfl, rfl, rfl, rfl, rfl⟩

/-- The operators `++` and `--` keep the control block and the bounds. -/
theorem inc_dec_members (h : Heap T) (c : const_iterator) :
    ((c.inc h).2._ctrlBlk = c._ctrlBlk ∧ (c.inc h).2._begin = c._begin ∧
      (c.inc h).2._end = c._end) ∧
    ((c.dec h).2._ctrlBlk = c._ctrlBlk ∧ (c.dec h).2._begin = c._begin ∧
      (c.dec h).2._end = c._end) := by
  unfold inc dec
  cases c.validate_base h with
  | error e => exact ⟨⟨rfl, rfl, rfl⟩, rfl, rfl, rfl⟩
  | ok u => exact ⟨⟨rfl, rfl, rfl⟩, rfl, rfl, rfl⟩

/-- What the destructor of a cursor does to the control blocks. -/
theorem dtor_blks (h : Heap T) (c : const_iterator) (cb : CtrlBlk)
    (hb : h.blks c._ctrlBlk = some cb) :
    (c.dtor h).1 = .ok () ∧
    (c.dtor h).2.blks = (if cb.decRef._version = INT_MIN ∧ cb.decRef._refs = 0
      then store h.blks c._ctrlBlk none
      else store h.blks c._ctrlBlk (some cb.decRef)) := by
  unfold dtor
  rw [hb]
  dsimp only
  by_cases hc : cb.decRef._version = INT_MIN ∧ cb.decRef._refs = 0
  · rw [if_pos hc, if_pos hc]
    exact ⟨rfl, rfl⟩
  · rw [if_neg hc, if_neg hc]
    exact ⟨rfl, rfl⟩

end const_iterator

/-- The bookkeeping of control blocks holds in every state reached in fewer
than `INT_MIN` calls. -/
theorem Reach.inv {T : Type} {n : Nat} {w : World T} (hr : Reach T n w) (hn : n < INT_MIN) :
    Inv n w.heap.blks w.vecs w.its := by
  have hU : INT_MIN < U64 := by decide
  induction hr with
  | start h hnone =>
    refine ⟨hnone 0, ?_, ?_, le_refl _, ?_, fun p _ => Nat.zero_le _, ?_, ?_, ?_⟩
    · intro p cb hp
      rw [hnone p] at hp; cases hp
    · intro c hc
      cases hc
    · intro v hv
      cases hv
    · intro p cb hp
      rw [hnone p] at hp; cases hp
    · intro p cb hp
      rw [hnone p] at hp; cases hp
    · intro c hc
      cases hc
  | @reorder m h vs vs1 cs cs1 _ hv hc ih => exact (ih hn).perm hv hc
  | @vctor m h vs cs dflt newBuf newCb _ hf ih =>
    have hi := ih (by omega)
    dsimp only at hi
    exact hi.adopt (Vector.ctor _ dflt newBuf newCb).2 (CtrlBlk.new 1) hf.1 hf.2 rfl (by decide)
      (by show 1 % U64 ≤ _; rw [Nat.mod_eq_of_lt (by decide)]; omega) (by omega)
  | @vctor_n m h vs cs k dflt newBuf newCb _ hf ih =>
    have hi := ih (by omega)
    dsimp only at hi
    exact hi.adopt (Vector.ctor_n _ k dflt newBuf newCb).2 (CtrlBlk.new 1) hf.1 hf.2 rfl (by decide)
      (by show 1 % U64 ≤ _; rw [Nat.mod_eq_of_lt (by decide)]; omega) (by omega)
  | @vctor_list m h vs cs v0 args newBuf newCb _ hf ih =>
    have hi := ih (by omega)
    dsimp only at hi
    obtain ⟨l1, l2⟩ := Vector.ctor_list_blks h v0 args newBuf newCb
    dsimp only
    rw [l2]
    have hlt : 1 + args.length < U64 := by omega
    have hres := hi.adopt (m := m + args.length + 1) (Vector.ctor_list h v0 args newBuf newCb).2.2
      (⟨(1 + args.length) % U64, 0, .NONE, 0, 0, 0⟩)
      (by rw [l1]; exact hf.1) (by rw [l1]; exact hf.2) rfl
      (by show (1 + args.length) % U64 ≠ INT_MIN; rw [Nat.mod_eq_of_lt hlt]; omega)
      (by show (1 + args.length) % U64 ≤ _; rw [Nat.mod_eq_of_lt hlt]; omega) (by omega)
    rw [l1] at hres
    exact hres
  | @vctor_copy m h vs cs other newBuf newCb _ _ hf ih =>
    have hi := ih (by omega)
    dsimp only at hi
    exact hi.adopt (Vector.ctor_copy _ other newBuf newCb).2 (CtrlBlk.new 1) hf.1 hf.2 rfl (by decide)
      (by show 1 % U64 ≤ _; rw [Nat.mod_eq_of_lt (by decide)]; omega) (by omega)
  | @vctor_move m h v vs cs _ ih =>
    have hi := ih (by omega)
    dsimp only at hi
    have h1 : Inv m h.blks ((Vector.ctor_move v).2 :: v :: vs) cs := hi.add_null rfl
    have h2 : Inv m h.blks (v :: (Vector.ctor_move v).2 :: vs) cs :=
      h1.perm (List.Perm.swap _ _ _) (List.Perm.refl _)
    exact (h2.replace_head (Vector.ctor_move v).1 rfl rfl rfl).mono (by omega)
  | @mutate m h v vs cs op _ hf hnf ih =>
    have hi := ih (by omega)
    dsimp only at hi
    dsimp only
    rcases op.apply_blks (h, v) with e | ⟨-, e⟩ | ⟨cb, e1, e2, e3, e4, -⟩ | ⟨cb, l, b, e, e1, e2, e3, e4⟩
    · rw [e]
      exact hi.mono (by omega)
    · exact absurd e hnf
    · rw [e3]
      dsimp only at e1 e4 ⊢
      have hq : v._ctrlBlk ≠ 0 := hi.ne_null _ cb e1
      obtain ⟨cb1, g1, g2, g3⟩ := hi.held v (List.mem_cons_self _ _) hq
      rw [e1] at g1
      cases g1
      have hfree := hi.free e1 e2
      have hlt : cb._version + 1 < U64 := by omega
      have hres := hfree.adopt (m := m + 1) (op.apply (h, v)).2.2
        ({ cb with _version := (cb._version + 1) % U64, _reason := .NONE,
                   _location := 0, _begin := 0, _end := 0 })
        (by rw [e4]; exact hq) (by rw [e4, store_same]) e2
        (by show (cb._version + 1) % U64 ≠ INT_MIN; rw [Nat.mod_eq_of_lt hlt]; omega)
        (by show (cb._version + 1) % U64 ≤ _; rw [Nat.mod_eq_of_lt hlt]; omega) (by omega)
      rw [e4, store_store] at hres
      exact hres
    · rw [e3]
      dsimp only at e1 e4 ⊢
      have hq : v._ctrlBlk ≠ 0 := hi.ne_null _ cb e1
      obtain ⟨cb1, g1, g2, g3⟩ := hi.held v (List.mem_cons_self _ _) hq
      rw [e1] at g1
      cases g1
      have hret := hi.retire e1 e2 op.reason l b e
      have hlt : cb._version + 1 < U64 := by omega
      have hne : op.newCb ≠ v._ctrlBlk := by
        intro hh
        have := hf.2
        rw [hh] at this
        rw [e1] at this
        cases this
      have hres := hret.adopt (m := m + 1) (op.apply (h, v)).2.2
        (CtrlBlk.new ((cb._version + 1) % U64))
        (by rw [e4]; exact hf.1) (by rw [e4, store_ne _ _ _ _ hne]; exact hf.2) rfl
        (by
          show (cb._version + 1) % U64 % U64 ≠ INT_MIN
          rw [Nat.mod_mod, Nat.mod_eq_of_lt hlt]; omega)
        (by
          show (cb._version + 1) % U64 % U64 ≤ _
          rw [Nat.mod_mod, Nat.mod_eq_of_lt hlt]; omega) (by omega)
      rw [e4] at hres
      exact hres
  | @assign m h v vs cs other newBuf newCb _ _ hf ih =>
    have hi := ih (by omega)
    dsimp only at hi
    have hdes : (Vector.destroy h v .COPY_ASSIGN).1 = .ok () ∧
        Inv m (Vector.destroy h v .COPY_ASSIGN).2.1.blks vs cs := by
      rcases Vector.destroy_blks h v .COPY_ASSIGN with ⟨e1, e2⟩ | ⟨e1, e2⟩ | ⟨cb, e1, e2, e3⟩ |
          ⟨cb, e1, e2, e3⟩
      · refine ⟨?_, by rw [e2]; exact hi.drop_null e1⟩
        unfold Vector.destroy
        by_cases hbuf : v._buffer = 0 <;>
          simp only [ne_eq, hbuf, e1, not_true_eq_false, not_false_eq_true, if_true, if_false]
      · obtain ⟨cb1, g1, -⟩ := hi.held v (List.mem_cons_self _ _) e1
        rw [e2] at g1; cases g1
      · exact ⟨Vector.destroy_ok h v _ cb e1, by rw [e3]; exact hi.free e1 e2⟩
      · exact ⟨Vector.destroy_ok h v _ cb e1, by rw [e3]; exact hi.retire e1 e2 _ 0 0 0⟩
    obtain ⟨a1, a2⟩ := Vector.assign_blks h v other newBuf newCb hdes.1
    dsimp only
    rw [a1]
    have hres := hdes.2.adopt (m := m + 1) (Vector.assign h v other false newBuf newCb).2.2
      (CtrlBlk.new 1)
      (by rw [a2]; exact hf.1) (by rw [a2]; exact hf.2) rfl (by decide)
      (by show 1 % U64 ≤ _; rw [Nat.mod_eq_of_lt (by decide)]; omega) (by omega)
    rw [a2] at hres
    exact hres
  | @vdtor m h v vs cs _ ih =>
    have hi := ih (by omega)
    dsimp only at hi
    dsimp only
    unfold Vector.dtor
    rcases Vector.destroy_blks h v .DESTROY with ⟨e1, e2⟩ | ⟨e1, e2⟩ | ⟨cb, e1, e2, e3⟩ |
        ⟨cb, e1, e2, e3⟩
    · rw [e2]; exact (hi.drop_null e1).mono (by omega)
    · obtain ⟨cb1, g1, -⟩ := hi.held v (List.mem_cons_self _ _) e1
      rw [e2] at g1; cases g1
    · rw [e3]; exact (hi.free e1 e2).mono (by omega)
    · rw [e3]; exact (hi.retire e1 e2 _ 0 0 0).mono (by omega)
  | @begin m h vs cs c v _ hv hok ih =>
    have hi := ih (by omega)
    dsimp only at hi
    obtain ⟨cb, e1, e2, e3⟩ := const_iterator.ctor_ok h _ _ _ _ c hok
    dsimp only
    have e3b : (Vector.begin h v).2.blks = store h.blks v._ctrlBlk (some cb.incRef) := e3
    rw [e3b]
    have hcc : c._ctrlBlk = v._ctrlBlk := by rw [e2]
    have hres := hi.attach c cb (by omega) (by rw [hcc]; exact e1)
      (fun _ => ⟨v, hv, hcc.symm, by rw [e2], by rw [e2]⟩)
    rw [hcc] at hres
    exact hres
  | @end_ m h vs cs c v _ hv hok ih =>
    have hi := ih (by omega)
    dsimp only at hi
    obtain ⟨cb, e1, e2, e3⟩ := const_iterator.ctor_ok h _ _ _ _ c hok
    dsimp only
    have e3b : (Vector.end_ h v).2.blks = store h.blks v._ctrlBlk (some cb.incRef) := e3
    rw [e3b]
    have hcc : c._ctrlBlk = v._ctrlBlk := by rw [e2]
    have hres := hi.attach c cb (by omega) (by rw [hcc]; exact e1)
      (fun _ => ⟨v, hv, hcc.symm, by rw [e2], by rw [e2]⟩)
    rw [hcc] at hres
    exact hres
  | @icopy m h vs cs c d _ hd hok ih =>
    have hi := ih (by omega)
    dsimp only at hi
    obtain ⟨cb, e1, e2, e3⟩ := const_iterator.ctor_copy_ok h d c hok
    dsimp only
    rw [e3]
    subst e2
    exact hi.attach c cb (by omega) e1 (fun hver => hi.window c hd cb e1 hver)
  | @add m h vs cs c d offset _ hd hok ih =>
    have hi := ih (by omega)
    dsimp only at hi
    obtain ⟨cb, e1, e2, e3, e4, -, -, e5⟩ := const_iterator.add_ok h d c offset hok
    dsimp only
    rw [e5, ← e2]
    refine hi.attach c cb (by omega) (by rw [e2]; exact e1) (fun hver => ?_)
    obtain ⟨u, h1, h2, h3, h4⟩ := hi.window d hd cb e1 hver
    exact ⟨u, h1, by rw [e2, h2], by rw [e3, h3], by rw [e4, h4]⟩
  | @inc m h vs c cs _ ih =>
    have hi := ih (by omega)
    dsimp only at hi
    obtain ⟨⟨e1, e2, e3⟩, -⟩ := const_iterator.inc_dec_members h c
    exact (hi.nav e1 e2 e3).mono (by omega)
  | @dec m h vs c cs _ ih =>
    have hi := ih (by omega)
    dsimp only at hi
    obtain ⟨-, e1, e2, e3⟩ := const_iterator.inc_dec_members h c
    exact (hi.nav e1 e2 e3).mono (by omega)
  | @idtor m h vs c cs _ ih =>
    have hi := ih (by omega)
    dsimp only at hi
    obtain ⟨cb, e1⟩ := hi.attached c (List.mem_cons_self _ _)
    obtain ⟨-, e2⟩ := const_iterator.dtor_blks h c cb e1
    dsimp only
    rw [e2]
    exact (hi.detach (by omega) e1).2.mono (by omega)

/-- The state `sampleWorld` is reached in four calls: `Vector<T>(3)`, `begin()`,
`pop_back()`, `begin()`. -/
theorem sampleWorld_reach : Reach Nat 4 sampleWorld :=
  have r0 : Reach Nat 0 ⟨sampleStart, [], []⟩ := Reach.start sampleStart (fun _ => rfl)
  have r1 : Reach Nat 1 ⟨sampleOne.1, [sampleOne.2], []⟩ :=
    @Reach.vctor_n Nat 0 sampleStart [] [] 3 0 10 1 r0 ⟨by decide, rfl⟩
  have r2 : Reach Nat 2 ⟨sampleOneIt.2, [sampleOne.2], [sampleFirst]⟩ :=
    @Reach.begin Nat 1 sampleOne.1 [sampleOne.2] [] sampleFirst sampleOne.2 r1
      (List.mem_cons_self _ _) (by decide)
  have r3 : Reach Nat 3 ⟨sampleTwo.2.1, [sampleTwo.2.2], [sampleFirst]⟩ :=
    @Reach.mutate Nat 2 sampleOneIt.2 sampleOne.2 [] [sampleFirst] (Op.pop_back 6) r2
      ⟨by decide, by decide⟩ (by decide)
  @Reach.begin Nat 3 sampleTwo.2.1 [sampleTwo.2.2] [sampleFirst] sampleFresh sampleTwo.2.2 r3
    (List.mem_cons_self _ _) (by decide)

/-- A cursor that is listed is counted. -/
theorem attachedTo_pos_of_mem (cs : List const_iterator) (c : const_iterator) (hc : c ∈ cs) :
    1 ≤ attachedTo cs c._ctrlBlk := by
  by_contra hlt
  have hz : attachedTo cs c._ctrlBlk = 0 := by omega
  exact (attachedTo_eq_zero cs _).1 hz c hc rfl

/-- The method `decRef` takes one off a reference count that is positive. -/
theorem CtrlBlk.decRef_refs (cb : CtrlBlk) (n : Nat) (h : cb._refs = n + 1) (hn : n + 1 < U64) :
    cb.decRef._refs = n := by
  simp only [CtrlBlk.decRef, h]
  have : n + 1 + U64 - 1 = n + U64 := by omega
  rw [this, Nat.add_mod_right, Nat.mod_eq_of_lt (by omega)]

/-- C28. In every state reached in fewer than `INT_MIN` calls: the reference
count of each control block is the number of live cursors attached to it; a
control block is there exactly when a live container holds it or a live cursor
is attached to it, and none that is there is marked invalid with the reference
count `0`; `destroy`, which the destructor and the copy assignment of a
container run, deletes the control block of the container at once when no
cursor is attached to it and marks it invalid otherwise; and the destructor of
a cursor deletes the control block exactly when the block is marked invalid
and that cursor is the last one attached. -/
theorem refcount_and_release {T : Type} {n : Nat} {w : World T} (hr : Reach T n w)
    (hn : n < INT_MIN) :
    (∀ p cb, w.heap.blks p = some cb → cb._refs = attachedTo w.its p) ∧
    (∀ p, w.heap.blks p ≠ none ↔
      ((p ≠ 0 ∧ ∃ v ∈ w.vecs, v._ctrlBlk = p) ∨ ∃ c ∈ w.its, c._ctrlBlk = p)) ∧
    (∀ p cb, w.heap.blks p = some cb → ¬ (cb._version = INT_MIN ∧ cb._refs = 0)) ∧
    (∀ v ∈ w.vecs, v._ctrlBlk ≠ 0 → ∀ reason, ∃ cb, w.heap.blks v._ctrlBlk = some cb ∧
      cb._version ≠ INT_MIN ∧
      (attachedTo w.its v._ctrlBlk = 0 →
        (Vector.destroy w.heap v reason).2.1.blks v._ctrlBlk = none) ∧
      (attachedTo w.its v._ctrlBlk ≠ 0 →
        (Vector.destroy w.heap v reason).2.1.blks v._ctrlBlk
          = some (cb.invalidate reason 0 0 0))) ∧
    (∀ c ∈ w.its, ∃ cb, w.heap.blks c._ctrlBlk = some cb ∧
      ((c.dtor w.heap).2.blks c._ctrlBlk = none ↔
        (cb._version = INT_MIN ∧ attachedTo w.its c._ctrlBlk = 1))) := by
  have hi := hr.inv hn
  have hU : INT_MIN < U64 := by decide
  refine ⟨hi.count, ?_, ?_, ?_, ?_⟩
  · intro p
    constructor
    · intro hp
      cases hb : w.heap.blks p with
      | none => exact absurd hb hp
      | some cb =>
        by_cases hver : cb._version = INT_MIN
        · right
          have h1 := hi.kept p cb hb hver
          rw [hi.count p cb hb] at h1
          by_contra hno
          apply h1
          rw [attachedTo_eq_zero]
          intro c hc e
          exact hno ⟨c, hc, e⟩
        · left
          exact ⟨hi.ne_null p cb hb, hi.owner p cb hb hver⟩
    · rintro (⟨h0, v, hv, e⟩ | ⟨c, hc, e⟩)
      · obtain ⟨cb, h1, -⟩ := hi.held v hv (by rw [e]; exact h0)
        rw [← e, h1]
        exact fun hh => by cases hh
      · obtain ⟨cb, h1⟩ := hi.attached c hc
        rw [← e, h1]
        exact fun hh => by cases hh
  · intro p cb hb hh
    exact hi.kept p cb hb hh.1 hh.2
  · intro v hv h0 reason
    obtain ⟨cb, h1, h2, -⟩ := hi.held v hv h0
    refine ⟨cb, h1, h2, ?_, ?_⟩
    · intro hz
      rcases Vector.destroy_blks w.heap v reason with ⟨e1, -⟩ | ⟨-, e2⟩ | ⟨cb1, e1, e2, e3⟩ |
          ⟨cb1, e1, e2, e3⟩
      · exact absurd e1 h0
      · rw [h1] at e2; cases e2
      · rw [e3, store_same]
      · rw [h1] at e1
        cases e1
        rw [hi.count _ cb h1] at e2
        exact absurd hz e2
    · intro hz
      rcases Vector.destroy_blks w.heap v reason with ⟨e1, -⟩ | ⟨-, e2⟩ | ⟨cb1, e1, e2, e3⟩ |
          ⟨cb1, e1, e2, e3⟩
      · exact absurd e1 h0
      · rw [h1] at e2; cases e2
      · rw [h1] at e1
        cases e1
        rw [hi.count _ cb h1] at e2
        exact absurd e2 hz
      · rw [h1] at e1
        cases e1
        rw [e3, store_same]
  · intro c hc
    obtain ⟨cb, h1⟩ := hi.attached c hc
    refine ⟨cb, h1, ?_⟩
    have hpos := attachedTo_pos_of_mem w.its c hc
    have hle := attachedTo_le_length w.its c._ctrlBlk
    have hfew := hi.few
    have hcount := hi.count _ cb h1
    have hdec : cb.decRef._refs = attachedTo w.its c._ctrlBlk - 1 :=
      CtrlBlk.decRef_refs cb _ (by omega) (by omega)
    obtain ⟨-, e2⟩ := const_iterator.dtor_blks w.heap c cb h1
    rw [e2, CtrlBlk.decRef_version, hdec]
    by_cases hfree : cb._version = INT_MIN ∧ attachedTo w.its c._ctrlBlk - 1 = 0
    · rw [if_pos hfree, store_same]
      exact ⟨fun _ => ⟨hfree.1, by omega⟩, fun _ => rfl⟩
    · rw [if_neg hfree, store_same]
      constructor
      · intro hh; cases hh
      · intro hh
        exact absurd ⟨hh.1, by omega⟩ hfree

/-- Witness of C28: in `sampleWorld` the control block at `1`, marked invalid by
the `pop_back`, has the reference count `1` for the cursor taken before, and
the control block at `6`, which the container holds, has the reference count
`1` for the cursor taken after. -/
theorem refcount_and_release_witness :
    Reach Nat 4 sampleWorld ∧
    (∀ p cb, sampleWorld.heap.blks p = some cb → cb._refs = attachedTo sampleWorld.its p) ∧
    attachedTo sampleWorld.its 1 = 1 ∧ attachedTo sampleWorld.its 6 = 1 :=
  ⟨sampleWorld_reach, (refcount_and_release sampleWorld_reach (by decide)).1, by decide,
    by decide⟩

/-! ## C8, C9, C10, C11: a cursor that was assigned to -/

/-- C8. The run `Vector<T> v(3); auto it = v.begin(); v.push_back(4);
it = v.begin(); v.push_back(5); ++it;`.  Every call returns.  The assignment
leaves `it` attached to the control block of the container without a reference
of its own, so once the temporary is destroyed the reference count is `0`; the
second `push_back`, a successful mutation made while `it` is alive, bumps the
version in place, and `++it`, `--it`, `it == it`, `it - it` and `it + 1` return
instead of throwing `invalid_iterator`. -/
theorem reseated_cursor_navigates :
    sampleOneIt.1 = .ok sampleFirst ∧ sampleGrown.1 = .ok () ∧
    sampleGrownIt.1 = .ok sampleTemp ∧ (sampleTemp.dtor sampleGrownIt.2).1 = .ok () ∧
    sampleReseated._ctrlBlk = sampleLoose.2._ctrlBlk ∧
    sampleLoose.1.blks 6 = some (CtrlBlk.new 2) ∧
    (Vector.push_back sampleLoose.1 sampleLoose.2 5 50 7).1 = .ok () ∧
    (Vector.push_back sampleLoose.1 sampleLoose.2 5 50 7).2.1.blks 6 = some (CtrlBlk.new 3) ∧
    (sampleReseated.inc (Vector.push_back sampleLoose.1 sampleLoose.2 5 50 7).2.1).1 = .ok () ∧
    (sampleReseated.dec (Vector.push_back sampleLoose.1 sampleLoose.2 5 50 7).2.1).1 = .ok () ∧
    sampleReseated.eq (Vector.push_back sampleLoose.1 sampleLoose.2 5 50 7).2.1 sampleReseated
      = .ok true ∧
    sampleReseated.sub (Vector.push_back sampleLoose.1 sampleLoose.2 5 50 7).2.1 sampleReseated
      = .ok 0 ∧
    (sampleReseated.add (Vector.push_back sampleLoose.1 sampleLoose.2 5 50 7).2.1 1).1
      = .ok { sampleReseated with _ptr := 41 } := by
  decide

/-- C9. The run `auto it = v.begin(); v.push_back(4); it = v.begin();` followed
by the destruction of `v`.  The control block `it` is attached to has the
reference count `0`, so `destroy` deletes it, and `++it` and `*it` read through
a pointer to a deleted control block instead of throwing `invalid_iterator`
with the severity `SEVERE`. -/
theorem reseated_cursor_dangles :
    sampleReseated._ctrlBlk = sampleLoose.2._ctrlBlk ∧
    sampleLoose.1.blks 6 = some (CtrlBlk.new 2) ∧
    (Vector.dtor sampleLoose.1 sampleLoose.2).1 = .ok () ∧
    (Vector.dtor sampleLoose.1 sampleLoose.2).2.1.blks sampleReseated._ctrlBlk = none ∧
    (sampleReseated.inc (Vector.dtor sampleLoose.1 sampleLoose.2).2.1).1 = .error .fault ∧
    sampleReseated.deref (Vector.dtor sampleLoose.1 sampleLoose.2).2.1 = .error .fault ∧
    ¬ NavThrows (Vector.dtor sampleLoose.1 sampleLoose.2).2.1 sampleReseated .SEVERE ∧
    ¬ DerefThrows (Vector.dtor sampleLoose.1 sampleLoose.2).2.1 sampleReseated .SEVERE := by
  refine ⟨by decide, by decide, by decide, by decide, by decide, by decide, ?_, ?_⟩
  · intro hn
    exact absurd hn.1 (by decide)
  · intro hd
    exact absurd hd.1 (by decide)

/-- C10. The run `auto it = v.begin(); v.push_back(4); it = v.begin();
v.pop_front(); ++it; *it;`.  The cursor points at the first element when
`pop_front` removes it; its control block has the reference count `0`, so the
call bumps the version in place and records no location, and `++it` and `*it`
return, the latter a reference to the destroyed cell, instead of throwing
`invalid_iterator` with the severity `SEVERE`. -/
theorem reseated_cursor_at_removed_cell :
    sampleReseated._ctrlBlk = sampleLoose.2._ctrlBlk ∧
    sampleReseated._ptr = sampleLoose.2._front ∧ sampleLoose.2.size = 4 ∧
    (Vector.pop_front sampleLoose.1 sampleLoose.2 7).1 = .ok () ∧
    (Vector.pop_front sampleLoose.1 sampleLoose.2 7).2.1.blks 6 = some (CtrlBlk.new 3) ∧
    (sampleReseated.inc (Vector.pop_front sampleLoose.1 sampleLoose.2 7).2.1).1 = .ok () ∧
    sampleReseated.deref (Vector.pop_front sampleLoose.1 sampleLoose.2 7).2.1 = .ok 40 ∧
    (Vector.pop_front sampleLoose.1 sampleLoose.2 7).2.1.mem 40 = none := by
  decide

/-- C11. The run `auto it = a.begin(); a.push_back(4); it = a.begin();
Vector<T> b(2); a = b; *it;`.  The control block `it` is attached to has the
reference count `0`, so the `destroy` of the copy assignment deletes it, and
`*it`, for a cursor whose address is inside its bounds, reads through a pointer
to a deleted control block instead of throwing `invalid_iterator` with the
severity `MODERATE`. -/
theorem reseated_cursor_after_assign :
    sampleReseated._ctrlBlk = sampleLoose.2._ctrlBlk ∧ ¬ sampleReseated.OutOfRange ∧
    sampleOther.1.blks 6 = some (CtrlBlk.new 2) ∧
    (Vector.assign sampleOther.1 sampleLoose.2 sampleOther.2 false 70 9).1 = .ok () ∧
    (Vector.assign sampleOther.1 sampleLoose.2 sampleOther.2 false 70 9).2.1.blks
      sampleReseated._ctrlBlk = none ∧
    sampleReseated.deref
      (Vector.assign sampleOther.1 sampleLoose.2 sampleOther.2 false 70 9).2.1 = .error .fault ∧
    ¬ DerefThrows (Vector.assign sampleOther.1 sampleLoose.2 sampleOther.2 false 70 9).2.1
      sampleReseated .MODERATE := by
  refine ⟨by decide, by decide, by decide, by decide, by decide, by decide, ?_⟩
  intro hd
  exact absurd hd.1 (by decide)

/-! ## C16: the dereference after `pop_back`, for every counted cursor -/

/-- The state after `Vector<T>(3)` and `begin()` is reached in two calls. -/
theorem sampleOne_reach : Reach Nat 2 ⟨sampleOneIt.2, [sampleOne.2], [sampleFirst]⟩ :=
  have r0 : Reach Nat 0 ⟨sampleStart, [], []⟩ := Reach.start sampleStart (fun _ => rfl)
  have r1 : Reach Nat 1 ⟨sampleOne.1, [sampleOne.2], []⟩ :=
    @Reach.vctor_n Nat 0 sampleStart [] [] 3 0 10 1 r0 ⟨by decide, rfl⟩
  @Reach.begin Nat 1 sampleOne.1 [sampleOne.2] [] sampleFirst sampleOne.2 r1
    (List.mem_cons_self _ _) (by decide)

/-- In a reached state, a live cursor attached to the control block of a live
container is counted in the reference count of that control block, which is
not marked invalid, and its bounds are the window of the container. -/
theorem Reach.counted {T : Type} {n : Nat} {h : Heap T} {v : Vector} {vs : List Vector}
    {cs : List const_iterator} (hr : Reach T n ⟨h, v :: vs, cs⟩) (hn : n < INT_MIN)
    (c : const_iterator) (hc : c ∈ cs) (hcv : c._ctrlBlk = v._ctrlBlk) :
    ∃ cb, h.blks v._ctrlBlk = some cb ∧ cb._refs ≠ 0 ∧ cb._version ≠ INT_MIN ∧
      v._ctrlBlk ≠ 0 ∧ c._begin = v._front ∧ c._end = v._back := by
  have hi := hr.inv hn
  dsimp only at hi
  obtain ⟨cb, h1⟩ := hi.attached c hc
  rw [hcv] at h1
  have h0 : v._ctrlBlk ≠ 0 := hi.ne_null _ cb h1
  obtain ⟨cb1, g1, g2, -⟩ := hi.held v (List.mem_cons_self _ _) h0
  rw [h1] at g1
  cases g1
  have hpos := attachedTo_pos_of_mem cs c hc
  have hcount := hi.count _ cb h1
  rw [hcv] at hpos
  obtain ⟨u, m1, m2, m3, m4⟩ := hi.window c hc cb (by rw [hcv]; exact h1) g2
  have hu : u = v := by
    rcases List.mem_cons.1 m1 with e | e
    · exact e
    · exact absurd (by rw [m2, hcv]) (hi.others_differ h0 u e)
  subst hu
  exact ⟨cb, h1, by omega, g2, h0, m3, m4⟩

/-- C16 (amended). In a state reached by the calls of `Reach`, which build
cursors by `begin`, `end`, copy construction and `operator+` and never assign
to one, let `c` be a live cursor of a non-empty container on which `pop_back`
is called.  The call returns and leads to a reached state.  If `c` pointed at
the removed element a dereference after the call throws `invalid_iterator`
`SEVERE`; otherwise, if the address of `c` is outside its captured bounds,
which is the case whenever it is outside the bounds recorded in the retired
control block, it throws `out_of_range`; otherwise it throws
`invalid_iterator` `MILD`. -/
theorem reached_deref_after_pop_back {T : Type} {n : Nat} {h : Heap T} {v : Vector}
    {vs : List Vector} {cs : List const_iterator} (hr : Reach T n ⟨h, v :: vs, cs⟩)
    (hn : n + 1 < INT_MIN) (hwf : v.WF) (hne : v._length ≠ 0)
    (c : const_iterator) (hc : c ∈ cs) (hcv : c._ctrlBlk = v._ctrlBlk)
    (newCb : Nat) (hf : FreshCtrlBlk h newCb) :
    (Vector.pop_back h v newCb).1 = .ok () ∧
    Reach T (n + 1)
      ⟨(Vector.pop_back h v newCb).2.1, (Vector.pop_back h v newCb).2.2 :: vs, cs⟩ ∧
    (c._ptr = v._back - 1 → DerefThrows (Vector.pop_back h v newCb).2.1 c .SEVERE) ∧
    (c._ptr ≠ v._back - 1 → c.OutOfRange →
      c.deref (Vector.pop_back h v newCb).2.1 = .error .out_of_range ∧
      iterator.deref (Vector.pop_back h v newCb).2.1 c = .error .out_of_range) ∧
    (c._ptr ≠ v._back - 1 → ¬ c.OutOfRange →
      DerefThrows (Vector.pop_back h v newCb).2.1 c .MILD) ∧
    ((c._ptr < v._front ∨ c._ptr > v._back - 1) → c._ptr ≠ v._back - 1 → c.OutOfRange) := by
  obtain ⟨cb, h1, h2, -, -, h5, h6⟩ := hr.counted (by omega) c hc hcv
  have hnew : newCb ≠ v._ctrlBlk := by
    intro e
    have := hf.2
    rw [e, h1] at this
    cases this
  obtain ⟨t1, t2, t3, t4, t5⟩ := deref_after_pop_back h v c cb newCb hwf hne hcv h5 h6 h1 h2 hnew
  refine ⟨t1, ?_, t2, t3, t4, t5⟩
  have hstep := Reach.mutate (Op.pop_back newCb) hr hf
    (by
      show (Vector.pop_back h v newCb).1 ≠ .error .fault
      rw [t1]
      exact fun e => by cases e)
  exact hstep

/-- Witness of the amended C16: `Vector<T>(3)`, `begin()`, `pop_back()`.  The
cursor points at the first element, which stays, so a dereference throws
`invalid_iterator` `MILD`. -/
theorem reached_deref_after_pop_back_witness :
    Reach Nat 2 ⟨sampleOneIt.2, [sampleOne.2], [sampleFirst]⟩ ∧ sampleOne.2.WF ∧
    sampleOne.2._length ≠ 0 ∧ sampleFirst._ctrlBlk = sampleOne.2._ctrlBlk ∧
    DerefThrows (Vector.pop_back sampleOneIt.2 sampleOne.2 6).2.1 sampleFirst .MILD :=
  ⟨sampleOne_reach, by decide, by decide, by decide,
    (reached_deref_after_pop_back sampleOne_reach (by decide) (by decide) (by decide)
      sampleFirst (by decide) (by decide) 6 ⟨by decide, by decide⟩).2.2.2.2.1 (by decide)
      (by decide)⟩

/-! ## The bookkeeping of element cells in reachable states -/

/-- Every state of `Tidy` is a state of `Reach`. -/
theorem Tidy.reach {T : Type} {n : Nat} {w : World T} (ht : Tidy T n w) : Reach T n w := by
  induction ht with
  | start h hnone => exact Reach.start h hnone
  | reorder _ hv hc ih => exact Reach.reorder ih hv hc
  | vctor dflt newBuf newCb _ hf _ ih => exact Reach.vctor dflt newBuf newCb ih hf
  | vctor_n k dflt newBuf newCb _ hf _ ih => exact Reach.vctor_n k dflt newBuf newCb ih hf
  | vctor_copy other newBuf newCb _ ho hf _ ih =>
    exact Reach.vctor_copy other newBuf newCb ih ho hf
  | vctor_move _ ih => exact Reach.vctor_move ih
  | mutate op _ hf hnf _ _ ih => exact Reach.mutate op ih hf hnf
  | assign other newBuf newCb _ ho hf _ ih => exact Reach.assign other newBuf newCb ih ho hf
  | vdtor _ ih => exact Reach.vdtor ih
  | begin v _ hv hok ih => exact Reach.begin v ih hv hok
  | end_ v _ hv hok ih => exact Reach.end_ v ih hv hok
  | icopy d _ hd hok ih => exact Reach.icopy d ih hd hok
  | add d offset _ hd hok ih => exact Reach.add d offset ih hd hok
  | inc _ ih => exact Reach.inc ih
  | dec _ ih => exact Reach.dec ih
  | idtor _ ih => exact Reach.idtor ih

theorem fill_cells_outside {T : Type} (m : Nat → Option T) (p : Nat) (dflt : T) (n a : Nat)
    (ha : a < p ∨ p + n ≤ a) : fill_cells m p dflt n a = m a := by
  induction n with
  | zero => rfl
  | succ n ih =>
    simp only [fill_cells]
    rw [store_ne _ _ _ _ (by omega)]
    exact ih (by omega)

theorem destroy_cells_outside {T : Type} (m : Nat → Option T) (p n a : Nat)
    (ha : a < p ∨ p + n ≤ a) : destroy_cells m p n a = m a := by
  induction n with
  | zero => rfl
  | succ n ih =>
    simp only [destroy_cells]
    rw [store_ne _ _ _ _ (by omega)]
    exact ih (by omega)

namespace Vector

variable {T : Type}

/-- The layout invariant is the layout `Laid` of a block of at least one cell. -/
theorem WF_iff_laid (v : Vector) : v.WF ↔ v.Laid ∧ v._buffer < v._buffer_end := by
  unfold WF Laid
  constructor
  · rintro ⟨a, b, c, d, e⟩; exact ⟨⟨a, b, c, e⟩, d⟩
  · rintro ⟨⟨a, b, c, e⟩, d⟩; exact ⟨a, b, c, d, e⟩

/-- The logical contents depend on the cells of the window only. -/
theorem Contents.congr {h h1 : Heap T} {v : Vector} {xs : List T} (hc : v.Contents h xs)
    (hm : ∀ a, v._front ≤ a → a < v._front + v._length → h1.mem a = h.mem a) :
    v.Contents h1 xs := by
  have hl : v._length = xs.length := hc.1
  refine Contents.intro hl (fun k hk => ?_)
  rw [hm _ (by omega) (by omega)]
  exact hc.cell k hk

/-- The method `update_ctrlBlk` touches no element cell. -/
theorem update_ctrlBlk_mem (h : Heap T) (v : Vector) (reason : invalidate_reason)
    (l b e newCb : Nat) : (update_ctrlBlk h v reason l b e newCb).2.1.mem = h.mem := by
  unfold update_ctrlBlk
  cases hb : h.blks v._ctrlBlk with
  | none => rfl
  | some cb =>
    by_cases hr : cb._refs = 0 <;> simp [hr]

/-- The method `destroy` touches no cell outside the window. -/
theorem destroy_mem_outside (h : Heap T) (v : Vector) (reason : invalidate_reason) (a : Nat)
    (ha : a < v._front ∨ v._front + v._length ≤ a) :
    (destroy h v reason).2.1.mem a = h.mem a := by
  have hcells : (if v._length > 0 then destroy_cells h.mem v._front v._length else h.mem) a
      = h.mem a := by
    split
    · exact destroy_cells_outside _ _ _ _ ha
    · rfl
  unfold destroy
  by_cases hbuf : v._buffer = 0 <;> by_cases hnull : v._ctrlBlk = 0
  all_goals simp only [ne_eq, hbuf, hnull, not_true_eq_false, not_false_eq_true, if_true, if_false]
  all_goals first
    | rfl
    | exact hcells
    | (cases hb : h.blks v._ctrlBlk with
       | none => first | rfl | exact hcells
       | some cb =>
         by_cases hr : (cb.invalidate reason 0 0 0)._refs = 0
         · simp only [hr, if_true] <;> first | rfl | exact hcells
         · simp only [hr, if_false] <;> first | rfl | exact hcells)

/-- The method `destroy` returns on a container without a control block. -/
theorem destroy_ok_null (h : Heap T) (v : Vector) (reason : invalidate_reason)
    (hnull : v._ctrlBlk = 0) : (destroy h v reason).1 = .ok () := by
  unfold destroy
  by_cases hbuf : v._buffer = 0 <;>
    simp only [ne_eq, hbuf, hnull, not_true_eq_false, not_false_eq_true, if_true, if_false]

/-- Once `destroy` has returned, the copy assignment is `copy`. -/
theorem assign_eq (h : Heap T) (v other : Vector) (newBuf newCb : Nat)
    (hok : (destroy h v .COPY_ASSIGN).1 = .ok ()) :
    (assign h v other false newBuf newCb).2
      = copy (destroy h v .COPY_ASSIGN).2.1 (destroy h v .COPY_ASSIGN).2.2 other newBuf newCb := by
  unfold assign
  simp only [Bool.not_false, if_true]
  rcases hdes : destroy h v .COPY_ASSIGN with ⟨out, hh, vv⟩
  rw [hdes] at hok
  dsimp only at hok
  subst hok
  rfl

/-- What `copy` builds from a source that keeps the layout `Laid`, in a block
clear of the block of the source. -/
theorem copy_laid (h : Heap T) (v other : Vector) (newBuf newCb : Nat) (xs : List T)
    (hl : other.Laid) (hxs : other.Contents h xs)
    (hbuf : other.FreshBlock newBuf other.capacity) :
    (copy h v other newBuf newCb).2.Laid ∧
    (copy h v other newBuf newCb).2.Contents (copy h v other newBuf newCb).1 xs ∧
    (copy h v other newBuf newCb).2._buffer = newBuf ∧
    (copy h v other newBuf newCb).2._buffer_end = newBuf + other.capacity ∧
    (∀ a, (a < newBuf ∨ newBuf + other.capacity ≤ a) →
      (copy h v other newBuf newCb).1.mem a = h.mem a) := by
  obtain ⟨w1, w2, w3, w5⟩ := hl
  have hlen : other._length = xs.length := hxs.1
  unfold FreshBlock capacity at hbuf
  refine ⟨?_, ?_, rfl, ?_, fun a ha => ?_⟩
  · simp only [copy, Laid]; omega
  · refine Contents.intro (by simpa [copy] using hlen) (fun k hk => ?_)
    simp only [copy]
    rw [copy_cells_dst _ _ _ _ _ (by omega) (by omega)]
    exact hxs.cell k hk
  · simp only [copy, capacity]; omega
  · simp only [copy]
    unfold capacity at ha
    exact copy_cells_outside _ _ _ _ _ (by omega)

/-- What `Vector(n)` builds: a block of `n` cells, or of `initial_size` cells
for `n = 0`, with `n` elements. -/
theorem ctor_n_laid (h : Heap T) (k : Nat) (dflt : T) (newBuf newCb : Nat) :
    (ctor_n h k dflt newBuf newCb).2.Laid ∧
    (ctor_n h k dflt newBuf newCb).2.Contents (ctor_n h k dflt newBuf newCb).1
      (List.replicate k dflt) ∧
    (ctor_n h k dflt newBuf newCb).2._buffer = newBuf ∧
    (ctor_n h k dflt newBuf newCb).2._buffer_end
      = newBuf + (if k = 0 then initial_size else k) ∧
    (∀ a, (a < newBuf ∨ newBuf + (if k = 0 then initial_size else k) ≤ a) →
      (ctor_n h k dflt newBuf newCb).1.mem a = h.mem a) := by
  by_cases hk : k = 0
  · subst hk
    refine ⟨?_, ?_, ?_, ?_, fun a _ => ?_⟩
    · simp [ctor_n, init, alloc, raw, Laid]
    · refine Contents.intro (by simp [ctor_n, init, alloc, raw]) (fun j hj => ?_)
      simp at hj
    · simp [ctor_n, init, alloc, raw]
    · simp [ctor_n, init, alloc, raw]
    · simp [ctor_n, init]
  · refine ⟨?_, ?_, ?_, ?_, fun a ha => ?_⟩
    · simp [ctor_n, init, alloc, raw, Laid, hk]
    · refine Contents.intro (by simp [ctor_n, init, alloc, raw, hk]) (fun j hj => ?_)
      simp only [List.length_replicate] at hj
      simp only [ctor_n, init, alloc, raw, hk, if_false, Nat.add_zero, List.getElem_replicate]
      exact fill_cells_at _ _ _ _ _ hj
    · simp [ctor_n, init, alloc, raw, hk]
    · simp [ctor_n, init, alloc, raw, hk]
    · rw [if_neg hk] at ha
      simp only [ctor_n, init, alloc, raw, hk, if_false]
      exact fill_cells_outside _ _ _ _ _ ha

end Vector

namespace Op

variable {T : Type}

/-- A mutator that does not throw leaves the cells and the members, other than
`_ctrlBlk`, that its buffer part has built. -/
theorem apply_state (op : Op T) (s : Heap T × Vector) (hth : op.throws s.2 = false) :
    (op.apply s).2.1.mem = (op.pre s).1 ∧
    (op.apply s).2.2._buffer = (op.pre s).2._buffer ∧
    (op.apply s).2.2._buffer_end = (op.pre s).2._buffer_end ∧
    (op.apply s).2.2._front = (op.pre s).2._front ∧
    (op.apply s).2.2._back = (op.pre s).2._back ∧
    (op.apply s).2.2._length = (op.pre s).2._length := by
  have heq := op.apply_eq s
  rw [hth] at heq
  simp only [Bool.false_eq_true, if_false] at heq
  rw [heq]
  obtain ⟨m1, m2, m3, m4, m5⟩ := Vector.update_ctrlBlk_members
    (Heap.mk (op.pre s).1 s.1.blks) (op.pre s).2 op.reason (op.location (op.pre s).2)
    (op.pre s).2._front (op.pre s).2._back op.newCb
  exact ⟨Vector.update_ctrlBlk_mem _ _ _ _ _ _ _, m1, m2, m3, m4, m5⟩

/-- A mutator that neither throws nor reads through a dangling pointer has
found the control block of the container. -/
theorem hasCtrlBlk_of_ok (op : Op T) (s : Heap T × Vector) (hth : op.throws s.2 = false)
    (hnf : (op.apply s).1 ≠ .error .fault) : s.2.HasCtrlBlk s.1 := by
  have heq := op.apply_eq s
  rw [hth] at heq
  simp only [Bool.false_eq_true, if_false] at heq
  unfold Vector.HasCtrlBlk
  cases hb : s.1.blks s.2._ctrlBlk with
  | some cb => rfl
  | none =>
    exfalso
    apply hnf
    rw [heq]
    unfold Vector.update_ctrlBlk
    dsimp only
    rw [op.pre_ctrlBlk s, hb]

/-- A mutator that returns on a container with the logical contents `xs` leaves
a container with logical contents. -/
theorem apply_contents (op : Op T) (s : Heap T × Vector) (xs : List T) (hwf : s.2.WF)
    (hcb : s.2.HasCtrlBlk s.1)
    (hnew : ∀ p, op.newBuf? = some p → s.2.FreshBlock p (2 * s.2.capacity))
    (hxs : s.2.Contents s.1 xs) (hth : op.throws s.2 = false) :
    ∃ ys, (op.apply s).2.2.Contents (op.apply s).2.1 ys := by
  obtain ⟨h, v⟩ := s
  dsimp only at hwf hcb hnew hxs hth
  have hlen : v._length = xs.length := hxs.1
  cases op with
  | push_back val newBuf newCb =>
    exact ⟨_, (Vector.push_back_contents h v xs val newBuf newCb hwf hcb (hnew _ rfl) hxs).2⟩
  | push_back_rv val newBuf newCb =>
    exact ⟨_, (Vector.push_back_contents h v xs val newBuf newCb hwf hcb (hnew _ rfl) hxs).2⟩
  | emplace_back val newBuf newCb =>
    exact ⟨_, (Vector.emplace_back_contents h v xs val newBuf newCb hwf hcb (hnew _ rfl) hxs).2⟩
  | push_front val newBuf newCb =>
    exact ⟨_, (Vector.push_front_contents h v xs val newBuf newCb hwf hcb (hnew _ rfl) hxs).2⟩
  | push_front_rv val newBuf newCb =>
    exact ⟨_, (Vector.push_front_contents h v xs val newBuf newCb hwf hcb (hnew _ rfl) hxs).2⟩
  | pop_back newCb =>
    have hl : v._length ≠ 0 := by simpa [Op.throws, Op.isInsert] using hth
    have hne : xs ≠ [] := by
      intro e; rw [e] at hlen; exact hl hlen
    exact ⟨_, (Vector.pop_back_contents h v xs newCb hwf hcb hxs hne).2.1⟩
  | pop_front newCb =>
    have hl : v._length ≠ 0 := by simpa [Op.throws, Op.isInsert] using hth
    have hne : xs ≠ [] := by
      intro e; rw [e] at hlen; exact hl hlen
    exact ⟨_, (Vector.pop_front_contents h v xs newCb hwf hcb hxs hne).2.1⟩

end Op

namespace const_iterator

variable {T : Type}

/-- The constructors, `operator+` and the destructor of a cursor touch no
element cell. -/
theorem heap_mem (h : Heap T) (d : const_iterator) (ptr b e p : Nat) (offset : Int) :
    (ctor h ptr b e p).2.mem = h.mem ∧ (ctor_copy h d).2.mem = h.mem ∧
    (d.add h offset).2.mem = h.mem ∧ (d.dtor h).2.mem = h.mem := by
  have h2 : (ctor_copy h d).2.mem = h.mem := by
    unfold ctor_copy
    dsimp only
    cases h.blks d._ctrlBlk <;> rfl
  refine ⟨?_, h2, ?_, ?_⟩
  · unfold ctor
    dsimp only
    cases h.blks p <;> rfl
  · unfold add
    cases hv : d.validate_base h with
    | error e => rfl
    | ok u =>
      dsimp only
      rcases hc : ctor_copy h d with ⟨out, h1⟩
      rw [hc] at h2
      cases out with
      | error e => exact h2
      | ok t => exact h2
  · unfold dtor
    cases h.blks d._ctrlBlk with
    | none => rfl
    | some cb =>
      dsimp only
      split <;> rfl

end const_iterator

namespace Mem

variable {T : Type} {h h1 : Heap T} {v : Vector} {vs vs1 : List Vector}

/-- The order in which the containers are listed is immaterial. -/
theorem reorder (hm : Mem h vs) (hp : vs.Perm vs1) : Mem h vs1 where
  laid := fun u hu => hm.laid u (hp.mem_iff.2 hu)
  full := fun u hu => hm.full u (hp.mem_iff.2 hu)
  apart := hm.apart.perm hp (fun hxy => Or.symm hxy)

/-- A call that changes no cell of a window keeps the bookkeeping. -/
theorem frame (hm : Mem h vs)
    (hf : ∀ u ∈ vs, ∀ a, u._front ≤ a → a < u._back → h1.mem a = h.mem a) : Mem h1 vs where
  laid := hm.laid
  full := fun u hu => by
    obtain ⟨xs, hx⟩ := hm.full u hu
    obtain ⟨-, l2, -, l4⟩ := hm.laid u hu
    exact ⟨xs, hx.congr (fun a a1 a2 => hf u hu a a1 (by omega))⟩
  apart := hm.apart

/-- The first container leaves. -/
theorem tail (hm : Mem h (v :: vs)) : Mem h vs where
  laid := fun u hu => hm.laid u (List.mem_cons_of_mem _ hu)
  full := fun u hu => hm.full u (List.mem_cons_of_mem _ hu)
  apart := (List.pairwise_cons.1 hm.apart).2

/-- The block of the first container is clear of the others. -/
theorem head_clear (hm : Mem h (v :: vs)) : ∀ u ∈ vs, v.Clear u :=
  (List.pairwise_cons.1 hm.apart).1

/-- A container joins: its window lies inside its block, its cells hold
objects, its block is clear of the others, and no cell of a block of the
others has changed. -/
theorem join (hm : Mem h vs) (hl : v.Laid) (hx : ∃ xs, v.Contents h1 xs)
    (hc : ∀ u ∈ vs, v.Clear u)
    (hout : ∀ u ∈ vs, ∀ a, u._buffer ≤ a → a < u._buffer_end → h1.mem a = h.mem a) :
    Mem h1 (v :: vs) := by
  have hm1 : Mem h1 vs := hm.frame (fun u hu a a1 a2 => by
    obtain ⟨l1, l2, l3, -⟩ := hm.laid u hu
    exact hout u hu a (by omega) (by omega))
  refine ⟨fun u hu => ?_, fun u hu => ?_, List.pairwise_cons.2 ⟨hc, hm1.apart⟩⟩
  · rcases List.mem_cons.1 hu with e | e
    · rw [e]; exact hl
    · exact hm1.laid u e
  · rcases List.mem_cons.1 hu with e | e
    · rw [e]; exact hx
    · exact hm1.full u e

/-- A container joins in a block the allocator has handed out. -/
theorem lodge (hm : Mem h vs) (p sz : Nat) (hb : v._buffer = p) (he : v._buffer_end = p + sz)
    (hl : v.Laid) (hx : ∃ xs, v.Contents h1 xs) (hfresh : ∀ u ∈ vs, u.FreshBlock p sz)
    (hout : ∀ a, (a < p ∨ p + sz ≤ a) → h1.mem a = h.mem a) : Mem h1 (v :: vs) := by
  refine hm.join hl hx (fun u hu => ?_) (fun u hu a a1 a2 => ?_)
  · have := hfresh u hu
    unfold Vector.FreshBlock at this
    unfold Vector.Clear
    omega
  · have := hfresh u hu
    unfold Vector.FreshBlock at this
    exact hout a (by omega)

end Mem

/-- The move constructor gives the new object the members of its source. -/
theorem Vector.ctor_move_fst (v : Vector) : (Vector.ctor_move v).1 = v := by
  cases v; rfl

/-- The bookkeeping of element cells holds in every state of `Tidy` reached in
fewer than `INT_MIN` calls. -/
theorem Tidy.mem {T : Type} {n : Nat} {w : World T} (ht : Tidy T n w) (hn : n < INT_MIN) :
    Mem w.heap w.vecs := by
  induction ht with
  | start h hnone =>
    exact ⟨fun v hv => (by cases hv), fun v hv => (by cases hv), List.Pairwise.nil⟩
  | @reorder m h vs vs1 cs cs1 _ hv hc ih => exact (ih hn).reorder hv
  | @vctor m h vs cs dflt newBuf newCb _ hf hb ih =>
    have hm := ih (by omega)
    dsimp only at hm ⊢
    obtain ⟨c1, c2, c3, c4, c5⟩ := Vector.ctor_n_laid h 0 dflt newBuf newCb
    exact hm.lodge (v := (Vector.ctor_n h 0 dflt newBuf newCb).2) newBuf initial_size c3 c4 c1
      ⟨_, c2⟩ hb c5
  | @vctor_n m h vs cs k dflt newBuf newCb _ hf hb ih =>
    have hm := ih (by omega)
    dsimp only at hm ⊢
    obtain ⟨c1, c2, c3, c4, c5⟩ := Vector.ctor_n_laid h k dflt newBuf newCb
    exact hm.lodge newBuf _ c3 c4 c1 ⟨_, c2⟩ hb c5
  | @vctor_copy m h vs cs other newBuf newCb _ ho hf hb ih =>
    have hm := ih (by omega)
    dsimp only at hm ⊢
    obtain ⟨xs, hxs⟩ := hm.full other ho
    obtain ⟨c1, c2, c3, c4, c5⟩ := Vector.copy_laid h Vector.raw other newBuf newCb xs
      (hm.laid other ho) hxs (hb other ho)
    exact hm.lodge (v := (Vector.ctor_copy h other newBuf newCb).2) newBuf other.capacity c3 c4
      c1 ⟨_, c2⟩ hb c5
  | @vctor_move m h v vs cs _ ih =>
    have hm := ih (by omega)
    dsimp only at hm ⊢
    have hz : Mem h ((Vector.ctor_move v).2 :: vs) :=
      hm.tail.join (v := (Vector.ctor_move v).2)
        (by unfold Vector.ctor_move Vector.Laid; simp)
        ⟨[], Vector.Contents.intro rfl (fun k hk => by cases hk)⟩
        (fun u _ => Or.inl (Nat.zero_le _)) (fun _ _ _ _ _ => rfl)
    rw [Vector.ctor_move_fst]
    refine hz.join (hm.laid v (List.mem_cons_self _ _)) (hm.full v (List.mem_cons_self _ _))
      (fun u hu => ?_) (fun _ _ _ _ _ => rfl)
    rcases List.mem_cons.1 hu with e | e
    · rw [e]; exact Or.inr (Nat.zero_le _)
    · exact hm.head_clear u e
  | @mutate m h v vs cs op _ hf hnf hb hg ih =>
    have hm := ih (by omega)
    dsimp only at hm ⊢
    by_cases hth : op.throws v = true
    · have heq := op.apply_eq (h, v)
      rw [if_pos hth] at heq
      rw [heq]
      exact hm
    · have hth1 : op.throws v = false := by
        cases hh : op.throws v
        · rfl
        · exact absurd hh hth
      have hcb := op.hasCtrlBlk_of_ok (h, v) hth1 hnf
      have hlv := hm.laid v (List.mem_cons_self _ _)
      obtain ⟨xs, hxs⟩ := hm.full v (List.mem_cons_self _ _)
      have hcap : v._buffer < v._buffer_end := by
        cases hins : op.isInsert
        · have hl : v._length ≠ 0 := by
            cases op <;> simp_all [Op.throws, Op.isInsert]
          obtain ⟨l1, l2, l3, l4⟩ := hlv
          omega
        · exact hg hins
      have hwf : v.WF := (Vector.WF_iff_laid v).2 ⟨hlv, hcap⟩
      obtain ⟨s1, s2, s3, s4, s5, s6⟩ := op.apply_state (h, v) hth1
      obtain ⟨b1, b2⟩ := op.pre_block (h, v)
      have hlaid1 : (op.apply (h, v)).2.2.Laid :=
        ((Vector.WF_iff_laid _).1 (op.apply_WF (h, v) hwf)).1
      have hx1 := op.apply_contents (h, v) xs hwf hcb
        (fun p hp => hb p hp v (List.mem_cons_self _ _)) hxs hth1
      refine hm.tail.join hlaid1 hx1 (fun u hu => ?_) (fun u hu a a1 a2 => ?_)
      · have hcl := hm.head_clear u hu
        unfold Vector.Clear at hcl ⊢
        rw [s2, s3]
        cases hgr : op.grows v
        · obtain ⟨e1, e2⟩ := b1 hgr
          rw [e1, e2]
          exact hcl
        · obtain ⟨p, e0, e1, e2⟩ := b2 hgr
          rw [e1, e2]
          have := hb p e0 u (List.mem_cons_of_mem _ hu)
          unfold Vector.FreshBlock at this
          dsimp only
          omega
      · rw [s1]
        have hcl := hm.head_clear u hu
        unfold Vector.Clear at hcl
        refine op.pre_frame (h, v) hwf a (by dsimp only; omega) (fun _ p hp => ?_)
        have := hb p hp u (List.mem_cons_of_mem _ hu)
        unfold Vector.FreshBlock at this
        dsimp only
        omega
  | @assign m h v vs cs other newBuf newCb htp ho hf hb ih =>
    have hm := ih (by omega)
    dsimp only at hm ⊢
    have hi := htp.reach.inv (by omega)
    dsimp only at hi
    have hok : (Vector.destroy h v .COPY_ASSIGN).1 = .ok () := by
      by_cases h0 : v._ctrlBlk = 0
      · exact Vector.destroy_ok_null h v _ h0
      · obtain ⟨cb, g1, -⟩ := hi.held v (List.mem_cons_self _ _) h0
        exact Vector.destroy_ok h v _ cb g1
    have hm1 : Mem (Vector.destroy h v .COPY_ASSIGN).2.1 vs :=
      hm.tail.frame (fun u hu a a1 a2 => by
        have hcl := hm.head_clear u hu
        obtain ⟨l1, l2, l3, l4⟩ := hm.laid v (List.mem_cons_self _ _)
        obtain ⟨k1, k2, k3, k4⟩ := hm.laid u (List.mem_cons_of_mem _ hu)
        unfold Vector.Clear at hcl
        exact Vector.destroy_mem_outside h v _ a (by omega))
    obtain ⟨xs, hxs⟩ := hm1.full other ho
    rw [Vector.assign_eq h v other newBuf newCb hok]
    obtain ⟨c1, c2, c3, c4, c5⟩ := Vector.copy_laid (Vector.destroy h v .COPY_ASSIGN).2.1
      (Vector.destroy h v .COPY_ASSIGN).2.2 other newBuf newCb xs (hm1.laid other ho) hxs
      (hb other ho)
    exact hm1.lodge newBuf other.capacity c3 c4 c1 ⟨_, c2⟩ hb c5
  | @vdtor m h v vs cs _ ih =>
    have hm := ih (by omega)
    dsimp only at hm ⊢
    exact hm.tail.frame (fun u hu a a1 a2 => by
      have hcl := hm.head_clear u hu
      obtain ⟨l1, l2, l3, l4⟩ := hm.laid v (List.mem_cons_self _ _)
      obtain ⟨k1, k2, k3, k4⟩ := hm.laid u (List.mem_cons_of_mem _ hu)
      unfold Vector.Clear at hcl
      exact Vector.destroy_mem_outside h v _ a (by omega))
  | @begin m h vs cs c v _ hv hok ih =>
    have hm := ih (by omega)
    dsimp only at hm ⊢
    exact hm.frame (fun _ _ a _ _ => by
      have := (const_iterator.heap_mem h c v._front v._front v._back v._ctrlBlk 0).1
      exact congrFun this a)
  | @end_ m h vs cs c v _ hv hok ih =>
    have hm := ih (by omega)
    dsimp only at hm ⊢
    exact hm.frame (fun _ _ a _ _ => by
      have := (const_iterator.heap_mem h c v._back v._front v._back v._ctrlBlk 0).1
      exact congrFun this a)
  | @icopy m h vs cs c d _ hd hok ih =>
    have hm := ih (by omega)
    dsimp only at hm ⊢
    exact hm.frame (fun _ _ a _ _ =>
      congrFun (const_iterator.heap_mem h d 0 0 0 0 0).2.1 a)
  | @add m h vs cs c d offset _ hd hok ih =>
    have hm := ih (by omega)
    dsimp only at hm ⊢
    exact hm.frame (fun _ _ a _ _ =>
      congrFun (const_iterator.heap_mem h d 0 0 0 0 offset).2.2.1 a)
  | @inc m h vs c cs _ ih => exact ih (by omega)
  | @dec m h vs c cs _ ih => exact ih (by omega)
  | @idtor m h vs c cs _ ih =>
    have hm := ih (by omega)
    dsimp only at hm ⊢
    exact hm.frame (fun _ _ a _ _ =>
      congrFun (const_iterator.heap_mem h c 0 0 0 0 0).2.2.2 a)

end epl
